import Mathlib

/-!
# Approval-test event ordering (`pkg/approvaltest/events.go`)

A shallow embedding of `ApproveEvents`, of the `sort.Interface` implementation
`apmEventSearchHits` (`Len`, `Swap`, `Less`) and of the library pieces they call.

Go strings are rendered as `String`; Go's `<` on strings is byte-wise
lexicographic, which on UTF-8 text is the code-point order of `String`.
-/

namespace gjson

/-- Value of `Result.Num`, a Go `float64`: NaN, or a number of the extended
line, which is a finite value (a rational; `-0` and `+0` compare equal), `-Inf`
(`⊥`) or `+Inf` (`⊤`). `strconv.ParseFloat` yields NaN for the literal `NaN`,
which the lookup accepts as a number although it is not JSON. -/
inductive Float64 where
  | nan
  | num (x : WithBot (WithTop ℚ))

/-- Go's `<` on `float64`: false whenever an operand is NaN. -/
def Float64.lt : Float64 → Float64 → Bool
  | .num x, .num y => decide (x < y)
  | _, _ => false

/-- The type `Type` (`type Type int`) with its six constants, in the order of
their declaration. -/
inductive Typ where
  | Null
  | False
  | Number
  | String
  | True
  | JSON
  deriving DecidableEq

/-- The integer behind a `Type` constant (`Null Type = iota`, and so on). -/
def Typ.toInt : Typ → Int
  | .Null => 0
  | .False => 1
  | .Number => 2
  | .String => 3
  | .True => 4
  | .JSON => 5

/-- The struct `gjson.Result`, restricted to the fields `Exists` and `Less`
read (`Index` and `Indexes`, the position of the value in the source, are left
out). The zero value `Result{}` is what a lookup of a path that does not
resolve returns. -/
structure Result where
  /-- Field `Type`. -/
  Typ : Typ := Typ.Null
  /-- Field `Raw`: the raw text of the value. -/
  Raw : String := ""
  /-- Field `Str`: the unescaped text of a string value. -/
  Str : String := ""
  /-- Field `Num`: the number of a numeric value. -/
  Num : Float64 := Float64.num 0

/-- The method `Result.Exists`: `t.Type != Null || len(t.Raw) != 0`. -/
def Result.Exists (t : Result) : Bool :=
  t.Typ != Typ.Null || t.Raw.length != 0

/-- The loop of `stringLessInsensitive`, position by position. -/
def stringLessInsensitiveAux : List Char → List Char → Bool
  | a :: as, b :: bs =>
    let x := a.toNat
    let y := b.toNat
    if 65 ≤ x ∧ x ≤ 90 then
      if 65 ≤ y ∧ y ≤ 90 then
        if x < y then true else if x > y then false else stringLessInsensitiveAux as bs
      else
        if x + 32 < y then true else if x + 32 > y then false
        else stringLessInsensitiveAux as bs
    else if 65 ≤ y ∧ y ≤ 90 then
      if x < y + 32 then true else if x > y + 32 then false
      else stringLessInsensitiveAux as bs
    else
      if x < y then true else if x > y then false else stringLessInsensitiveAux as bs
  | [], bs => decide (0 < bs.length)
  | _ :: _, [] => false

/-- The function `stringLessInsensitive`, which `Result.Less` calls only when
`caseSensitive` is false; `apmEventSearchHits.Less` always passes `true`. -/
def stringLessInsensitive (a b : String) : Bool :=
  stringLessInsensitiveAux a.data b.data

/-- The method `Result.Less`: types are compared first
(`Null < False < Number < String < True < JSON`), then strings by `Str`,
numbers by `Num`, and everything else by `Raw`. -/
def Result.Less (t token : Result) (caseSensitive : Bool) : Bool :=
  if t.Typ.toInt < token.Typ.toInt then true
  else if t.Typ.toInt > token.Typ.toInt then false
  else if t.Typ = Typ.String then
    if caseSensitive then decide (t.Str < token.Str)
    else stringLessInsensitive t.Str token.Str
  else if t.Typ = Typ.Number then t.Num.lt token.Num
  else decide (t.Raw < token.Raw)

/-- The result is a number whose value is NaN. -/
def Result.IsNaN (t : Result) : Prop :=
  t.Typ = Typ.Number ∧ t.Num = Float64.nan

end gjson

namespace approvaltest

/-- The struct `espoll.SearchHit`, restricted to the two fields this package
reads. `σ` is the representation of the raw `_source` of a hit. -/
structure SearchHit (σ : Type) where
  /-- Field `ID`: the document `_id`. -/
  ID : String
  /-- Field `RawSource`: the raw `_source`. -/
  RawSource : σ

/-- The variable `apmEventSortFields`. -/
def apmEventSortFields : List String :=
  [ "processor.event",
    "trace.id",
    "transaction.id",
    "span.id",
    "error.id",
    "transaction.name",
    "span.destination.service.resource",
    "transaction.type",
    "span.type",
    "service.name",
    "service.environment",
    "message",
    "metricset.interval",
    "@timestamp" ]

/-- The type `apmEventSearchHits`, a slice of hits. -/
abbrev apmEventSearchHits (σ : Type) := List (SearchHit σ)

/-- The body of `apmEventSearchHits.Less` for the two hits `hits[i]`, `hits[j]`,
with the list the `range` loop runs over as an argument. `GetBytes` is
`gjson.GetBytes`, the path lookup of the library. -/
def lessByFields {σ : Type} (GetBytes : σ → String → gjson.Result) :
    List String → SearchHit σ → SearchHit σ → Bool
  | [], hi, hj => decide (hi.ID < hj.ID)
  | field :: rest, hi, hj =>
    let ri := GetBytes hi.RawSource field
    let rj := GetBytes hj.RawSource field
    if ri.Less rj true then true
    else if rj.Less ri true then false
    else lessByFields GetBytes rest hi hj

/-- The comparison `apmEventSearchHits.Less` makes between two hits. -/
def hitLess {σ : Type} (GetBytes : σ → String → gjson.Result)
    (hi hj : SearchHit σ) : Bool :=
  lessByFields GetBytes apmEventSortFields hi hj

/-- No field of the list has a NaN number as its value in the hit. -/
def NoNaNOn {σ : Type} (GetBytes : σ → String → gjson.Result) (fields : List String)
    (h : SearchHit σ) : Prop :=
  ∀ f ∈ fields, ¬ (GetBytes h.RawSource f).IsNaN

/-- No sort key has a NaN number as its value in the hit. Every hit whose
source is JSON is such a hit. -/
def NoNaN {σ : Type} (GetBytes : σ → String → gjson.Result) (h : SearchHit σ) : Prop :=
  NoNaNOn GetBytes apmEventSortFields h

/-- The method `apmEventSearchHits.Len`. -/
def apmEventSearchHits.Len {σ : Type} (hits : apmEventSearchHits σ) : Nat :=
  hits.length

/-- The method `apmEventSearchHits.Swap`. An index outside the slice, which
panics in Go and which `sort.Sort` never passes, leaves the slice as it is. -/
def apmEventSearchHits.Swap {σ : Type} (hits : apmEventSearchHits σ) (i j : Nat) :
    apmEventSearchHits σ :=
  match hits[i]?, hits[j]? with
  | some hi, some hj => (hits.set i hj).set j hi
  | _, _ => hits

/-- The method `apmEventSearchHits.Less`. An index outside the slice, which
panics in Go and which `sort.Sort` never passes, gives `false`. -/
def apmEventSearchHits.Less {σ : Type} (GetBytes : σ → String → gjson.Result)
    (hits : apmEventSearchHits σ) (i j : Nat) : Bool :=
  match hits[i]?, hits[j]? with
  | some hi, some hj => hitLess GetBytes hi hj
  | _, _ => false

end approvaltest

namespace sort

open approvaltest

/-- The inner loop of `insertionSort`:
`for j := i; j > a && data.Less(j, j-1); j-- { data.Swap(j, j-1) }`,
started at `j`. -/
def insertionSortInner {σ : Type} (GetBytes : σ → String → gjson.Result) (a : Nat) :
    Nat → apmEventSearchHits σ → apmEventSearchHits σ
  | 0, data => data
  | j + 1, data =>
    if j + 1 > a && apmEventSearchHits.Less GetBytes data (j + 1) j then
      insertionSortInner GetBytes a j (apmEventSearchHits.Swap data (j + 1) j)
    else data

/-- The function `insertionSort(data, a, b)` of package `sort`:
`for i := a + 1; i < b; i++` around the inner loop. -/
def insertionSort {σ : Type} (GetBytes : σ → String → gjson.Result)
    (data : apmEventSearchHits σ) (a b : Nat) : apmEventSearchHits σ :=
  (List.range' (a + 1) (b - (a + 1))).foldl
    (fun hits i => insertionSortInner GetBytes a i hits) data

/-- The loop of `siftDown(data, lo, hi, first)`, started at `root`. The root
moves down with every round, so `hi` rounds are enough. -/
def siftDownLoop {σ : Type} (GetBytes : σ → String → gjson.Result) (hi first : Nat) :
    Nat → Nat → apmEventSearchHits σ → apmEventSearchHits σ
  | 0, _, data => data
  | fuel + 1, root, data =>
    if 2 * root + 1 ≥ hi then data
    else
      let child :=
        if 2 * root + 1 + 1 < hi &&
            apmEventSearchHits.Less GetBytes data (first + (2 * root + 1))
              (first + (2 * root + 1) + 1) then
          2 * root + 1 + 1
        else 2 * root + 1
      if !apmEventSearchHits.Less GetBytes data (first + root) (first + child) then data
      else
        siftDownLoop GetBytes hi first fuel child
          (apmEventSearchHits.Swap data (first + root) (first + child))

/-- The function `siftDown(data, lo, hi, first)`. -/
def siftDown {σ : Type} (GetBytes : σ → String → gjson.Result)
    (data : apmEventSearchHits σ) (lo hi first : Nat) : apmEventSearchHits σ :=
  siftDownLoop GetBytes hi first hi lo data

/-- The first loop of `heapSort`:
`for i := (hi - 1) / 2; i >= 0; i-- { siftDown(data, i, hi, first) }`, started
at `i`. -/
def heapSortBuild {σ : Type} (GetBytes : σ → String → gjson.Result) (hi first : Nat) :
    Nat → apmEventSearchHits σ → apmEventSearchHits σ
  | 0, data => siftDown GetBytes data 0 hi first
  | i + 1, data =>
    heapSortBuild GetBytes hi first i (siftDown GetBytes data (i + 1) hi first)

/-- The second loop of `heapSort`:
`for i := hi - 1; i >= 0; i-- { data.Swap(first, first+i); siftDown(data, lo, i, first) }`,
started at `i`. -/
def heapSortPop {σ : Type} (GetBytes : σ → String → gjson.Result) (first : Nat) :
    Nat → apmEventSearchHits σ → apmEventSearchHits σ
  | 0, data => siftDown GetBytes (apmEventSearchHits.Swap data first (first + 0)) 0 0 first
  | i + 1, data =>
    heapSortPop GetBytes first i
      (siftDown GetBytes (apmEventSearchHits.Swap data first (first + (i + 1))) 0 (i + 1) first)

/-- The function `heapSort(data, a, b)`. -/
def heapSort {σ : Type} (GetBytes : σ → String → gjson.Result)
    (data : apmEventSearchHits σ) (a b : Nat) : apmEventSearchHits σ :=
  let first := a
  let hi := b - a
  let data := heapSortBuild GetBytes hi first ((hi - 1) / 2) data
  if hi = 0 then data else heapSortPop GetBytes first (hi - 1) data

/-- The loop `for i <= j && data.Less(i, a) { i++ }` of `partition`: the value
of `i` when it ends. -/
def partitionUp {σ : Type} (GetBytes : σ → String → gjson.Result)
    (data : apmEventSearchHits σ) (a j : Nat) : Nat → Nat → Nat
  | 0, i => i
  | fuel + 1, i =>
    if i ≤ j && apmEventSearchHits.Less GetBytes data i a then
      partitionUp GetBytes data a j fuel (i + 1)
    else i

/-- The loop `for i <= j && !data.Less(j, a) { j-- }` of `partition`: the value
of `j` when it ends. -/
def partitionDown {σ : Type} (GetBytes : σ → String → gjson.Result)
    (data : apmEventSearchHits σ) (a i : Nat) : Nat → Nat
  | 0 => 0
  | j + 1 =>
    if i ≤ j + 1 && !apmEventSearchHits.Less GetBytes data (j + 1) a then
      partitionDown GetBytes data a i j
    else j + 1

/-- The `for` loop of `partition`, from its two inner loops to the `break`:
the slice and the value of `j` when it ends. -/
def partitionLoop {σ : Type} (GetBytes : σ → String → gjson.Result) (a : Nat) :
    Nat → apmEventSearchHits σ → Nat → Nat → apmEventSearchHits σ × Nat
  | 0, data, _, j => (data, j)
  | fuel + 1, data, i, j =>
    let i1 := partitionUp GetBytes data a j (j + 1 - i) i
    let j1 := partitionDown GetBytes data a i1 j
    if i1 > j1 then (data, j1)
    else partitionLoop GetBytes a fuel (apmEventSearchHits.Swap data i1 j1) (i1 + 1) (j1 - 1)

/-- The function `partition(data, a, b, pivot)`: the slice, `newpivot` and
`alreadyPartitioned`. -/
def partition {σ : Type} (GetBytes : σ → String → gjson.Result)
    (data : apmEventSearchHits σ) (a b pivot : Nat) : apmEventSearchHits σ × Nat × Bool :=
  let data := apmEventSearchHits.Swap data a pivot
  let i := partitionUp GetBytes data a (b - 1) (b - 1 + 1 - (a + 1)) (a + 1)
  let j := partitionDown GetBytes data a i (b - 1)
  if i > j then (apmEventSearchHits.Swap data j a, j, true)
  else
    let r := partitionLoop GetBytes a (b - a) (apmEventSearchHits.Swap data i j) (i + 1) (j - 1)
    (apmEventSearchHits.Swap r.1 r.2 a, r.2, false)

/-- The loop `for i <= j && !data.Less(a, i) { i++ }` of `partitionEqual`. -/
def partitionEqualUp {σ : Type} (GetBytes : σ → String → gjson.Result)
    (data : apmEventSearchHits σ) (a j : Nat) : Nat → Nat → Nat
  | 0, i => i
  | fuel + 1, i =>
    if i ≤ j && !apmEventSearchHits.Less GetBytes data a i then
      partitionEqualUp GetBytes data a j fuel (i + 1)
    else i

/-- The loop `for i <= j && data.Less(a, j) { j-- }` of `partitionEqual`. -/
def partitionEqualDown {σ : Type} (GetBytes : σ → String → gjson.Result)
    (data : apmEventSearchHits σ) (a i : Nat) : Nat → Nat
  | 0 => 0
  | j + 1 =>
    if i ≤ j + 1 && apmEventSearchHits.Less GetBytes data a (j + 1) then
      partitionEqualDown GetBytes data a i j
    else j + 1

/-- The `for` loop of `partitionEqual`: the slice and the value of `i` when it
ends. -/
def partitionEqualLoop {σ : Type} (GetBytes : σ → String → gjson.Result) (a : Nat) :
    Nat → apmEventSearchHits σ → Nat → Nat → apmEventSearchHits σ × Nat
  | 0, data, i, _ => (data, i)
  | fuel + 1, data, i, j =>
    let i1 := partitionEqualUp GetBytes data a j (j + 1 - i) i
    let j1 := partitionEqualDown GetBytes data a i1 j
    if i1 > j1 then (data, i1)
    else
      partitionEqualLoop GetBytes a fuel (apmEventSearchHits.Swap data i1 j1) (i1 + 1) (j1 - 1)

/-- The function `partitionEqual(data, a, b, pivot)`: the slice and
`newpivot`. -/
def partitionEqual {σ : Type} (GetBytes : σ → String → gjson.Result)
    (data : apmEventSearchHits σ) (a b pivot : Nat) : apmEventSearchHits σ × Nat :=
  partitionEqualLoop GetBytes a (b - a + 1) (apmEventSearchHits.Swap data a pivot) (a + 1) (b - 1)

/-- The loop `for i < b && !data.Less(i, i-1) { i++ }` of
`partialInsertionSort`: the value of `i` when it ends. -/
def partialInsertionSortScan {σ : Type} (GetBytes : σ → String → gjson.Result)
    (data : apmEventSearchHits σ) (b : Nat) : Nat → Nat → Nat
  | 0, i => i
  | fuel + 1, i =>
    if i < b && !apmEventSearchHits.Less GetBytes data i (i - 1) then
      partialInsertionSortScan GetBytes data b fuel (i + 1)
    else i

/-- The loop of `partialInsertionSort` that shifts the smaller element to the
left: `for j := i - 1; j >= 1; j-- { if !data.Less(j, j-1) { break }; data.Swap(j, j-1) }`,
started at `j`. -/
def partialInsertionSortLeft {σ : Type} (GetBytes : σ → String → gjson.Result) :
    Nat → apmEventSearchHits σ → apmEventSearchHits σ
  | 0, data => data
  | j + 1, data =>
    if !apmEventSearchHits.Less GetBytes data (j + 1) j then data
    else partialInsertionSortLeft GetBytes j (apmEventSearchHits.Swap data (j + 1) j)

/-- The loop of `partialInsertionSort` that shifts the greater element to the
right: `for j := i + 1; j < b; j++ { if !data.Less(j, j-1) { break }; data.Swap(j, j-1) }`,
started at `j`. -/
def partialInsertionSortRight {σ : Type} (GetBytes : σ → String → gjson.Result) (b : Nat) :
    Nat → Nat → apmEventSearchHits σ → apmEventSearchHits σ
  | 0, _, data => data
  | fuel + 1, j, data =>
    if j < b then
      if !apmEventSearchHits.Less GetBytes data j (j - 1) then data
      else
        partialInsertionSortRight GetBytes b fuel (j + 1)
          (apmEventSearchHits.Swap data j (j - 1))
    else data

/-- The outer loop of `partialInsertionSort`, `for j := 0; j < maxSteps; j++`,
with `steps` rounds left: the slice and whether it is reported sorted. -/
def partialInsertionSortLoop {σ : Type} (GetBytes : σ → String → gjson.Result) (a b : Nat) :
    Nat → Nat → apmEventSearchHits σ → apmEventSearchHits σ × Bool
  | 0, _, data => (data, false)
  | steps + 1, i, data =>
    let i1 := partialInsertionSortScan GetBytes data b (b - i) i
    if i1 = b then (data, true)
    else if b - a < 50 then (data, false)
    else
      let data1 := apmEventSearchHits.Swap data i1 (i1 - 1)
      let data2 :=
        if i1 - a ≥ 2 then partialInsertionSortLeft GetBytes (i1 - 1) data1 else data1
      let data3 :=
        if b - i1 ≥ 2 then partialInsertionSortRight GetBytes b (b - i1) (i1 + 1) data2
        else data2
      partialInsertionSortLoop GetBytes a b steps i1 data3

/-- The function `partialInsertionSort(data, a, b)` (`maxSteps = 5`,
`shortestShifting = 50`). -/
def partialInsertionSort {σ : Type} (GetBytes : σ → String → gjson.Result)
    (data : apmEventSearchHits σ) (a b : Nat) : apmEventSearchHits σ × Bool :=
  partialInsertionSortLoop GetBytes a b 5 (a + 1) data

/-- The function `bits.Len`: the number of bits needed to write `x`. -/
def bitsLen (x : Nat) : Nat :=
  if x = 0 then 0 else Nat.log2 x + 1

/-- The method `xorshift.Next` on a `uint64`:
`*r ^= *r << 13; *r ^= *r >> 17; *r ^= *r << 5`, the left shifts cut to 64
bits. -/
def xorshiftNext (r : Nat) : Nat :=
  let r1 := r ^^^ ((r <<< 13) % 2 ^ 64)
  let r2 := r1 ^^^ (r1 >>> 17)
  r2 ^^^ ((r2 <<< 5) % 2 ^ 64)

/-- The function `nextPowerOfTwo(length)`. -/
def nextPowerOfTwo (length : Nat) : Nat :=
  1 <<< bitsLen length

/-- The loop `for i := 0; i < 3; i++` of `breakPatterns`, with `steps` rounds
left. -/
def breakPatternsLoop {σ : Type} (a length modulus idx : Nat) :
    Nat → Nat → Nat → apmEventSearchHits σ → apmEventSearchHits σ
  | 0, _, _, data => data
  | steps + 1, i, random, data =>
    let random1 := xorshiftNext random
    let other0 := random1 &&& (modulus - 1)
    let other := if other0 ≥ length then other0 - length else other0
    breakPatternsLoop a length modulus idx steps (i + 1) random1
      (apmEventSearchHits.Swap data (idx - 1 + i) (a + other))

/-- The function `breakPatterns(data, a, b)`. -/
def breakPatterns {σ : Type} (data : apmEventSearchHits σ) (a b : Nat) :
    apmEventSearchHits σ :=
  let length := b - a
  if length ≥ 8 then
    breakPatternsLoop a length (nextPowerOfTwo length) (a + (length / 4) * 2 - 1) 3 0 length data
  else data

/-- The type `sortedHint`. -/
inductive sortedHint where
  | unknownHint
  | increasingHint
  | decreasingHint
  deriving DecidableEq

/-- The function `order2(data, a, b, swaps)`: the two indices in order and the
new count of swaps. -/
def order2 {σ : Type} (GetBytes : σ → String → gjson.Result)
    (data : apmEventSearchHits σ) (a b swaps : Nat) : Nat × Nat × Nat :=
  if apmEventSearchHits.Less GetBytes data b a then (b, a, swaps + 1) else (a, b, swaps)

/-- The function `median(data, a, b, c, swaps)`: the index of the median and
the new count of swaps. -/
def median {σ : Type} (GetBytes : σ → String → gjson.Result)
    (data : apmEventSearchHits σ) (a b c swaps : Nat) : Nat × Nat :=
  let r1 := order2 GetBytes data a b swaps
  let r2 := order2 GetBytes data r1.2.1 c r1.2.2
  let r3 := order2 GetBytes data r1.1 r2.1 r2.2.2
  (r3.2.1, r3.2.2)

/-- The function `medianAdjacent(data, a, swaps)`. -/
def medianAdjacent {σ : Type} (GetBytes : σ → String → gjson.Result)
    (data : apmEventSearchHits σ) (a swaps : Nat) : Nat × Nat :=
  median GetBytes data (a - 1) a (a + 1) swaps

/-- The function `choosePivot(data, a, b)` (`shortestNinther = 50`,
`maxSwaps = 12`). -/
def choosePivot {σ : Type} (GetBytes : σ → String → gjson.Result)
    (data : apmEventSearchHits σ) (a b : Nat) : Nat × sortedHint :=
  let l := b - a
  let i := a + l / 4 * 1
  let j := a + l / 4 * 2
  let k := a + l / 4 * 3
  let r :=
    if l ≥ 8 then
      if l ≥ 50 then
        let mi := medianAdjacent GetBytes data i 0
        let mj := medianAdjacent GetBytes data j mi.2
        let mk := medianAdjacent GetBytes data k mj.2
        median GetBytes data mi.1 mj.1 mk.1 mk.2
      else median GetBytes data i j k 0
    else (j, 0)
  if r.2 = 0 then (r.1, sortedHint.increasingHint)
  else if r.2 = 12 then (r.1, sortedHint.decreasingHint)
  else (r.1, sortedHint.unknownHint)

/-- The loop of `reverseRange`: `for i < j { data.Swap(i, j); i++; j-- }`. -/
def reverseRangeLoop {σ : Type} :
    Nat → Nat → Nat → apmEventSearchHits σ → apmEventSearchHits σ
  | 0, _, _, data => data
  | fuel + 1, i, j, data =>
    if i < j then reverseRangeLoop fuel (i + 1) (j - 1) (apmEventSearchHits.Swap data i j)
    else data

/-- The function `reverseRange(data, a, b)`. -/
def reverseRange {σ : Type} (data : apmEventSearchHits σ) (a b : Nat) :
    apmEventSearchHits σ :=
  reverseRangeLoop (b - a) a (b - 1) data

/-- The `for` loop of `pdqsort(data, a, b, limit)` (`maxInsertion = 12`), with
the flags `wasBalanced` and `wasPartitioned` of the round; the call of
`pdqsort` inside the loop starts it again with both flags true. Every round
that goes on leaves a shorter range, so fuel above `b - a` is enough. -/
def pdqsortLoop {σ : Type} (GetBytes : σ → String → gjson.Result) :
    Nat → apmEventSearchHits σ → Nat → Nat → Nat → Bool → Bool → apmEventSearchHits σ
  | 0, data, _, _, _, _, _ => data
  | fuel + 1, data, a, b, limit, wasBalanced, wasPartitioned =>
    let length := b - a
    if length ≤ 12 then insertionSort GetBytes data a b
    else if limit = 0 then heapSort GetBytes data a b
    else
      let data1 := if !wasBalanced then breakPatterns data a b else data
      let limit1 := if !wasBalanced then limit - 1 else limit
      let c := choosePivot GetBytes data1 a b
      let data2 :=
        if c.2 = sortedHint.decreasingHint then reverseRange data1 a b else data1
      let pivot :=
        if c.2 = sortedHint.decreasingHint then (b - 1) - (c.1 - a) else c.1
      let hint :=
        if c.2 = sortedHint.decreasingHint then sortedHint.increasingHint else c.2
      let p :=
        if wasBalanced && wasPartitioned && hint = sortedHint.increasingHint then
          partialInsertionSort GetBytes data2 a b
        else (data2, false)
      if p.2 then p.1
      else if a > 0 && !apmEventSearchHits.Less GetBytes p.1 (a - 1) pivot then
        let e := partitionEqual GetBytes p.1 a b pivot
        pdqsortLoop GetBytes fuel e.1 e.2 b limit1 wasBalanced wasPartitioned
      else
        let q := partition GetBytes p.1 a b pivot
        let mid := q.2.1
        let leftLen := mid - a
        let rightLen := b - mid
        let balanceThreshold := length / 8
        if leftLen < rightLen then
          pdqsortLoop GetBytes fuel
            (pdqsortLoop GetBytes fuel q.1 a mid limit1 true true)
            (mid + 1) b limit1 (leftLen ≥ balanceThreshold) q.2.2
        else
          pdqsortLoop GetBytes fuel
            (pdqsortLoop GetBytes fuel q.1 (mid + 1) b limit1 true true)
            a mid limit1 (rightLen ≥ balanceThreshold) q.2.2

/-- The function `pdqsort(data, a, b, limit)`. -/
def pdqsort {σ : Type} (GetBytes : σ → String → gjson.Result)
    (data : apmEventSearchHits σ) (a b limit : Nat) : apmEventSearchHits σ :=
  pdqsortLoop GetBytes (b - a + 1) data a b limit true true

/-- The call `sort.Sort(apmEventSearchHits(hits))`: nothing to do when
`Len() <= 1`, else `pdqsort(data, 0, n, bits.Len(uint(n)))`. -/
def SortHits {σ : Type} (GetBytes : σ → String → gjson.Result)
    (data : apmEventSearchHits σ) : apmEventSearchHits σ :=
  let n := apmEventSearchHits.Len data
  if n ≤ 1 then data else pdqsort GetBytes data 0 n (bitsLen n)

end sort
namespace filepath

/-- The backtracking of `Clean` at a `..` element:
`for out.w > dotdot && !os.IsPathSeparator(out.index(out.w)) { out.w-- }`,
as the value of `out.w` when the loop ends. -/
def backtrack (out : List Char) (dotdot : Nat) : Nat → Nat
  | 0 => 0
  | w + 1 =>
    if w + 1 > dotdot && out[w + 1]? != some '/' then backtrack out dotdot w else w + 1

/-- Whether the bytes read next end a path element: the end of the path or a
separator. -/
def endsElement : List Char → Bool
  | [] => true
  | c :: _ => c == '/'

/-- The main loop of `Clean` (Unix, `Separator = '/'`): `path` is what is left
to read, `out` what has been written. Every round reads at least one byte, so
fuel equal to the length of the path is enough. -/
def cleanLoop (rooted : Bool) : Nat → List Char → List Char → Nat → List Char
  | 0, _, out, _ => out
  | _ + 1, [], out, _ => out
  | fuel + 1, c :: rest, out, dotdot =>
    if c == '/' then
      cleanLoop rooted fuel rest out dotdot
    else if c == '.' && endsElement rest then
      cleanLoop rooted fuel rest out dotdot
    else if c == '.' && rest.head? == some '.' && endsElement (rest.drop 1) then
      if out.length > dotdot then
        cleanLoop rooted fuel (rest.drop 1)
          (out.take (backtrack out dotdot (out.length - 1))) dotdot
      else if !rooted then
        let out1 := if out.length > 0 then out ++ ['/'] else out
        let out2 := out1 ++ ['.', '.']
        cleanLoop rooted fuel (rest.drop 1) out2 out2.length
      else
        cleanLoop rooted fuel (rest.drop 1) out dotdot
    else
      let out1 :=
        if (rooted && out.length != 1) || (!rooted && out.length != 0) then out ++ ['/']
        else out
      cleanLoop rooted fuel ((c :: rest).dropWhile (fun x => x != '/'))
        (out1 ++ (c :: rest).takeWhile (fun x => x != '/')) dotdot

/-- The function `filepath.Clean` on Unix (no volume names, `FromSlash` is the
identity). -/
def Clean (path : String) : String :=
  if path = "" then "."
  else
    let rooted := path.data.head? == some '/'
    let out :=
      if rooted then cleanLoop rooted path.length (path.data.drop 1) ['/'] 1
      else cleanLoop rooted path.length path.data [] 0
    if out.length = 0 then "." else String.mk out

/-- The function `filepath.Join` on Unix: the elements from the first non-empty
one on, joined with the separator and cleaned; the empty string when every
element is empty. -/
def Join : List String → String
  | [] => ""
  | e :: rest =>
    if e ≠ "" then Clean ("/".intercalate (e :: rest)) else Join rest

/-- The path elements of a path: the pieces between its separators. -/
def splitPath : List Char → List (List Char)
  | [] => [[]]
  | c :: cs =>
    if c = '/' then [] :: splitPath cs
    else
      match splitPath cs with
      | [] => [[c]]
      | w :: ws => (c :: w) :: ws

/-- Specification of path cleaning, on the elements of a path that is not
rooted, after the rules in the documentation of `Clean`: an empty element
("replace multiple Separator elements with a single one") and a `.` element are
dropped; a `..` element is dropped "along with the non-`..` element that
precedes it", and stays when nothing or a `..` precedes it; every other element
stays. `kept` holds the elements kept so far, the last one first. -/
def cleanElements (kept : List (List Char)) : List (List Char) → List (List Char)
  | [] => kept
  | e :: es =>
    if e = [] ∨ e = ['.'] then cleanElements kept es
    else if e = ['.', '.'] then
      match kept with
      | [] => cleanElements [e] es
      | top :: below =>
        if top = ['.', '.'] then cleanElements (e :: kept) es else cleanElements below es
    else cleanElements (e :: kept) es

/-- The elements with a separator between every two of them. -/
def joinPath : List (List Char) → List Char
  | [] => []
  | [e] => e
  | e :: es => e ++ '/' :: joinPath es

/-- Specification of `Clean` for a path that is not rooted: the elements of the
path, cleaned and joined; "if the result of this process is an empty string,
Clean returns the string `.`". -/
def CleanSpec (path : String) : String :=
  let out := joinPath (cleanElements [] (splitPath path.data)).reverse
  if out = [] then "." else String.mk out

end filepath
namespace approvaltest

/-- The arguments of the call `ApproveEventDocs(t, name, eventDocs, dynamic...)`
that ends `ApproveEvents`. -/
structure ApproveEventDocsCall (σ : Type) where
  /-- The reference name handed on. -/
  name : String
  /-- The event documents handed on. -/
  eventDocs : List σ
  /-- The dynamic fields handed on. -/
  dynamic : List String

/-- The function `ApproveEvents`, as the call of `ApproveEventDocs` it ends
with: the defaults are put before the caller's dynamic fields, the hits are
sorted, and their sources are collected in the sorted order. -/
def ApproveEvents {σ : Type} (GetBytes : σ → String → gjson.Result) (name : String)
    (hits : List (SearchHit σ)) (dynamic : List String) : ApproveEventDocsCall σ :=
  let dynamic :=
    [ "ecs.version",
      "event.ingested",
      "observer.ephemeral_id",
      "observer.hostname",
      "observer.id",
      "observer.version" ] ++ dynamic
  let hits := sort.SortHits GetBytes hits
  let sources := hits.map (fun hit => hit.RawSource)
  { name := filepath.Join ["approvals", name], eventDocs := sources, dynamic := dynamic }

end approvaltest

namespace approvaltest

/-- Modelled from the spec: the Document of §3, "an immutable tree of JSON-like
values (objects, arrays, scalars, null), addressable by dotted path
expressions". A number keeps its literal and its value, also the literal `NaN`
that the lookup reads as a number; an object keeps its members in order. -/
inductive Document where
  | null
  | bool (b : Bool)
  | number (raw : String) (num : gjson.Float64)
  | string (s : String)
  | array (items : List Document)
  | object (members : List (String × Document))

/-- The pieces of a list of characters between its dots. -/
def splitDots : List Char → List (List Char)
  | [] => [[]]
  | c :: cs =>
    if c = '.' then [] :: splitDots cs
    else
      match splitDots cs with
      | [] => [[c]]
      | w :: ws => (c :: w) :: ws

/-- Modelled from the spec: a dotted path expression such as `service.name`,
as the keys it names from the root down. -/
def pathKeys (path : String) : List String :=
  (splitDots path.data).map String.mk

/-- Modelled from the spec: the value a Document holds at a path, if the path
resolves: each key is looked up among the members of an object, the first
member with that key counting. -/
def Document.get : Document → List String → Option Document
  | d, [] => some d
  | .object members, k :: ks =>
    match members.lookup k with
    | some v => v.get ks
    | none => none
  | _, _ :: _ => none

/-- The members of an object with `f` applied to the value of the first member
whose key is `k`. -/
def setMember (k : String) (f : Document → Document) :
    List (String × Document) → List (String × Document)
  | [] => []
  | (key, v) :: rest =>
    if key == k then (key, f v) :: rest else (key, v) :: setMember k f rest

/-- Modelled from the spec: the Document with the value at a path replaced,
everything else and the order of members unchanged; a path that does not
resolve changes nothing. -/
def Document.set : Document → List String → Document → Document
  | _, [], s => s
  | .object members, k :: ks, s => .object (setMember k (fun v => v.set ks s) members)
  | d, _ :: _, _ => d

/-- Modelled from the spec: one step of the Field Masker of §4.2: a path that
exists in the document has its value replaced with the sentinel, a string;
"a path that does not resolve in the document is simply a no-op". -/
def maskField (sentinel : String) (doc : Document) (path : String) : Document :=
  if (doc.get (pathKeys path)).isSome then
    doc.set (pathKeys path) (Document.string sentinel)
  else doc

/-- Modelled from the spec: `Normalize(doc, dynamicFields)` of §4.2, the
rewrite `ApproveEventDocs` applies to every document and which is not in the
source given here: "for each path in `dynamicFields` that exists in `doc`, the
value at that path is replaced with one fixed sentinel value". -/
def Normalize (sentinel : String) (doc : Document) (dynamicFields : List String) :
    Document :=
  dynamicFields.foldl (maskField sentinel) doc

mutual
/-- The JSON text of a Document. -/
def Document.render : Document → String
  | .null => "null"
  | .bool true => "true"
  | .bool false => "false"
  | .number raw _ => raw
  | .string s => "\"" ++ s ++ "\""
  | .array items => "[" ++ renderItems items ++ "]"
  | .object members => "\x7b" ++ renderMembers members ++ "\x7d"
/-- The JSON text of the items of an array. -/
def renderItems : List Document → String
  | [] => ""
  | [d] => d.render
  | d :: rest => d.render ++ "," ++ renderItems rest
/-- The JSON text of the members of an object. -/
def renderMembers : List (String × Document) → String
  | [] => ""
  | [(k, v)] => "\"" ++ k ++ "\":" ++ v.render
  | (k, v) :: rest => "\"" ++ k ++ "\":" ++ v.render ++ "," ++ renderMembers rest
end

/-- The `gjson.Result` of a value found in a document: its type, its raw text,
and the string or number it holds. -/
def Document.toResult : Document → gjson.Result
  | .null => { Typ := gjson.Typ.Null, Raw := "null" }
  | .bool true => { Typ := gjson.Typ.True, Raw := "true" }
  | .bool false => { Typ := gjson.Typ.False, Raw := "false" }
  | .number raw num => { Typ := gjson.Typ.Number, Raw := raw, Num := num }
  | .string s => { Typ := gjson.Typ.String, Raw := "\"" ++ s ++ "\"", Str := s }
  | .array items => { Typ := gjson.Typ.JSON, Raw := (Document.array items).render }
  | .object members => { Typ := gjson.Typ.JSON, Raw := (Document.object members).render }

/-- The lookup `gjson.GetBytes(json, path)` on a source that is a Document:
the result of the value at the path, or the zero `Result{}` when the path does
not resolve. The statements below hold for every lookup function; this one
instantiates them. -/
def Document.GetBytes (json : Document) (path : String) : gjson.Result :=
  match json.get (pathKeys path) with
  | some v => v.toResult
  | none => {}

end approvaltest

/-!
## Example inputs

The hits and the document at which the statements below are instantiated.
-/

namespace approvaltest

/-- Scenario A of the spec: a hit whose `trace.id` is `"1"`, every other sort key
absent. -/
def scenarioA1 : SearchHit Document :=
  { ID := "id-z", RawSource := .object [("trace", .object [("id", .string "1")])] }

/-- Scenario A of the spec: a hit whose `trace.id` is `"2"`, every other sort key
absent. -/
def scenarioA2 : SearchHit Document :=
  { ID := "id-a", RawSource := .object [("trace", .object [("id", .string "2")])] }

/-- Scenario B of the spec: the hit with ID `"doc-a"`. -/
def scenarioBa : SearchHit Document :=
  { ID := "doc-a",
    RawSource := .object
      [("trace", .object [("id", .string "t1")]),
       ("transaction", .object [("id", .string "x1")])] }

/-- Scenario B of the spec: the hit with ID `"doc-b"`, the same source. -/
def scenarioBb : SearchHit Document :=
  { ID := "doc-b",
    RawSource := .object
      [("trace", .object [("id", .string "t1")]),
       ("transaction", .object [("id", .string "x1")])] }

/-- A hit with ID `"doc-1"` and a field that is no sort key. -/
def sameID1 : SearchHit Document :=
  { ID := "doc-1", RawSource := .object [("labels", .object [("k", .string "1")])] }

/-- A hit with the same ID `"doc-1"` and sort keys, and another value of the
field that is no sort key. -/
def sameID2 : SearchHit Document :=
  { ID := "doc-1", RawSource := .object [("labels", .object [("k", .string "2")])] }

/-- A hit whose `message` is the number `1`. -/
def messageNumber : SearchHit Document :=
  { ID := "m3", RawSource := .object [("message", .number "1" (gjson.Float64.num ((1 : ℚ) : WithBot (WithTop ℚ))))] }

/-- A hit whose `message` is the string `"x"`. -/
def messageString : SearchHit Document :=
  { ID := "m2", RawSource := .object [("message", .string "x")] }

/-- A hit whose `message` is `true`. -/
def messageTrue : SearchHit Document :=
  { ID := "m1", RawSource := .object [("message", .bool true)] }

/-- A hit with the given ID whose `message` is a number with the given literal
and value, every other sort key absent. -/
def messageHit (id raw : String) (num : gjson.Float64) : SearchHit Document :=
  { ID := id, RawSource := .object [("message", .number raw num)] }

/-- The hit with ID `"a"` whose `message` is `2`. -/
def hit2a : SearchHit Document :=
  messageHit "a" "2" (gjson.Float64.num ((2 : ℚ) : WithBot (WithTop ℚ)))

/-- The hit with ID `"b"` whose `message` is the literal `NaN`. -/
def hitNaNb : SearchHit Document :=
  messageHit "b" "NaN" gjson.Float64.nan

/-- The hit with ID `"c"` whose `message` is `1`. -/
def hit1c : SearchHit Document :=
  messageHit "c" "1" (gjson.Float64.num ((1 : ℚ) : WithBot (WithTop ℚ)))

/-- The hit with ID `"d"` whose `message` is `1`. -/
def hit1d : SearchHit Document :=
  messageHit "d" "1" (gjson.Float64.num ((1 : ℚ) : WithBot (WithTop ℚ)))

/-- The hit with ID `"d"` whose `message` is the literal `NaN`. -/
def hitNaNd : SearchHit Document :=
  messageHit "d" "NaN" gjson.Float64.nan

/-- The hit with ID `"d"` whose `message` is `2`. -/
def hit2d : SearchHit Document :=
  messageHit "d" "2" (gjson.Float64.num ((2 : ℚ) : WithBot (WithTop ℚ)))

/-- A third hit with ID `"doc-1"` and no sort key. -/
def sameID3 : SearchHit Document :=
  { ID := "doc-1", RawSource := .object [("labels", .object [("k", .string "3")])] }

/-- A hit without `trace.id`. -/
def traceMissing : SearchHit Document :=
  { ID := "id-z", RawSource := .object [("trace", .object [])] }

/-- A hit whose `trace.id` is `null`. -/
def traceNull : SearchHit Document :=
  { ID := "id-a", RawSource := .object [("trace", .object [("id", .null)])] }

/-- Scenario C of the spec: a document with `observer.id = "xyz123"`. -/
def observerDoc : Document :=
  .object [("observer", .object [("id", .string "xyz123")])]

/-- The bytes of a raw `_source`: the JSON text of a Document, or the empty
byte slice, which is the text of no JSON value. -/
inductive RawSource where
  | json (d : Document)
  | empty

/-- The lookup `gjson.GetBytes(json, path)` on the bytes of a raw source: on the
text of a Document the lookup in the Document; on the empty slice, where the
library has nothing to scan, the zero `Result{}` for every path. The library
returns a `Result` and no error in either case. -/
def RawSource.GetBytes : RawSource → String → gjson.Result
  | .json d, path => d.GetBytes path
  | .empty, _ => {}

/-- A hit whose raw source is the empty byte slice and does not parse. -/
def emptySourceHit : SearchHit RawSource :=
  { ID := "id-z", RawSource := .empty }

/-- A hit whose raw source is the text of a document with `trace.id` `"1"`. -/
def parsedSourceHit : SearchHit RawSource :=
  { ID := "id-a",
    RawSource := .json (.object [("trace", .object [("id", .string "1")])]) }

end approvaltest


/-!
## Predicates on ranges of a slice

Used to state what the functions of package `sort` do to `data[a:b]`.
-/

namespace sort

open approvaltest

/-- In `data[a:b]` no hit is `Less` than a hit at an earlier position. -/
def RangeSorted {σ : Type} (GetBytes : σ → String → gjson.Result) (l : apmEventSearchHits σ)
    (a b : Nat) : Prop :=
  ∀ i j, a ≤ i → i < j → j < b → apmEventSearchHits.Less GetBytes l j i = false

/-- The slice `l2` is `l1` with `data[a:b]` reordered: the length and the
positions outside are the same, each hit inside was inside. -/
def RangeFrame {σ : Type} (l1 l2 : apmEventSearchHits σ) (a b : Nat) : Prop :=
  l2.length = l1.length ∧
  (∀ k, k < a ∨ b ≤ k → l2[k]? = l1[k]?) ∧
  (∀ k, a ≤ k → k < b → ∃ k2, a ≤ k2 ∧ k2 < b ∧ l2[k]? = l1[k2]?)

/-- The hit before `data[a:b]`, if there is one, is not greater than any hit of
`data[a:b]`. -/
def LowerBound {σ : Type} (GetBytes : σ → String → gjson.Result) (l : apmEventSearchHits σ)
    (a b : Nat) : Prop :=
  0 < a → ∀ k, a ≤ k → k < b → apmEventSearchHits.Less GetBytes l k (a - 1) = false

/-- The position that `Swap(i, j)` moves to position `k`. -/
def swapIndex (i j k : Nat) : Nat :=
  if k = i then j else if k = j then i else k

/-- The state of an insertion into `data[a:m+1]` with the moving hit at `j`:
the other hits are in order and the moving hit is `Less` than every hit after
it. -/
def HoleSorted {σ : Type} (GetBytes : σ → String → gjson.Result) (l : apmEventSearchHits σ)
    (a j m : Nat) : Prop :=
  (∀ p q, a ≤ p → p < q → q ≤ m → p ≠ j → q ≠ j →
    apmEventSearchHits.Less GetBytes l q p = false) ∧
  (∀ q, j < q → q ≤ m → apmEventSearchHits.Less GetBytes l j q = true)

/-- Node `c` of the heap is a child of node `k`. -/
def heapChild (k c : Nat) : Prop :=
  c = 2 * k + 1 ∨ c = 2 * k + 2

/-- The nodes `lo ≤ k` of the heap `data[first:first+hi]` are not `Less` than
their children. -/
def HeapFrom {σ : Type} (GetBytes : σ → String → gjson.Result) (l : apmEventSearchHits σ)
    (first lo hi : Nat) : Prop :=
  ∀ k c, lo ≤ k → c < hi → heapChild k c →
    apmEventSearchHits.Less GetBytes l (first + k) (first + c) = false

/-- The state of `siftDown` with the moving hit at node `root`: every other node
`lo ≤ k` is not `Less` than its children, and the parent of `root` is not `Less`
than the children of `root`. -/
def HeapExcept {σ : Type} (GetBytes : σ → String → gjson.Result) (l : apmEventSearchHits σ)
    (first lo hi root : Nat) : Prop :=
  (∀ k c, lo ≤ k → k ≠ root → c < hi → heapChild k c →
    apmEventSearchHits.Less GetBytes l (first + k) (first + c) = false) ∧
  (∀ k c, lo ≤ k → heapChild k root → c < hi → heapChild root c →
    apmEventSearchHits.Less GetBytes l (first + k) (first + c) = false)

/-- The part of a round of `pdqsort` before the partitioning: the slice after
`breakPatterns`, `reverseRange` and `partialInsertionSort` (each run or not, as
in the round), whether `partialInsertionSort` reported the range sorted, and
the pivot. -/
def pdqsortRound {σ : Type} (GetBytes : σ → String → gjson.Result)
    (data : apmEventSearchHits σ) (a b : Nat) (wasBalanced wasPartitioned : Bool) :
    (apmEventSearchHits σ × Bool) × Nat :=
  let data1 := if !wasBalanced then breakPatterns data a b else data
  let c := choosePivot GetBytes data1 a b
  let data2 :=
    if c.2 = sortedHint.decreasingHint then reverseRange data1 a b else data1
  let pivot :=
    if c.2 = sortedHint.decreasingHint then (b - 1) - (c.1 - a) else c.1
  let hint :=
    if c.2 = sortedHint.decreasingHint then sortedHint.increasingHint else c.2
  let p :=
    if wasBalanced && wasPartitioned && hint = sortedHint.increasingHint then
      partialInsertionSort GetBytes data2 a b
    else (data2, false)
  (p, pivot)

/-- The value of `limit` after the start of a round of `pdqsort`. -/
def pdqsortLimit (limit : Nat) (wasBalanced : Bool) : Nat :=
  if !wasBalanced then limit - 1 else limit

end sort
/-!
## The order of `gjson.Result.Less`

On results `Less` (case sensitive) is asymmetric and transitive; "neither is
less" is transitive through a value that is not a NaN number.
-/

namespace gjson

theorem Typ.toInt_injective (a b : Typ) (h : a.toInt = b.toInt) : a = b := by
  cases a <;> cases b <;> first | rfl | (exfalso; revert h; decide)

theorem Float64.ltb_asymm (a b : Float64) (h : a.lt b = true) : b.lt a = true → False := by
  cases a <;> cases b <;> simp only [Float64.lt, decide_eq_true_eq] at h ⊢
  · exact Bool.false_ne_true
  · exact Bool.false_ne_true
  · exact Bool.false_ne_true
  · exact fun h2 => lt_asymm h h2

theorem Float64.ltb_trans (a b c : Float64) (h1 : a.lt b = true) (h2 : b.lt c = true) :
    a.lt c = true := by
  cases a <;> cases b <;> cases c <;> simp only [Float64.lt, decide_eq_true_eq] at h1 h2 ⊢ <;>
    first
      | exact absurd h1 Bool.false_ne_true
      | exact absurd h2 Bool.false_ne_true
      | exact lt_trans h1 h2

theorem Float64.ltb_negtrans (a b c : Float64) (hb : b ≠ Float64.nan)
    (h1 : a.lt b = false) (h2 : b.lt c = false) : a.lt c = false := by
  cases a <;> cases b <;> cases c <;>
    simp only [Float64.lt, decide_eq_false_iff_not, not_lt] at h1 h2 ⊢ <;>
    first
      | exact absurd rfl hb
      | exact le_trans h2 h1

theorem Result.less_true_iff (t u : Result) :
    t.Less u true = true ↔
      t.Typ.toInt < u.Typ.toInt ∨ (t.Typ = u.Typ ∧
        ((t.Typ = Typ.String ∧ t.Str < u.Str) ∨
         (t.Typ ≠ Typ.String ∧ t.Typ = Typ.Number ∧ t.Num.lt u.Num = true) ∨
         (t.Typ ≠ Typ.String ∧ t.Typ ≠ Typ.Number ∧ t.Raw < u.Raw))) := by
  unfold Result.Less
  rcases lt_trichotomy t.Typ.toInt u.Typ.toInt with h | h | h
  · simp only [h, if_true, true_or]
  · have h1 : ¬ t.Typ.toInt < u.Typ.toInt := by omega
    have h2 : ¬ t.Typ.toInt > u.Typ.toInt := by omega
    have he : t.Typ = u.Typ := Typ.toInt_injective _ _ h
    simp only [h1, h2, if_false, false_or, if_true, decide_eq_true_eq]
    by_cases hs : t.Typ = Typ.String
    · rw [if_pos hs]
      simp only [decide_eq_true_eq]
      constructor
      · intro hlt
        exact ⟨he, Or.inl ⟨hs, hlt⟩⟩
      · rintro ⟨_, ⟨_, hlt⟩ | ⟨hc, _⟩ | ⟨hc, _⟩⟩
        · exact hlt
        · exact absurd hs hc
        · exact absurd hs hc
    · rw [if_neg hs]
      by_cases hn : t.Typ = Typ.Number
      · rw [if_pos hn]
        constructor
        · intro hlt
          exact ⟨he, Or.inr (Or.inl ⟨hs, hn, hlt⟩)⟩
        · rintro ⟨_, ⟨hc, _⟩ | ⟨_, _, hlt⟩ | ⟨_, hc, _⟩⟩
          · exact absurd hc hs
          · exact hlt
          · exact absurd hn hc
      · rw [if_neg hn]
        simp only [decide_eq_true_eq]
        constructor
        · intro hlt
          exact ⟨he, Or.inr (Or.inr ⟨hs, hn, hlt⟩)⟩
        · rintro ⟨_, ⟨hc, _⟩ | ⟨_, hc, _⟩ | ⟨_, _, hlt⟩⟩
          · exact absurd hc hs
          · exact absurd hc hn
          · exact hlt
  · have h1 : ¬ t.Typ.toInt < u.Typ.toInt := by omega
    have h2 : ¬ t.Typ = u.Typ := fun hc => by rw [hc] at h; omega
    simp only [h1, h, h2, if_false, if_true, false_or, false_and]
    exact ⟨fun hc => Bool.false_ne_true hc, fun hc => hc.elim⟩

theorem Result.less_asymm (t u : Result) (h : t.Less u true = true) :
    u.Less t true = false := by
  rw [Bool.eq_false_iff]
  intro h2
  rw [Result.less_true_iff] at h h2
  rcases h with h | ⟨he, h⟩
  · rcases h2 with h2 | ⟨he2, _⟩
    · exact lt_asymm h h2
    · rw [he2] at h; exact lt_irrefl _ h
  · rcases h2 with h2 | ⟨_, h2⟩
    · rw [he] at h2; exact lt_irrefl _ h2
    · rw [← he] at h2
      rcases h with ⟨_, h⟩ | ⟨hs, hn, h⟩ | ⟨hs, hn, h⟩ <;>
        rcases h2 with ⟨hs2, h2⟩ | ⟨hs2, hn2, h2⟩ | ⟨hs2, hn2, h2⟩ <;>
        first
          | exact lt_asymm h h2
          | exact Float64.ltb_asymm _ _ h h2
          | contradiction

theorem Result.less_trans (t u v : Result) (h1 : t.Less u true = true)
    (h2 : u.Less v true = true) : t.Less v true = true := by
  rw [Result.less_true_iff] at h1 h2 ⊢
  rcases h1 with h1 | ⟨e1, h1⟩
  · rcases h2 with h2 | ⟨e2, _⟩
    · exact Or.inl (lt_trans h1 h2)
    · exact Or.inl (e2 ▸ h1)
  · rcases h2 with h2 | ⟨e2, h2⟩
    · exact Or.inl (e1 ▸ h2)
    · refine Or.inr ⟨e1.trans e2, ?_⟩
      rw [← e1] at h2
      rcases h1 with ⟨hs, h1⟩ | ⟨hs, hn, h1⟩ | ⟨hs, hn, h1⟩ <;>
        rcases h2 with ⟨hs2, h2⟩ | ⟨hs2, hn2, h2⟩ | ⟨hs2, hn2, h2⟩ <;>
        first
          | exact Or.inl ⟨hs, lt_trans h1 h2⟩
          | exact Or.inr (Or.inl ⟨hs, hn, Float64.ltb_trans _ _ _ h1 h2⟩)
          | exact Or.inr (Or.inr ⟨hs, hn, lt_trans h1 h2⟩)
          | contradiction

theorem Result.less_negtrans (t u v : Result) (hu : ¬ u.IsNaN)
    (h1 : t.Less u true = false) (h2 : u.Less v true = false) : t.Less v true = false := by
  rw [Bool.eq_false_iff] at h1 h2 ⊢
  intro h3
  rw [Ne, Result.less_true_iff] at h1 h2
  rw [Result.less_true_iff] at h3
  push_neg at h1 h2
  obtain ⟨a1, b1⟩ := h1
  obtain ⟨a2, b2⟩ := h2
  have e1 : t.Typ = u.Typ := by
    apply Typ.toInt_injective
    rcases h3 with h3 | ⟨e3, _⟩
    · omega
    · rw [e3] at a1 ⊢; omega
  have e2 : u.Typ = v.Typ := by
    apply Typ.toInt_injective
    rcases h3 with h3 | ⟨e3, _⟩
    · omega
    · rw [e3] at a1; omega
  obtain ⟨b1s, b1n, b1r⟩ := b1 e1
  obtain ⟨b2s, b2n, b2r⟩ := b2 e2
  rcases h3 with h3 | ⟨_, h3⟩
  · rw [e1, e2] at h3; exact lt_irrefl _ h3
  · rcases h3 with ⟨hs, h3⟩ | ⟨hs, hn, h3⟩ | ⟨hs, hn, h3⟩
    · exact absurd h3 (not_lt.mpr (le_trans (b2s (e1 ▸ hs)) (b1s hs)))
    · have hun : u.Num ≠ Float64.nan := fun hc => hu ⟨e1 ▸ hn, hc⟩
      have c1 : t.Num.lt u.Num = false := by
        cases hc : t.Num.lt u.Num
        · rfl
        · exact absurd hc (b1n hs hn)
      have c2 : u.Num.lt v.Num = false := by
        cases hc : u.Num.lt v.Num
        · rfl
        · exact absurd hc (b2n (e1 ▸ hs) (e1 ▸ hn))
      rw [Float64.ltb_negtrans _ _ _ hun c1 c2] at h3
      exact Bool.false_ne_true h3
    · exact absurd h3 (not_lt.mpr (le_trans (b2r (e1 ▸ hs) (e1 ▸ hn)) (b1r hs hn)))

end gjson

namespace gjson

theorem Result.less_irrefl (t : Result) : t.Less t true = false := by
  cases h : t.Less t true
  · rfl
  · have h2 := Result.less_asymm t t h
    rw [h] at h2
    exact absurd h2 Bool.noConfusion

theorem empty_lt_of_length_ne_zero (s : String) (h : s.length ≠ 0) : "" < s := by
  rw [String.lt_iff_toList_lt]
  rcases s with ⟨l⟩
  cases l with
  | nil => exact absurd rfl h
  | cons c cs => exact List.Lex.nil

theorem Result.less_of_not_exists_of_exists (t u : Result) (ht : t.Exists = false)
    (hu : u.Exists = true) : t.Less u true = true := by
  unfold Result.Exists at ht hu
  simp only [Bool.or_eq_false_iff, bne_eq_false_iff_eq, beq_iff_eq] at ht
  obtain ⟨ht1, ht2⟩ := ht
  have hraw : t.Raw = "" := by
    rcases hr : t.Raw with ⟨l⟩
    rw [hr] at ht2
    cases l with
    | nil => rfl
    | cons c cs => simp [String.length] at ht2
  rw [Result.less_true_iff]
  by_cases hnull : u.Typ = Typ.Null
  · right
    refine ⟨by rw [ht1, hnull], Or.inr (Or.inr ⟨by rw [ht1]; decide, by rw [ht1]; decide, ?_⟩)⟩
    rw [hraw]
    apply empty_lt_of_length_ne_zero
    simpa [hnull] using hu
  · left
    rw [ht1]
    revert hnull
    cases u.Typ <;> simp [Typ.toInt]

theorem Result.not_less_of_not_exists (t u : Result) (hu : u.Exists = false) :
    t.Less u true = false := by
  unfold Result.Exists at hu
  simp only [Bool.or_eq_false_iff, bne_eq_false_iff_eq, beq_iff_eq] at hu
  obtain ⟨hu1, hu2⟩ := hu
  have hraw : u.Raw = "" := by
    rcases hr : u.Raw with ⟨l⟩
    rw [hr] at hu2
    cases l with
    | nil => rfl
    | cons c cs => simp [String.length] at hu2
  rw [Bool.eq_false_iff, Ne, Result.less_true_iff, hu1, hraw]
  rintro (h | ⟨_, ⟨hs, _⟩ | ⟨_, hn, _⟩ | ⟨_, _, hr⟩⟩)
  · revert h
    cases t.Typ <;> simp [Typ.toInt]
  · simp_all
  · simp_all
  · rw [String.lt_iff_toList_lt] at hr
    exact absurd hr (by simp)

end gjson

/-!
## The comparison of two hits
-/

namespace approvaltest

open gjson

variable {σ : Type}

/-- A field at which neither hit's value is less than the other's. -/
theorem lessByFields_cons_tie (GetBytes : σ → String → Result) (f : String)
    (rest : List String) (a b : SearchHit σ)
    (h1 : (GetBytes a.RawSource f).Less (GetBytes b.RawSource f) true = false)
    (h2 : (GetBytes b.RawSource f).Less (GetBytes a.RawSource f) true = false) :
    lessByFields GetBytes (f :: rest) a b = lessByFields GetBytes rest a b := by
  simp [lessByFields, h1, h2]

theorem lessByFields_cons_lt (GetBytes : σ → String → Result) (f : String)
    (rest : List String) (a b : SearchHit σ)
    (h1 : (GetBytes a.RawSource f).Less (GetBytes b.RawSource f) true = true) :
    lessByFields GetBytes (f :: rest) a b = true := by
  simp [lessByFields, h1]

theorem lessByFields_cons_gt (GetBytes : σ → String → Result) (f : String)
    (rest : List String) (a b : SearchHit σ)
    (h1 : (GetBytes b.RawSource f).Less (GetBytes a.RawSource f) true = true) :
    lessByFields GetBytes (f :: rest) a b = false := by
  simp [lessByFields, h1, Result.less_asymm _ _ h1]

theorem lessByFields_asymm (GetBytes : σ → String → Result) (fields : List String)
    (a b : SearchHit σ) (h : lessByFields GetBytes fields a b = true) :
    lessByFields GetBytes fields b a = false := by
  induction fields with
  | nil =>
    simp only [lessByFields, decide_eq_true_eq, decide_eq_false_iff_not] at h ⊢
    exact lt_asymm h
  | cons f rest ih =>
    cases hab : (GetBytes a.RawSource f).Less (GetBytes b.RawSource f) true
    · cases hba : (GetBytes b.RawSource f).Less (GetBytes a.RawSource f) true
      · rw [lessByFields_cons_tie _ _ _ _ _ hab hba] at h
        rw [lessByFields_cons_tie _ _ _ _ _ hba hab]
        exact ih h
      · rw [lessByFields_cons_gt _ _ _ _ _ hba] at h
        exact absurd h Bool.false_ne_true
    · exact lessByFields_cons_gt _ _ _ _ _ hab

theorem lessByFields_irrefl (GetBytes : σ → String → Result) (fields : List String)
    (a : SearchHit σ) : lessByFields GetBytes fields a a = false := by
  cases h : lessByFields GetBytes fields a a
  · rfl
  · have h2 := lessByFields_asymm GetBytes fields a a h
    rw [h] at h2
    exact absurd h2 Bool.noConfusion

theorem lessByFields_trans (GetBytes : σ → String → Result) (fields : List String)
    (a b c : SearchHit σ) (ha : NoNaNOn GetBytes fields a) (hb : NoNaNOn GetBytes fields b)
    (hc : NoNaNOn GetBytes fields c) (h1 : lessByFields GetBytes fields a b = true)
    (h2 : lessByFields GetBytes fields b c = true) :
    lessByFields GetBytes fields a c = true := by
  induction fields with
  | nil =>
    simp only [lessByFields, decide_eq_true_eq] at h1 h2 ⊢
    exact lt_trans h1 h2
  | cons f rest ih =>
    have haf := ha f (List.mem_cons_self _ _)
    have hbf := hb f (List.mem_cons_self _ _)
    have hcf := hc f (List.mem_cons_self _ _)
    have ha2 : NoNaNOn GetBytes rest a := fun g hg => ha g (List.mem_cons_of_mem _ hg)
    have hb2 : NoNaNOn GetBytes rest b := fun g hg => hb g (List.mem_cons_of_mem _ hg)
    have hc2 : NoNaNOn GetBytes rest c := fun g hg => hc g (List.mem_cons_of_mem _ hg)
    cases hab : (GetBytes a.RawSource f).Less (GetBytes b.RawSource f) true
    · cases hba : (GetBytes b.RawSource f).Less (GetBytes a.RawSource f) true
      · rw [lessByFields_cons_tie _ _ _ _ _ hab hba] at h1
        cases hbc : (GetBytes b.RawSource f).Less (GetBytes c.RawSource f) true
        · cases hcb : (GetBytes c.RawSource f).Less (GetBytes b.RawSource f) true
          · rw [lessByFields_cons_tie _ _ _ _ _ hbc hcb] at h2
            rw [lessByFields_cons_tie _ _ _ _ _
              (Result.less_negtrans _ _ _ hbf hab hbc) (Result.less_negtrans _ _ _ hbf hcb hba)]
            exact ih ha2 hb2 hc2 h1 h2
          · rw [lessByFields_cons_gt _ _ _ _ _ hcb] at h2
            exact absurd h2 Bool.false_ne_true
        · apply lessByFields_cons_lt
          cases hac : (GetBytes a.RawSource f).Less (GetBytes c.RawSource f) true
          · have := Result.less_negtrans _ _ _ haf hba hac
            rw [hbc] at this
            exact absurd this Bool.noConfusion
          · rfl
      · rw [lessByFields_cons_gt _ _ _ _ _ hba] at h1
        exact absurd h1 Bool.false_ne_true
    · cases hbc : (GetBytes b.RawSource f).Less (GetBytes c.RawSource f) true
      · cases hcb : (GetBytes c.RawSource f).Less (GetBytes b.RawSource f) true
        · apply lessByFields_cons_lt
          cases hac : (GetBytes a.RawSource f).Less (GetBytes c.RawSource f) true
          · have := Result.less_negtrans _ _ _ hcf hac hcb
            rw [hab] at this
            exact absurd this Bool.noConfusion
          · rfl
        · rw [lessByFields_cons_gt _ _ _ _ _ hcb] at h2
          exact absurd h2 Bool.false_ne_true
      · exact lessByFields_cons_lt _ _ _ _ _ (Result.less_trans _ _ _ hab hbc)

theorem lessByFields_total (GetBytes : σ → String → Result) (fields : List String)
    (a b : SearchHit σ) (hne : a.ID ≠ b.ID) :
    lessByFields GetBytes fields a b = true ∨ lessByFields GetBytes fields b a = true := by
  induction fields with
  | nil =>
    simp only [lessByFields, decide_eq_true_eq]
    rcases lt_trichotomy a.ID b.ID with h | h | h
    · exact Or.inl h
    · exact absurd h hne
    · exact Or.inr h
  | cons f rest ih =>
    cases hab : (GetBytes a.RawSource f).Less (GetBytes b.RawSource f) true
    · cases hba : (GetBytes b.RawSource f).Less (GetBytes a.RawSource f) true
      · rw [lessByFields_cons_tie _ _ _ _ _ hab hba, lessByFields_cons_tie _ _ _ _ _ hba hab]
        exact ih
      · exact Or.inr (lessByFields_cons_lt _ _ _ _ _ hba)
    · exact Or.inl (lessByFields_cons_lt _ _ _ _ _ hab)

/-- When no field of the list discriminates, the verdict is that of the IDs. -/
theorem lessByFields_of_ties (GetBytes : σ → String → Result) (fields : List String)
    (a b : SearchHit σ)
    (h : ∀ f ∈ fields,
      (GetBytes a.RawSource f).Less (GetBytes b.RawSource f) true = false ∧
      (GetBytes b.RawSource f).Less (GetBytes a.RawSource f) true = false) :
    lessByFields GetBytes fields a b = decide (a.ID < b.ID) := by
  induction fields with
  | nil => rfl
  | cons f rest ih =>
    have hf := h f (List.mem_cons_self _ _)
    rw [lessByFields_cons_tie _ _ _ _ _ hf.1 hf.2]
    exact ih (fun g hg => h g (List.mem_cons_of_mem _ hg))

/-- Fields that do not discriminate are skipped. -/
theorem lessByFields_append_ties (GetBytes : σ → String → Result)
    (pre rest : List String) (a b : SearchHit σ)
    (h : ∀ f ∈ pre,
      (GetBytes a.RawSource f).Less (GetBytes b.RawSource f) true = false ∧
      (GetBytes b.RawSource f).Less (GetBytes a.RawSource f) true = false) :
    lessByFields GetBytes (pre ++ rest) a b = lessByFields GetBytes rest a b := by
  induction pre with
  | nil => rfl
  | cons f pre ih =>
    have hf := h f (List.mem_cons_self _ _)
    rw [List.cons_append, lessByFields_cons_tie _ _ _ _ _ hf.1 hf.2]
    exact ih (fun g hg => h g (List.mem_cons_of_mem _ hg))

end approvaltest

namespace approvaltest

open gjson

variable {σ : Type}

theorem lessByFields_negtrans (GetBytes : σ → String → Result) (fields : List String)
    (a b c : SearchHit σ) (ha : NoNaNOn GetBytes fields a) (hb : NoNaNOn GetBytes fields b)
    (hc : NoNaNOn GetBytes fields c) (h1 : lessByFields GetBytes fields a b = false)
    (h2 : lessByFields GetBytes fields b c = false) :
    lessByFields GetBytes fields a c = false := by
  induction fields with
  | nil =>
    simp only [lessByFields, decide_eq_false_iff_not, not_lt] at h1 h2 ⊢
    exact le_trans h2 h1
  | cons f rest ih =>
    have haf := ha f (List.mem_cons_self _ _)
    have hbf := hb f (List.mem_cons_self _ _)
    have hcf := hc f (List.mem_cons_self _ _)
    have ha2 : NoNaNOn GetBytes rest a := fun g hg => ha g (List.mem_cons_of_mem _ hg)
    have hb2 : NoNaNOn GetBytes rest b := fun g hg => hb g (List.mem_cons_of_mem _ hg)
    have hc2 : NoNaNOn GetBytes rest c := fun g hg => hc g (List.mem_cons_of_mem _ hg)
    cases hab : (GetBytes a.RawSource f).Less (GetBytes b.RawSource f) true
    · cases hbc : (GetBytes b.RawSource f).Less (GetBytes c.RawSource f) true
      · cases hba : (GetBytes b.RawSource f).Less (GetBytes a.RawSource f) true
        · cases hcb : (GetBytes c.RawSource f).Less (GetBytes b.RawSource f) true
          · rw [lessByFields_cons_tie _ _ _ _ _ hab hba] at h1
            rw [lessByFields_cons_tie _ _ _ _ _ hbc hcb] at h2
            rw [lessByFields_cons_tie _ _ _ _ _
              (Result.less_negtrans _ _ _ hbf hab hbc) (Result.less_negtrans _ _ _ hbf hcb hba)]
            exact ih ha2 hb2 hc2 h1 h2
          · apply lessByFields_cons_gt
            cases hca : (GetBytes c.RawSource f).Less (GetBytes a.RawSource f) true
            · have := Result.less_negtrans _ _ _ haf hca hab
              rw [hcb] at this
              exact absurd this Bool.noConfusion
            · rfl
        · apply lessByFields_cons_gt
          cases hca : (GetBytes c.RawSource f).Less (GetBytes a.RawSource f) true
          · have := Result.less_negtrans _ _ _ hcf hbc hca
            rw [hba] at this
            exact absurd this Bool.noConfusion
          · rfl
      · rw [lessByFields_cons_lt _ _ _ _ _ hbc] at h2
        exact absurd h2 Bool.noConfusion
    · rw [lessByFields_cons_lt _ _ _ _ _ hab] at h1
      exact absurd h1 Bool.noConfusion

theorem hitLess_asymm (GetBytes : σ → String → Result) (a b : SearchHit σ)
    (h : hitLess GetBytes a b = true) : hitLess GetBytes b a = false :=
  lessByFields_asymm GetBytes _ a b h

theorem hitLess_irrefl (GetBytes : σ → String → Result) (a : SearchHit σ) :
    hitLess GetBytes a a = false :=
  lessByFields_irrefl GetBytes _ a

theorem hitLess_trans (GetBytes : σ → String → Result) (a b c : SearchHit σ)
    (ha : NoNaN GetBytes a) (hb : NoNaN GetBytes b) (hc : NoNaN GetBytes c)
    (h1 : hitLess GetBytes a b = true) (h2 : hitLess GetBytes b c = true) :
    hitLess GetBytes a c = true :=
  lessByFields_trans GetBytes _ a b c ha hb hc h1 h2

theorem hitLess_negtrans (GetBytes : σ → String → Result) (a b c : SearchHit σ)
    (ha : NoNaN GetBytes a) (hb : NoNaN GetBytes b) (hc : NoNaN GetBytes c)
    (h1 : hitLess GetBytes a b = false) (h2 : hitLess GetBytes b c = false) :
    hitLess GetBytes a c = false :=
  lessByFields_negtrans GetBytes _ a b c ha hb hc h1 h2

theorem hitLess_total (GetBytes : σ → String → Result) (a b : SearchHit σ)
    (hne : a.ID ≠ b.ID) : hitLess GetBytes a b = true ∨ hitLess GetBytes b a = true :=
  lessByFields_total GetBytes _ a b hne

/-- The two elements at and after position `pre.length`. -/
theorem getElem?_adjacent (pre post : List (SearchHit σ)) (p x : SearchHit σ) :
    (pre ++ p :: x :: post)[pre.length]? = some p ∧
    (pre ++ p :: x :: post)[pre.length + 1]? = some x := by
  constructor
  · rw [List.getElem?_append_right (le_refl _)]
    simp
  · rw [List.getElem?_append_right (by omega)]
    simp

/-- Inside the slice `apmEventSearchHits.Less` is the comparison of the two hits. -/
theorem Less_eq_hitLess (GetBytes : σ → String → Result) (hits : apmEventSearchHits σ)
    (i j : Nat) (hi : i < hits.length) (hj : j < hits.length) :
    apmEventSearchHits.Less GetBytes hits i j = hitLess GetBytes hits[i] hits[j] := by
  unfold apmEventSearchHits.Less
  rw [List.getElem?_eq_getElem hi, List.getElem?_eq_getElem hj]

theorem Less_adjacent (GetBytes : σ → String → Result) (pre post : List (SearchHit σ))
    (p x : SearchHit σ) :
    apmEventSearchHits.Less GetBytes (pre ++ p :: x :: post) (pre.length + 1) pre.length
      = hitLess GetBytes x p := by
  unfold apmEventSearchHits.Less
  rw [(getElem?_adjacent pre post p x).1, (getElem?_adjacent pre post p x).2]

theorem Swap_adjacent (pre post : List (SearchHit σ)) (p x : SearchHit σ) :
    apmEventSearchHits.Swap (pre ++ p :: x :: post) (pre.length + 1) pre.length
      = pre ++ x :: p :: post := by
  unfold apmEventSearchHits.Swap
  rw [(getElem?_adjacent pre post p x).1, (getElem?_adjacent pre post p x).2]
  simp

theorem Swap_getElem? (hits : apmEventSearchHits σ) (i j : Nat)
    (hi : i < hits.length) (hj : j < hits.length) :
    (apmEventSearchHits.Swap hits i j).length = hits.length ∧
    (apmEventSearchHits.Swap hits i j)[i]? = hits[j]? ∧
    (apmEventSearchHits.Swap hits i j)[j]? = hits[i]? ∧
    (∀ k : Nat, k ≠ i → k ≠ j → (apmEventSearchHits.Swap hits i j)[k]? = hits[k]?) := by
  unfold apmEventSearchHits.Swap
  rw [List.getElem?_eq_getElem hi, List.getElem?_eq_getElem hj]
  simp only [List.length_set, true_and]
  refine ⟨?_, ?_, ?_⟩
  · by_cases hij : j = i
    · subst hij
      simp [List.getElem?_set, hi]
    · simp [List.getElem?_set, hi, hij]
  · simp [List.getElem?_set, hj]
  · intro k hki hkj
    simp [List.getElem?_set, Ne.symm hki, Ne.symm hkj]

theorem Less_get (GetBytes : σ → String → Result) (hits : apmEventSearchHits σ)
    (i j : Nat) (x y : SearchHit σ) (hi : hits[i]? = some x) (hj : hits[j]? = some y) :
    apmEventSearchHits.Less GetBytes hits i j = hitLess GetBytes x y := by
  unfold apmEventSearchHits.Less
  rw [hi, hj]

theorem lt_length_of_get {α : Type} (l : List α) (k : Nat) (x : α) (h : l[k]? = some x) :
    k < l.length := by
  by_contra hc
  rw [List.getElem?_eq_none (by omega)] at h
  exact Option.noConfusion h

theorem get_of_lt_length {α : Type} (l : List α) (k : Nat) (h : k < l.length) :
    ∃ x, l[k]? = some x :=
  ⟨l[k], List.getElem?_eq_getElem h⟩

theorem mem_of_get {α : Type} (l : List α) (k : Nat) (x : α) (h : l[k]? = some x) : x ∈ l := by
  have hk := lt_length_of_get l k x h
  rw [List.getElem?_eq_getElem hk] at h
  exact (Option.some.inj h) ▸ List.getElem_mem hk

end approvaltest


/-!
## The sort

Every function of package `sort` changes the slice through `Swap` only, so its
result is a permutation of the slice. When no sort key of a hit is a NaN number,
`Less` is a strict weak order on the hits and the result of `sort.Sort` is
ordered.
-/

namespace sort

open approvaltest gjson

variable {σ : Type}

theorem Swap_length (l : apmEventSearchHits σ) (i j : Nat) :
    (apmEventSearchHits.Swap l i j).length = l.length := by
  unfold apmEventSearchHits.Swap
  split <;> simp

theorem set_set_perm {α : Type} (l : List α) (i j : Nat) (hi : i < l.length)
    (hj : j < l.length) : ((l.set i l[j]).set j l[i]).Perm l := by
  classical
  rw [List.perm_iff_count]
  intro x
  have hj2 : j < (l.set i l[j]).length := by simpa using hj
  rw [List.count_set _ _ _ _ hj2, List.count_set _ _ _ _ hi]
  simp only [List.getElem_set]
  have ci : l[i] = x → 0 < l.count x := fun h =>
    List.count_pos_iff.mpr (h ▸ List.getElem_mem hi)
  have cj : l[j] = x → 0 < l.count x := fun h =>
    List.count_pos_iff.mpr (h ▸ List.getElem_mem hj)
  by_cases hij : i = j
  · subst hij
    by_cases h1 : l[i] = x
    · have := ci h1
      simp [h1]
      omega
    · simp [h1]
  · by_cases h1 : l[i] = x <;> by_cases h2 : l[j] = x
    · have := ci h1
      simp [hij, h1, h2]
      omega
    · have := ci h1
      simp [hij, h1, h2]
      omega
    · simp [hij, h1, h2]
    · simp [hij, h1, h2]

theorem Swap_perm (l : apmEventSearchHits σ) (i j : Nat) :
    (apmEventSearchHits.Swap l i j).Perm l := by
  unfold apmEventSearchHits.Swap
  split
  · rename_i hi hj hei hej
    have hil : i < l.length := by
      by_contra hc
      rw [List.getElem?_eq_none (by omega)] at hei
      exact Option.noConfusion hei
    have hjl : j < l.length := by
      by_contra hc
      rw [List.getElem?_eq_none (by omega)] at hej
      exact Option.noConfusion hej
    have e1 : l[i] = hi := by
      rw [List.getElem?_eq_getElem hil] at hei
      exact Option.some.inj hei
    have e2 : l[j] = hj := by
      rw [List.getElem?_eq_getElem hjl] at hej
      exact Option.some.inj hej
    rw [← e1, ← e2]
    exact set_set_perm l i j hil hjl
  · rfl

end sort

namespace sort

open approvaltest gjson

variable {σ : Type}

theorem insertionSortInner_perm (GetBytes : σ → String → Result) (a : Nat) :
    ∀ (j : Nat) (data : apmEventSearchHits σ),
      (insertionSortInner GetBytes a j data).Perm data := by
  intro j
  induction j with
  | zero => intro data; exact List.Perm.refl _
  | succ j ih =>
    intro data
    rw [insertionSortInner]
    split
    · exact (ih _).trans (Swap_perm _ _ _)
    · exact List.Perm.refl _

theorem foldl_perm {α β : Type} (f : List α → β → List α)
    (hf : ∀ l x, (f l x).Perm l) : ∀ (xs : List β) (l : List α), (xs.foldl f l).Perm l := by
  intro xs
  induction xs with
  | nil => intro l; exact List.Perm.refl _
  | cons x xs ih => intro l; exact (ih _).trans (hf l x)

theorem insertionSort_perm (GetBytes : σ → String → Result) (data : apmEventSearchHits σ)
    (a b : Nat) : (insertionSort GetBytes data a b).Perm data :=
  foldl_perm _ (fun l i => insertionSortInner_perm GetBytes a i l) _ _

theorem siftDownLoop_perm (GetBytes : σ → String → Result) (hi first : Nat) :
    ∀ (fuel root : Nat) (data : apmEventSearchHits σ),
      (siftDownLoop GetBytes hi first fuel root data).Perm data := by
  intro fuel
  induction fuel with
  | zero => intro root data; exact List.Perm.refl _
  | succ fuel ih =>
    intro root data
    rw [siftDownLoop]
    dsimp only
    split_ifs <;> first | exact List.Perm.refl _ | exact (ih _ _).trans (Swap_perm _ _ _)

theorem siftDown_perm (GetBytes : σ → String → Result) (data : apmEventSearchHits σ)
    (lo hi first : Nat) : (siftDown GetBytes data lo hi first).Perm data :=
  siftDownLoop_perm GetBytes hi first hi lo data

theorem heapSortBuild_perm (GetBytes : σ → String → Result) (hi first : Nat) :
    ∀ (i : Nat) (data : apmEventSearchHits σ),
      (heapSortBuild GetBytes hi first i data).Perm data := by
  intro i
  induction i with
  | zero => intro data; exact siftDown_perm _ _ _ _ _
  | succ i ih => intro data; exact (ih _).trans (siftDown_perm _ _ _ _ _)

theorem heapSortPop_perm (GetBytes : σ → String → Result) (first : Nat) :
    ∀ (i : Nat) (data : apmEventSearchHits σ),
      (heapSortPop GetBytes first i data).Perm data := by
  intro i
  induction i with
  | zero => intro data; exact (siftDown_perm _ _ _ _ _).trans (Swap_perm _ _ _)
  | succ i ih =>
    intro data
    exact (ih _).trans ((siftDown_perm _ _ _ _ _).trans (Swap_perm _ _ _))

theorem heapSort_perm (GetBytes : σ → String → Result) (data : apmEventSearchHits σ)
    (a b : Nat) : (heapSort GetBytes data a b).Perm data := by
  unfold heapSort
  dsimp only
  split_ifs
  · exact heapSortBuild_perm _ _ _ _ _
  · exact (heapSortPop_perm _ _ _ _).trans (heapSortBuild_perm _ _ _ _ _)

theorem partitionLoop_perm (GetBytes : σ → String → Result) (a : Nat) :
    ∀ (fuel : Nat) (data : apmEventSearchHits σ) (i j : Nat),
      (partitionLoop GetBytes a fuel data i j).1.Perm data := by
  intro fuel
  induction fuel with
  | zero => intro data i j; exact List.Perm.refl _
  | succ fuel ih =>
    intro data i j
    rw [partitionLoop]
    split_ifs
    · exact List.Perm.refl _
    · exact (ih _ _ _).trans (Swap_perm _ _ _)

theorem partition_perm (GetBytes : σ → String → Result) (data : apmEventSearchHits σ)
    (a b pivot : Nat) : (partition GetBytes data a b pivot).1.Perm data := by
  unfold partition
  dsimp only
  split_ifs
  · exact (Swap_perm _ _ _).trans (Swap_perm _ _ _)
  · exact (Swap_perm _ _ _).trans
      ((partitionLoop_perm _ _ _ _ _ _).trans ((Swap_perm _ _ _).trans (Swap_perm _ _ _)))

theorem partitionEqualLoop_perm (GetBytes : σ → String → Result) (a : Nat) :
    ∀ (fuel : Nat) (data : apmEventSearchHits σ) (i j : Nat),
      (partitionEqualLoop GetBytes a fuel data i j).1.Perm data := by
  intro fuel
  induction fuel with
  | zero => intro data i j; exact List.Perm.refl _
  | succ fuel ih =>
    intro data i j
    rw [partitionEqualLoop]
    split_ifs
    · exact List.Perm.refl _
    · exact (ih _ _ _).trans (Swap_perm _ _ _)

theorem partitionEqual_perm (GetBytes : σ → String → Result) (data : apmEventSearchHits σ)
    (a b pivot : Nat) : (partitionEqual GetBytes data a b pivot).1.Perm data :=
  (partitionEqualLoop_perm _ _ _ _ _ _).trans (Swap_perm _ _ _)

theorem partialInsertionSortLeft_perm (GetBytes : σ → String → Result) :
    ∀ (j : Nat) (data : apmEventSearchHits σ),
      (partialInsertionSortLeft GetBytes j data).Perm data := by
  intro j
  induction j with
  | zero => intro data; exact List.Perm.refl _
  | succ j ih =>
    intro data
    rw [partialInsertionSortLeft]
    split
    · exact List.Perm.refl _
    · exact (ih _).trans (Swap_perm _ _ _)

theorem partialInsertionSortRight_perm (GetBytes : σ → String → Result) (b : Nat) :
    ∀ (fuel j : Nat) (data : apmEventSearchHits σ),
      (partialInsertionSortRight GetBytes b fuel j data).Perm data := by
  intro fuel
  induction fuel with
  | zero => intro j data; exact List.Perm.refl _
  | succ fuel ih =>
    intro j data
    rw [partialInsertionSortRight]
    split
    · split
      · exact List.Perm.refl _
      · exact (ih _ _).trans (Swap_perm _ _ _)
    · exact List.Perm.refl _

theorem partialInsertionSortLoop_perm (GetBytes : σ → String → Result) (a b : Nat) :
    ∀ (steps i : Nat) (data : apmEventSearchHits σ),
      (partialInsertionSortLoop GetBytes a b steps i data).1.Perm data := by
  intro steps
  induction steps with
  | zero => intro i data; exact List.Perm.refl _
  | succ steps ih =>
    intro i data
    rw [partialInsertionSortLoop]
    dsimp only
    have h1 := Swap_perm data
      (partialInsertionSortScan GetBytes data b (b - i) i)
      (partialInsertionSortScan GetBytes data b (b - i) i - 1)
    split_ifs <;>
      first
        | exact List.Perm.refl _
        | exact (ih _ _).trans ((partialInsertionSortRight_perm _ _ _ _ _).trans
            ((partialInsertionSortLeft_perm _ _ _).trans h1))
        | exact (ih _ _).trans ((partialInsertionSortRight_perm _ _ _ _ _).trans h1)
        | exact (ih _ _).trans ((partialInsertionSortLeft_perm _ _ _).trans h1)
        | exact (ih _ _).trans h1

theorem partialInsertionSort_perm (GetBytes : σ → String → Result)
    (data : apmEventSearchHits σ) (a b : Nat) :
    (partialInsertionSort GetBytes data a b).1.Perm data :=
  partialInsertionSortLoop_perm _ _ _ _ _ _

theorem breakPatternsLoop_perm (a length modulus idx : Nat) :
    ∀ (steps i random : Nat) (data : apmEventSearchHits σ),
      (breakPatternsLoop a length modulus idx steps i random data).Perm data := by
  intro steps
  induction steps with
  | zero => intro i random data; exact List.Perm.refl _
  | succ steps ih =>
    intro i random data
    rw [breakPatternsLoop]
    exact (ih _ _ _).trans (Swap_perm _ _ _)

theorem breakPatterns_perm (data : apmEventSearchHits σ) (a b : Nat) :
    (breakPatterns data a b).Perm data := by
  unfold breakPatterns
  dsimp only
  split_ifs
  · exact breakPatternsLoop_perm _ _ _ _ _ _ _ _
  · exact List.Perm.refl _

theorem reverseRangeLoop_perm :
    ∀ (fuel i j : Nat) (data : apmEventSearchHits σ),
      (reverseRangeLoop fuel i j data).Perm data := by
  intro fuel
  induction fuel with
  | zero => intro i j data; exact List.Perm.refl _
  | succ fuel ih =>
    intro i j data
    rw [reverseRangeLoop]
    split
    · exact (ih _ _ _).trans (Swap_perm _ _ _)
    · exact List.Perm.refl _

theorem reverseRange_perm (data : apmEventSearchHits σ) (a b : Nat) :
    (reverseRange data a b).Perm data :=
  reverseRangeLoop_perm _ _ _ _

/-- A round of `pdqsort`, with the part before the partitioning, the result of
`partitionEqual` and the result of `partition` named. -/
theorem pdqsortLoop_succ (GetBytes : σ → String → Result) (fuel : Nat)
    (data : apmEventSearchHits σ) (a b limit : Nat) (wb wp : Bool)
    (R : (apmEventSearchHits σ × Bool) × Nat) (hR : pdqsortRound GetBytes data a b wb wp = R)
    (e : apmEventSearchHits σ × Nat) (he : partitionEqual GetBytes R.1.1 a b R.2 = e)
    (q : apmEventSearchHits σ × Nat × Bool) (hq : partition GetBytes R.1.1 a b R.2 = q) :
    pdqsortLoop GetBytes (fuel + 1) data a b limit wb wp =
      if b - a ≤ 12 then insertionSort GetBytes data a b
      else if limit = 0 then heapSort GetBytes data a b
      else if R.1.2 = true then R.1.1
      else if (decide (a > 0) &&
          !apmEventSearchHits.Less GetBytes R.1.1 (a - 1) R.2) = true then
        pdqsortLoop GetBytes fuel e.1 e.2 b (pdqsortLimit limit wb) wb wp
      else if q.2.1 - a < b - q.2.1 then
        pdqsortLoop GetBytes fuel
          (pdqsortLoop GetBytes fuel q.1 a q.2.1 (pdqsortLimit limit wb) true true)
          (q.2.1 + 1) b (pdqsortLimit limit wb) (decide (q.2.1 - a ≥ (b - a) / 8)) q.2.2
      else
        pdqsortLoop GetBytes fuel
          (pdqsortLoop GetBytes fuel q.1 (q.2.1 + 1) b (pdqsortLimit limit wb) true true)
          a q.2.1 (pdqsortLimit limit wb) (decide (b - q.2.1 ≥ (b - a) / 8)) q.2.2 := by
  subst hR he hq
  rfl

theorem pdqsortRound_perm (GetBytes : σ → String → Result) (data : apmEventSearchHits σ)
    (a b : Nat) (wb wp : Bool) : (pdqsortRound GetBytes data a b wb wp).1.1.Perm data := by
  unfold pdqsortRound
  dsimp only
  have h1 : (if (!wb) = true then breakPatterns data a b else data).Perm data := by
    split_ifs
    · exact breakPatterns_perm _ _ _
    · exact List.Perm.refl _
  generalize (if (!wb) = true then breakPatterns data a b else data) = d1 at h1 ⊢
  have h2 : (if (choosePivot GetBytes d1 a b).2 = sortedHint.decreasingHint then
      reverseRange d1 a b else d1).Perm d1 := by
    split_ifs
    · exact reverseRange_perm _ _ _
    · exact List.Perm.refl _
  generalize (if (choosePivot GetBytes d1 a b).2 = sortedHint.decreasingHint then
      reverseRange d1 a b else d1) = d2 at h2 ⊢
  split_ifs <;>
    first
      | exact (partialInsertionSort_perm _ _ _ _).trans (h2.trans h1)
      | exact h2.trans h1

theorem pdqsortLoop_perm (GetBytes : σ → String → Result) :
    ∀ (fuel : Nat) (data : apmEventSearchHits σ) (a b limit : Nat)
      (wasBalanced wasPartitioned : Bool),
      (pdqsortLoop GetBytes fuel data a b limit wasBalanced wasPartitioned).Perm data := by
  intro fuel
  induction fuel with
  | zero => intro data a b limit wb wp; exact List.Perm.refl _
  | succ fuel ih =>
    intro data a b limit wb wp
    rw [pdqsortLoop_succ GetBytes fuel data a b limit wb wp _ rfl _ rfl _ rfl]
    have hR := pdqsortRound_perm GetBytes data a b wb wp
    generalize pdqsortRound GetBytes data a b wb wp = R at hR ⊢
    have he := partitionEqual_perm GetBytes R.1.1 a b R.2
    have hq := partition_perm GetBytes R.1.1 a b R.2
    split_ifs
    · exact insertionSort_perm _ _ _ _
    · exact heapSort_perm _ _ _ _
    · exact hR
    · exact (ih _ _ _ _ _ _).trans (he.trans hR)
    · exact (ih _ _ _ _ _ _).trans ((ih _ _ _ _ _ _).trans (hq.trans hR))
    · exact (ih _ _ _ _ _ _).trans ((ih _ _ _ _ _ _).trans (hq.trans hR))

/-- Whatever `Less` answers, `sort.Sort` returns a permutation of the slice. -/
theorem SortHits_perm (GetBytes : σ → String → Result) (l : List (SearchHit σ)) :
    (SortHits GetBytes l).Perm l := by
  unfold SortHits
  dsimp only
  split_ifs
  · exact List.Perm.refl _
  · exact pdqsortLoop_perm _ _ _ _ _ _ _ _

end sort

namespace sort

open approvaltest gjson

variable {σ : Type}

/-! ### `Less` on the positions of a slice -/

theorem Less_congr (GetBytes : σ → String → Result) (l1 l2 : apmEventSearchHits σ)
    (i j i2 j2 : Nat) (hi : l1[i]? = l2[i2]?) (hj : l1[j]? = l2[j2]?) :
    apmEventSearchHits.Less GetBytes l1 i j = apmEventSearchHits.Less GetBytes l2 i2 j2 := by
  unfold apmEventSearchHits.Less
  rw [hi, hj]

theorem Less_asymm (GetBytes : σ → String → Result) (l : apmEventSearchHits σ) (i j : Nat)
    (h : apmEventSearchHits.Less GetBytes l i j = true) :
    apmEventSearchHits.Less GetBytes l j i = false := by
  unfold apmEventSearchHits.Less at h ⊢
  cases hi : l[i]? with
  | none => rw [hi] at h; exact absurd h Bool.noConfusion
  | some x =>
    cases hj : l[j]? with
    | none => rfl
    | some y =>
      rw [hi, hj] at h
      exact hitLess_asymm GetBytes x y h

theorem Less_irrefl (GetBytes : σ → String → Result) (l : apmEventSearchHits σ) (i : Nat) :
    apmEventSearchHits.Less GetBytes l i i = false := by
  unfold apmEventSearchHits.Less
  cases hi : l[i]? with
  | none => rfl
  | some x => exact hitLess_irrefl GetBytes x

theorem Less_trans (GetBytes : σ → String → Result) (l : apmEventSearchHits σ)
    (hg : ∀ x ∈ l, NoNaN GetBytes x) (i j k : Nat)
    (h1 : apmEventSearchHits.Less GetBytes l i j = true)
    (h2 : apmEventSearchHits.Less GetBytes l j k = true) :
    apmEventSearchHits.Less GetBytes l i k = true := by
  unfold apmEventSearchHits.Less at h1 h2 ⊢
  cases hi : l[i]? with
  | none => rw [hi] at h1; exact absurd h1 Bool.noConfusion
  | some x =>
    cases hj : l[j]? with
    | none => rw [hi, hj] at h1; exact absurd h1 Bool.noConfusion
    | some y =>
      cases hk : l[k]? with
      | none => rw [hj, hk] at h2; exact absurd h2 Bool.noConfusion
      | some z =>
        rw [hi, hj] at h1
        rw [hj, hk] at h2
        exact hitLess_trans GetBytes x y z (hg x (mem_of_get l i x hi))
          (hg y (mem_of_get l j y hj)) (hg z (mem_of_get l k z hk)) h1 h2

theorem Less_negtrans (GetBytes : σ → String → Result) (l : apmEventSearchHits σ)
    (hg : ∀ x ∈ l, NoNaN GetBytes x) (i j k : Nat) (hjl : j < l.length)
    (h1 : apmEventSearchHits.Less GetBytes l i j = false)
    (h2 : apmEventSearchHits.Less GetBytes l j k = false) :
    apmEventSearchHits.Less GetBytes l i k = false := by
  unfold apmEventSearchHits.Less at h1 h2 ⊢
  cases hi : l[i]? with
  | none => rfl
  | some x =>
    cases hk : l[k]? with
    | none => rfl
    | some z =>
      obtain ⟨y, hj⟩ := get_of_lt_length l j hjl
      rw [hi, hj] at h1
      rw [hj, hk] at h2
      exact hitLess_negtrans GetBytes x y z (hg x (mem_of_get l i x hi))
        (hg y (mem_of_get l j y hj)) (hg z (mem_of_get l k z hk)) h1 h2

/-- From `i < j` and `¬ k < j` follows `i < k`. -/
theorem Less_of_Less_of_not (GetBytes : σ → String → Result) (l : apmEventSearchHits σ)
    (hg : ∀ x ∈ l, NoNaN GetBytes x) (i j k : Nat) (hkl : k < l.length)
    (h1 : apmEventSearchHits.Less GetBytes l i j = true)
    (h2 : apmEventSearchHits.Less GetBytes l k j = false) :
    apmEventSearchHits.Less GetBytes l i k = true := by
  by_contra hc
  rw [Bool.not_eq_true] at hc
  rw [Less_negtrans GetBytes l hg i k j hkl hc h2] at h1
  exact absurd h1 Bool.noConfusion

/-- From `¬ i < j` and `i < k` follows `j < k`. -/
theorem Less_of_not_of_Less (GetBytes : σ → String → Result) (l : apmEventSearchHits σ)
    (hg : ∀ x ∈ l, NoNaN GetBytes x) (i j k : Nat) (hjl : j < l.length)
    (h1 : apmEventSearchHits.Less GetBytes l i j = false)
    (h2 : apmEventSearchHits.Less GetBytes l i k = true) :
    apmEventSearchHits.Less GetBytes l j k = true := by
  by_contra hc
  rw [Bool.not_eq_true] at hc
  rw [Less_negtrans GetBytes l hg i j k hjl h1 hc] at h2
  exact absurd h2 Bool.noConfusion

/-! ### `Swap` -/

theorem Swap_get (l : apmEventSearchHits σ) (i j : Nat) (hi : i < l.length)
    (hj : j < l.length) (k : Nat) :
    (apmEventSearchHits.Swap l i j)[k]? = l[swapIndex i j k]? := by
  obtain ⟨_, h2, h3, h4⟩ := Swap_getElem? l i j hi hj
  unfold swapIndex
  split_ifs with h5 h6
  · rw [h5, h2]
  · rw [h6, h3]
  · exact h4 k h5 h6

theorem swapIndex_left (i j : Nat) : swapIndex i j i = j := by
  unfold swapIndex
  rw [if_pos rfl]

theorem swapIndex_right (i j : Nat) : swapIndex i j j = i := by
  unfold swapIndex
  by_cases h : j = i
  · rw [if_pos h]
    exact h
  · rw [if_neg h, if_pos rfl]

theorem swapIndex_of_ne (i j k : Nat) (hi : k ≠ i) (hj : k ≠ j) : swapIndex i j k = k := by
  unfold swapIndex
  rw [if_neg hi, if_neg hj]

theorem Less_Swap (GetBytes : σ → String → Result) (l : apmEventSearchHits σ) (i j : Nat)
    (hi : i < l.length) (hj : j < l.length) (p q : Nat) :
    apmEventSearchHits.Less GetBytes (apmEventSearchHits.Swap l i j) p q =
      apmEventSearchHits.Less GetBytes l (swapIndex i j p) (swapIndex i j q) :=
  Less_congr GetBytes _ _ _ _ _ _ (Swap_get l i j hi hj p) (Swap_get l i j hi hj q)

theorem noNaN_Swap (GetBytes : σ → String → Result) (l : apmEventSearchHits σ) (i j : Nat)
    (hg : ∀ x ∈ l, NoNaN GetBytes x) :
    ∀ x ∈ apmEventSearchHits.Swap l i j, NoNaN GetBytes x :=
  fun x hx => hg x ((Swap_perm l i j).subset hx)

/-! ### Reordered ranges -/

theorem RangeFrame.refl (l : apmEventSearchHits σ) (a b : Nat) : RangeFrame l l a b :=
  ⟨rfl, fun _ _ => rfl, fun k h1 h2 => ⟨k, h1, h2, rfl⟩⟩

theorem RangeFrame.trans {l1 l2 l3 : apmEventSearchHits σ} {a b : Nat}
    (h12 : RangeFrame l1 l2 a b) (h23 : RangeFrame l2 l3 a b) : RangeFrame l1 l3 a b := by
  obtain ⟨e1, o1, i1⟩ := h12
  obtain ⟨e2, o2, i2⟩ := h23
  refine ⟨e2.trans e1, fun k hk => (o2 k hk).trans (o1 k hk), ?_⟩
  intro k h1 h2
  obtain ⟨k2, h4, h5, h6⟩ := i2 k h1 h2
  obtain ⟨k3, h7, h8, h9⟩ := i1 k2 h4 h5
  exact ⟨k3, h7, h8, h6.trans h9⟩

/-- A reordering of a range is a reordering of every range around it. -/
theorem RangeFrame.mono {l1 l2 : apmEventSearchHits σ} {a b a2 b2 : Nat}
    (h : RangeFrame l1 l2 a2 b2) (ha : a ≤ a2) (hb : b2 ≤ b) : RangeFrame l1 l2 a b := by
  obtain ⟨e1, o1, i1⟩ := h
  refine ⟨e1, fun k hk => o1 k (by omega), ?_⟩
  intro k h1 h2
  by_cases hin : a2 ≤ k ∧ k < b2
  · obtain ⟨k2, h4, h5, h6⟩ := i1 k hin.1 hin.2
    exact ⟨k2, by omega, by omega, h6⟩
  · exact ⟨k, h1, h2, o1 k (by omega)⟩

/-- A swap of two positions of a range reorders the range. -/
theorem Swap_frame (l : apmEventSearchHits σ) (a b i j : Nat) (hb : b ≤ l.length)
    (hi1 : a ≤ i) (hi2 : i < b) (hj1 : a ≤ j) (hj2 : j < b) :
    RangeFrame l (apmEventSearchHits.Swap l i j) a b := by
  have hi : i < l.length := by omega
  have hj : j < l.length := by omega
  refine ⟨Swap_length l i j, ?_, ?_⟩
  · intro k hk
    rw [Swap_get l i j hi hj k]
    unfold swapIndex
    rw [if_neg (by omega), if_neg (by omega)]
  · intro k hk1 hk2
    refine ⟨swapIndex i j k, ?_, ?_, Swap_get l i j hi hj k⟩
    · unfold swapIndex
      split_ifs <;> omega
    · unfold swapIndex
      split_ifs <;> omega

/-- What `Less` answers for every position of a range against a position
outside it, it answers after the range is reordered. -/
theorem RangeFrame.less_left (GetBytes : σ → String → Result) {l1 l2 : apmEventSearchHits σ}
    {a b : Nat} (h : RangeFrame l1 l2 a b) (m : Nat) (hm : m < a ∨ b ≤ m) (v : Bool)
    (hl : ∀ k, a ≤ k → k < b → apmEventSearchHits.Less GetBytes l1 k m = v) :
    ∀ k, a ≤ k → k < b → apmEventSearchHits.Less GetBytes l2 k m = v := by
  intro k h1 h2
  obtain ⟨k2, h3, h4, h5⟩ := h.2.2 k h1 h2
  rw [Less_congr GetBytes l2 l1 k m k2 m h5 (h.2.1 m hm)]
  exact hl k2 h3 h4

theorem RangeFrame.less_right (GetBytes : σ → String → Result) {l1 l2 : apmEventSearchHits σ}
    {a b : Nat} (h : RangeFrame l1 l2 a b) (m : Nat) (hm : m < a ∨ b ≤ m) (v : Bool)
    (hl : ∀ k, a ≤ k → k < b → apmEventSearchHits.Less GetBytes l1 m k = v) :
    ∀ k, a ≤ k → k < b → apmEventSearchHits.Less GetBytes l2 m k = v := by
  intro k h1 h2
  obtain ⟨k2, h3, h4, h5⟩ := h.2.2 k h1 h2
  rw [Less_congr GetBytes l2 l1 m k m k2 (h.2.1 m hm) h5]
  exact hl k2 h3 h4

/-- What `Less` answers between two positions outside a range, it answers after
the range is reordered. -/
theorem RangeFrame.less_out (GetBytes : σ → String → Result) {l1 l2 : apmEventSearchHits σ}
    {a b : Nat} (h : RangeFrame l1 l2 a b) (i j : Nat) (hi : i < a ∨ b ≤ i)
    (hj : j < a ∨ b ≤ j) :
    apmEventSearchHits.Less GetBytes l2 i j = apmEventSearchHits.Less GetBytes l1 i j :=
  Less_congr GetBytes l2 l1 i j i j (h.2.1 i hi) (h.2.1 j hj)

theorem RangeFrame.lowerBound (GetBytes : σ → String → Result) {l1 l2 : apmEventSearchHits σ}
    {a b : Nat} (h : RangeFrame l1 l2 a b) (hl : LowerBound GetBytes l1 a b) :
    LowerBound GetBytes l2 a b :=
  fun ha => h.less_left GetBytes (a - 1) (by omega) false (hl ha)

/-- The lower bound of a range is a lower bound of its parts, also after a part
is reordered. -/
theorem LowerBound.shorten (GetBytes : σ → String → Result) {l : apmEventSearchHits σ}
    {a b b2 : Nat} (hl : LowerBound GetBytes l a b) (hb : b2 ≤ b) :
    LowerBound GetBytes l a b2 :=
  fun ha k h1 h2 => hl ha k h1 (by omega)

theorem RangeSorted.subrange (GetBytes : σ → String → Result) {l : apmEventSearchHits σ}
    {a b a2 b2 : Nat} (h : RangeSorted GetBytes l a b) (ha : a ≤ a2) (hb : b2 ≤ b) :
    RangeSorted GetBytes l a2 b2 :=
  fun i j h1 h2 h3 => h i j (by omega) h2 (by omega)

/-- A sorted range stays sorted when the slice changes outside it only. -/
theorem RangeSorted.congr (GetBytes : σ → String → Result) {l1 l2 : apmEventSearchHits σ}
    {a b : Nat} (h : RangeSorted GetBytes l1 a b)
    (he : ∀ k, a ≤ k → k < b → l2[k]? = l1[k]?) : RangeSorted GetBytes l2 a b := by
  intro i j h1 h2 h3
  rw [Less_congr GetBytes l2 l1 j i j i (he j (by omega) h3) (he i h1 (by omega))]
  exact h i j h1 h2 h3

/-- A sorted range stays sorted when a range apart from it is reordered. -/
theorem RangeSorted.frame (GetBytes : σ → String → Result) {l1 l2 : apmEventSearchHits σ}
    {a b a2 b2 : Nat} (h : RangeSorted GetBytes l1 a b) (hf : RangeFrame l1 l2 a2 b2)
    (hd : b ≤ a2 ∨ b2 ≤ a) : RangeSorted GetBytes l2 a b :=
  h.congr GetBytes (fun k h1 h2 => hf.2.1 k (by omega))

/-- Two sorted ranges side by side, with no hit of the second `Less` than a hit
of the first, are one sorted range. -/
theorem RangeSorted.append (GetBytes : σ → String → Result) {l : apmEventSearchHits σ}
    {a m b : Nat} (h1 : RangeSorted GetBytes l a m) (h2 : RangeSorted GetBytes l m b)
    (hx : ∀ i j, a ≤ i → i < m → m ≤ j → j < b →
      apmEventSearchHits.Less GetBytes l j i = false) : RangeSorted GetBytes l a b := by
  intro i j hi hij hj
  by_cases c1 : j < m
  · exact h1 i j hi hij c1
  · by_cases c2 : m ≤ i
    · exact h2 i j c2 hij hj
    · exact hx i j hi (by omega) (by omega) hj

/-- The sorted whole slice in terms of the list. -/
theorem RangeSorted.pairwise (GetBytes : σ → String → Result) (l : apmEventSearchHits σ)
    (h : RangeSorted GetBytes l 0 l.length) :
    l.Pairwise (fun x y => hitLess GetBytes y x = false) := by
  rw [List.pairwise_iff_getElem]
  intro i j hi hj hij
  rw [← Less_eq_hitLess GetBytes l j i hj hi]
  exact h i j (Nat.zero_le _) hij hj

end sort

namespace sort

open approvaltest gjson

variable {σ : Type}

/-! ### `insertionSort` -/

theorem HoleSorted.start (GetBytes : σ → String → Result) (l : apmEventSearchHits σ)
    (a m : Nat) (h : RangeSorted GetBytes l a m) : HoleSorted GetBytes l a m m :=
  ⟨fun p q h1 h2 h3 _ h5 => h p q h1 h2 (by omega), fun q h1 h2 => absurd h1 (by omega)⟩

/-- A round of the inner loop of an insertion moves the hole one position down. -/
theorem HoleSorted.step (GetBytes : σ → String → Result) (l : apmEventSearchHits σ)
    (a j m : Nat) (h : HoleSorted GetBytes l a (j + 1) m) (haj : a ≤ j) (hjm : j + 1 ≤ m)
    (hm : m < l.length) (hlt : apmEventSearchHits.Less GetBytes l (j + 1) j = true) :
    HoleSorted GetBytes (apmEventSearchHits.Swap l (j + 1) j) a j m := by
  have hj1 : j + 1 < l.length := by omega
  have hj : j < l.length := by omega
  constructor
  · intro p q h1 h2 h3 h4 h5
    rw [Less_Swap GetBytes l _ _ hj1 hj]
    unfold swapIndex
    by_cases hp : p = j + 1
    · rw [if_neg (by omega), if_neg (by omega), if_pos hp]
      exact h.1 j q (by omega) (by omega) h3 (by omega) (by omega)
    · by_cases hq : q = j + 1
      · rw [if_pos hq, if_neg hp, if_neg h4]
        exact h.1 p j h1 (by omega) (by omega) hp (by omega)
      · rw [if_neg hq, if_neg h5, if_neg hp, if_neg h4]
        exact h.1 p q h1 h2 h3 hp hq
  · intro q h1 h2
    rw [Less_Swap GetBytes l _ _ hj1 hj]
    unfold swapIndex
    rw [if_neg (by omega), if_pos rfl]
    by_cases hq : q = j + 1
    · rw [if_pos hq]
      exact hlt
    · rw [if_neg hq, if_neg (by omega)]
      exact h.2 q (by omega) h2

/-- When the inner loop of an insertion stops, the range is in order. -/
theorem HoleSorted.stop (GetBytes : σ → String → Result) (l : apmEventSearchHits σ)
    (hg : ∀ x ∈ l, NoNaN GetBytes x) (a j m : Nat) (h : HoleSorted GetBytes l a j m)
    (hjm : j ≤ m) (hm : m < l.length)
    (hstop : j ≤ a ∨ apmEventSearchHits.Less GetBytes l j (j - 1) = false) :
    RangeSorted GetBytes l a (m + 1) := by
  intro p q h1 h2 h3
  by_cases hp : p = j
  · subst hp
    exact Less_asymm GetBytes l p q (h.2 q h2 (by omega))
  · by_cases hq : q = j
    · subst hq
      rcases hstop with hs | hs
      · omega
      · by_cases hp1 : p = q - 1
        · rw [hp1]
          exact hs
        · exact Less_negtrans GetBytes l hg q (q - 1) p (by omega) hs
            (h.1 p (q - 1) h1 (by omega) (by omega) hp (by omega))
    · exact h.1 p q h1 h2 (by omega) hp hq

theorem insertionSortInner_spec (GetBytes : σ → String → Result) (a m : Nat) :
    ∀ (j : Nat) (l : apmEventSearchHits σ), (∀ x ∈ l, NoNaN GetBytes x) →
      HoleSorted GetBytes l a j m → a ≤ j → j ≤ m → m < l.length →
      RangeFrame l (insertionSortInner GetBytes a j l) a (m + 1) ∧
      RangeSorted GetBytes (insertionSortInner GetBytes a j l) a (m + 1) := by
  intro j
  induction j with
  | zero =>
    intro l hg h ha hjm hm
    exact ⟨RangeFrame.refl _ _ _, h.stop GetBytes l hg a 0 m hjm hm (Or.inl (Nat.zero_le a))⟩
  | succ j ih =>
    intro l hg h ha hjm hm
    unfold insertionSortInner
    split_ifs with hc
    · rw [Bool.and_eq_true, decide_eq_true_eq] at hc
      obtain ⟨r1, r2⟩ := ih (apmEventSearchHits.Swap l (j + 1) j)
        (noNaN_Swap GetBytes l _ _ hg) (h.step GetBytes l a j m (by omega) hjm hm hc.2) (by omega)
        (by omega) (by rw [Swap_length]; exact hm)
      exact ⟨(Swap_frame l a (m + 1) (j + 1) j (by omega) (by omega) (by omega) (by omega)
        (by omega)).trans r1, r2⟩
    · refine ⟨RangeFrame.refl _ _ _, h.stop GetBytes l hg a (j + 1) m hjm hm ?_⟩
      rw [Bool.and_eq_true, decide_eq_true_eq, not_and_or] at hc
      rcases hc with hc | hc
      · exact Or.inl (by omega)
      · exact Or.inr (by simpa using hc)

theorem insertionSort_fold_spec (GetBytes : σ → String → Result) (a : Nat) :
    ∀ (n i : Nat) (l : apmEventSearchHits σ), (∀ x ∈ l, NoNaN GetBytes x) →
      a ≤ i → i + n ≤ l.length → RangeSorted GetBytes l a i →
      RangeFrame l ((List.range' i n).foldl
        (fun hits i => insertionSortInner GetBytes a i hits) l) a (i + n) ∧
      RangeSorted GetBytes ((List.range' i n).foldl
        (fun hits i => insertionSortInner GetBytes a i hits) l) a (i + n) := by
  intro n
  induction n with
  | zero =>
    intro i l _ _ _ hs
    exact ⟨RangeFrame.refl _ _ _, hs⟩
  | succ n ih =>
    intro i l hg ha hn hs
    rw [List.range'_succ, List.foldl_cons]
    obtain ⟨f1, s1⟩ := insertionSortInner_spec GetBytes a i i l hg
      (HoleSorted.start GetBytes l a i hs) ha (le_refl _) (by omega)
    have hg1 : ∀ x ∈ insertionSortInner GetBytes a i l, NoNaN GetBytes x :=
      fun x hx => hg x ((insertionSortInner_perm GetBytes a i l).subset hx)
    obtain ⟨f2, s2⟩ := ih (i + 1) (insertionSortInner GetBytes a i l) hg1 (by omega)
      (by rw [f1.1]; omega) s1
    have e : i + 1 + n = i + (n + 1) := by omega
    rw [e] at f2 s2
    exact ⟨(f1.mono (le_refl _) (by omega)).trans f2, s2⟩

theorem insertionSort_spec (GetBytes : σ → String → Result) (l : apmEventSearchHits σ)
    (hg : ∀ x ∈ l, NoNaN GetBytes x) (a b : Nat) (hb : b ≤ l.length) :
    RangeFrame l (insertionSort GetBytes l a b) a b ∧
    RangeSorted GetBytes (insertionSort GetBytes l a b) a b := by
  unfold insertionSort
  by_cases hab : a + 1 ≤ b
  · have hs : RangeSorted GetBytes l a (a + 1) := fun i j h1 h2 h3 => absurd h3 (by omega)
    obtain ⟨f, s⟩ := insertionSort_fold_spec GetBytes a (b - (a + 1)) (a + 1) l hg (by omega)
      (by omega) hs
    have e : a + 1 + (b - (a + 1)) = b := by omega
    rw [e] at f s
    exact ⟨f, s⟩
  · have e : b - (a + 1) = 0 := by omega
    rw [e]
    exact ⟨RangeFrame.refl _ _ _, fun i j h1 h2 h3 => absurd h3 (by omega)⟩

end sort

namespace sort

open approvaltest gjson

variable {σ : Type}

/-! ### `partition` -/

theorem partitionUp_spec (GetBytes : σ → String → Result) (data : apmEventSearchHits σ)
    (a j : Nat) : ∀ (fuel i : Nat), j + 1 - i ≤ fuel →
      i ≤ partitionUp GetBytes data a j fuel i ∧
      (partitionUp GetBytes data a j fuel i ≤ j + 1 ∨
        partitionUp GetBytes data a j fuel i = i) ∧
      (∀ k, i ≤ k → k < partitionUp GetBytes data a j fuel i →
        apmEventSearchHits.Less GetBytes data k a = true) ∧
      (partitionUp GetBytes data a j fuel i ≤ j →
        apmEventSearchHits.Less GetBytes data (partitionUp GetBytes data a j fuel i) a
          = false) := by
  intro fuel
  induction fuel with
  | zero =>
    intro i hf
    unfold partitionUp
    exact ⟨le_refl _, Or.inr rfl, fun k h1 h2 => absurd h2 (by omega),
      fun h => absurd h (by omega)⟩
  | succ fuel ih =>
    intro i hf
    unfold partitionUp
    split_ifs with hc
    · rw [Bool.and_eq_true, decide_eq_true_eq] at hc
      obtain ⟨r1, r2, r3, r4⟩ := ih (i + 1) (by omega)
      refine ⟨by omega, Or.inl (by omega), ?_, r4⟩
      intro k h1 h2
      by_cases hk : k = i
      · rw [hk]
        exact hc.2
      · exact r3 k (by omega) h2
    · refine ⟨le_refl _, Or.inr rfl, fun k h1 h2 => absurd h2 (by omega), ?_⟩
      intro h
      rw [Bool.and_eq_true, decide_eq_true_eq, not_and_or] at hc
      rcases hc with hc | hc
      · exact absurd h hc
      · simpa using hc

theorem partitionDown_spec (GetBytes : σ → String → Result) (data : apmEventSearchHits σ)
    (a i : Nat) (hi : 1 ≤ i) : ∀ (j : Nat),
      partitionDown GetBytes data a i j ≤ j ∧
      (i ≤ partitionDown GetBytes data a i j + 1 ∨ partitionDown GetBytes data a i j = j) ∧
      (∀ k, partitionDown GetBytes data a i j < k → k ≤ j →
        apmEventSearchHits.Less GetBytes data k a = false) ∧
      (i ≤ partitionDown GetBytes data a i j →
        apmEventSearchHits.Less GetBytes data (partitionDown GetBytes data a i j) a
          = true) := by
  intro j
  induction j with
  | zero =>
    unfold partitionDown
    exact ⟨le_refl _, Or.inr rfl, fun k h1 h2 => absurd h2 (by omega),
      fun h => absurd h (by omega)⟩
  | succ j ih =>
    unfold partitionDown
    split_ifs with hc
    · rw [Bool.and_eq_true, decide_eq_true_eq] at hc
      obtain ⟨r1, r2, r3, r4⟩ := ih
      refine ⟨by omega, Or.inl (by omega), ?_, r4⟩
      intro k h1 h2
      by_cases hk : k = j + 1
      · rw [hk]
        simpa using hc.2
      · exact r3 k h1 (by omega)
    · refine ⟨le_refl _, Or.inr rfl, fun k h1 h2 => absurd h2 (by omega), ?_⟩
      intro h
      rw [Bool.and_eq_true, decide_eq_true_eq, not_and_or] at hc
      rcases hc with hc | hc
      · exact absurd h hc
      · simpa using hc

theorem partitionLoop_spec (GetBytes : σ → String → Result) (a b : Nat) :
    ∀ (fuel : Nat) (data : apmEventSearchHits σ) (i j : Nat),
      j + 1 - i < fuel → a + 1 ≤ i → i ≤ j + 1 → j < b → b ≤ data.length →
      (∀ k, a < k → k < i → apmEventSearchHits.Less GetBytes data k a = true) →
      (∀ k, j < k → k < b → apmEventSearchHits.Less GetBytes data k a = false) →
      RangeFrame data (partitionLoop GetBytes a fuel data i j).1 (a + 1) b ∧
      a ≤ (partitionLoop GetBytes a fuel data i j).2 ∧
      (partitionLoop GetBytes a fuel data i j).2 < b ∧
      (∀ k, a < k → k ≤ (partitionLoop GetBytes a fuel data i j).2 →
        apmEventSearchHits.Less GetBytes (partitionLoop GetBytes a fuel data i j).1 k a
          = true) ∧
      (∀ k, (partitionLoop GetBytes a fuel data i j).2 < k → k < b →
        apmEventSearchHits.Less GetBytes (partitionLoop GetBytes a fuel data i j).1 k a
          = false) := by
  intro fuel
  induction fuel with
  | zero => intro data i j hf; exact absurd hf (by omega)
  | succ fuel ih =>
    intro data i j hf hai hij hjb hb hlo hhi
    unfold partitionLoop
    dsimp only
    obtain ⟨u1, u2, u3, u4⟩ := partitionUp_spec GetBytes data a j (j + 1 - i) i (le_refl _)
    generalize partitionUp GetBytes data a j (j + 1 - i) i = i1 at u1 u2 u3 u4 ⊢
    obtain ⟨d1, d2, d3, d4⟩ := partitionDown_spec GetBytes data a i1 (by omega) j
    generalize partitionDown GetBytes data a i1 j = j1 at d1 d2 d3 d4 ⊢
    have hi1 : i1 ≤ j + 1 := by omega
    have hij1 : i1 ≤ j1 + 1 := by omega
    split_ifs with hc
    · refine ⟨RangeFrame.refl _ _ _, by omega, by omega, ?_, ?_⟩
      · intro k h1 h2
        by_cases hk : k < i
        · exact hlo k h1 hk
        · exact u3 k (by omega) (by omega)
      · intro k h1 h2
        by_cases hk : k ≤ j
        · exact d3 k h1 hk
        · exact hhi k (by omega) h2
    · have hne : i1 ≠ j1 := by
        intro he
        have h1 := u4 (by omega)
        have h2 := d4 (by omega)
        rw [he, h2] at h1
        exact absurd h1 Bool.noConfusion
      have hl1 : i1 < data.length := by omega
      have hl2 : j1 < data.length := by omega
      obtain ⟨r1, r2, r3, r4, r5⟩ := ih (apmEventSearchHits.Swap data i1 j1) (i1 + 1)
        (j1 - 1) (by omega) (by omega) (by omega) (by omega)
        (by rw [Swap_length]; exact hb)
        (by
          intro k h1 h2
          rw [Less_Swap GetBytes data _ _ hl1 hl2]
          unfold swapIndex
          by_cases hk : k = i1
          · rw [if_pos hk, if_neg (by omega), if_neg (by omega)]
            exact d4 (by omega)
          · rw [if_neg hk, if_neg (by omega), if_neg (by omega), if_neg (by omega)]
            by_cases hk2 : k < i
            · exact hlo k h1 hk2
            · exact u3 k (by omega) (by omega))
        (by
          intro k h1 h2
          rw [Less_Swap GetBytes data _ _ hl1 hl2]
          unfold swapIndex
          by_cases hk : k = j1
          · rw [if_neg (by omega), if_pos hk, if_neg (by omega), if_neg (by omega)]
            exact u4 (by omega)
          · rw [if_neg (by omega), if_neg hk, if_neg (by omega), if_neg (by omega)]
            by_cases hk2 : k ≤ j
            · exact d3 k (by omega) hk2
            · exact hhi k (by omega) h2)
      exact ⟨(Swap_frame data (a + 1) b i1 j1 hb (by omega) (by omega) (by omega)
        (by omega)).trans r1, r2, r3, r4, r5⟩

theorem partition_eq (GetBytes : σ → String → Result) (data : apmEventSearchHits σ)
    (a b pivot : Nat) :
    (partition GetBytes data a b pivot).1 =
      apmEventSearchHits.Swap
        (partitionLoop GetBytes a (b - a + 1) (apmEventSearchHits.Swap data a pivot) (a + 1)
          (b - 1)).1
        (partitionLoop GetBytes a (b - a + 1) (apmEventSearchHits.Swap data a pivot) (a + 1)
          (b - 1)).2 a ∧
    (partition GetBytes data a b pivot).2.1 =
      (partitionLoop GetBytes a (b - a + 1) (apmEventSearchHits.Swap data a pivot) (a + 1)
        (b - 1)).2 := by
  unfold partition
  rw [partitionLoop]
  dsimp only
  split_ifs <;> exact ⟨rfl, rfl⟩

/-- What `partition` does, whatever `Less` answers: the range is reordered, the
hits before `newpivot` are `Less` than the hit there, the hits after it are
not. -/
theorem partition_spec (GetBytes : σ → String → Result) (data : apmEventSearchHits σ)
    (a b pivot : Nat) (hap : a ≤ pivot) (hpb : pivot < b) (hb : b ≤ data.length) :
    RangeFrame data (partition GetBytes data a b pivot).1 a b ∧
    a ≤ (partition GetBytes data a b pivot).2.1 ∧
    (partition GetBytes data a b pivot).2.1 < b ∧
    (∀ k, a ≤ k → k < (partition GetBytes data a b pivot).2.1 →
      apmEventSearchHits.Less GetBytes (partition GetBytes data a b pivot).1 k
        (partition GetBytes data a b pivot).2.1 = true) ∧
    (∀ k, (partition GetBytes data a b pivot).2.1 < k → k < b →
      apmEventSearchHits.Less GetBytes (partition GetBytes data a b pivot).1 k
        (partition GetBytes data a b pivot).2.1 = false) := by
  obtain ⟨e1, e2⟩ := partition_eq GetBytes data a b pivot
  rw [e1, e2]
  have hs := Swap_frame data a b a pivot hb (le_refl _) (by omega) hap hpb
  obtain ⟨r1, r2, r3, r4, r5⟩ := partitionLoop_spec GetBytes a b (b - a + 1)
    (apmEventSearchHits.Swap data a pivot) (a + 1) (b - 1) (by omega) (le_refl _) (by omega)
    (by omega) (by rw [Swap_length]; exact hb) (fun k h1 h2 => absurd h2 (by omega))
    (fun k h1 h2 => absurd h2 (by omega))
  generalize partitionLoop GetBytes a (b - a + 1) (apmEventSearchHits.Swap data a pivot)
    (a + 1) (b - 1) = r at r1 r2 r3 r4 r5 ⊢
  have hl : r.1.length = data.length := by rw [r1.1, Swap_length]
  have hl1 : r.2 < r.1.length := by omega
  have hl2 : a < r.1.length := by omega
  refine ⟨(hs.trans (r1.mono (by omega) (le_refl _))).trans
    (Swap_frame r.1 a b r.2 a (by omega) r2 r3 (le_refl _) (by omega)), r2, r3, ?_, ?_⟩
  · intro k h1 h2
    rw [Less_Swap GetBytes r.1 _ _ hl1 hl2]
    unfold swapIndex
    rw [if_neg (by omega), if_pos rfl]
    by_cases hk : k = a
    · rw [if_pos hk]
      exact r4 r.2 (by omega) (le_refl _)
    · rw [if_neg hk]
      exact r4 k (by omega) (by omega)
  · intro k h1 h2
    rw [Less_Swap GetBytes r.1 _ _ hl1 hl2]
    unfold swapIndex
    rw [if_neg (by omega), if_neg (by omega), if_pos rfl]
    exact r5 k h1 h2

end sort

namespace sort

open approvaltest gjson

variable {σ : Type}

/-! ### `partitionEqual` -/

theorem partitionEqualUp_spec (GetBytes : σ → String → Result) (data : apmEventSearchHits σ)
    (a j : Nat) : ∀ (fuel i : Nat), j + 1 - i ≤ fuel →
      i ≤ partitionEqualUp GetBytes data a j fuel i ∧
      (partitionEqualUp GetBytes data a j fuel i ≤ j + 1 ∨
        partitionEqualUp GetBytes data a j fuel i = i) ∧
      (∀ k, i ≤ k → k < partitionEqualUp GetBytes data a j fuel i →
        apmEventSearchHits.Less GetBytes data a k = false) ∧
      (partitionEqualUp GetBytes data a j fuel i ≤ j →
        apmEventSearchHits.Less GetBytes data a (partitionEqualUp GetBytes data a j fuel i)
          = true) := by
  intro fuel
  induction fuel with
  | zero =>
    intro i hf
    unfold partitionEqualUp
    exact ⟨le_refl _, Or.inr rfl, fun k h1 h2 => absurd h2 (by omega),
      fun h => absurd h (by omega)⟩
  | succ fuel ih =>
    intro i hf
    unfold partitionEqualUp
    split_ifs with hc
    · rw [Bool.and_eq_true, decide_eq_true_eq] at hc
      obtain ⟨r1, r2, r3, r4⟩ := ih (i + 1) (by omega)
      refine ⟨by omega, Or.inl (by omega), ?_, r4⟩
      intro k h1 h2
      by_cases hk : k = i
      · rw [hk]
        simpa using hc.2
      · exact r3 k (by omega) h2
    · refine ⟨le_refl _, Or.inr rfl, fun k h1 h2 => absurd h2 (by omega), ?_⟩
      intro h
      rw [Bool.and_eq_true, decide_eq_true_eq, not_and_or] at hc
      rcases hc with hc | hc
      · exact absurd h hc
      · simpa using hc

theorem partitionEqualDown_spec (GetBytes : σ → String → Result)
    (data : apmEventSearchHits σ) (a i : Nat) (hi : 1 ≤ i) : ∀ (j : Nat),
      partitionEqualDown GetBytes data a i j ≤ j ∧
      (i ≤ partitionEqualDown GetBytes data a i j + 1 ∨
        partitionEqualDown GetBytes data a i j = j) ∧
      (∀ k, partitionEqualDown GetBytes data a i j < k → k ≤ j →
        apmEventSearchHits.Less GetBytes data a k = true) ∧
      (i ≤ partitionEqualDown GetBytes data a i j →
        apmEventSearchHits.Less GetBytes data a (partitionEqualDown GetBytes data a i j)
          = false) := by
  intro j
  induction j with
  | zero =>
    unfold partitionEqualDown
    exact ⟨le_refl _, Or.inr rfl, fun k h1 h2 => absurd h2 (by omega),
      fun h => absurd h (by omega)⟩
  | succ j ih =>
    unfold partitionEqualDown
    split_ifs with hc
    · rw [Bool.and_eq_true, decide_eq_true_eq] at hc
      obtain ⟨r1, r2, r3, r4⟩ := ih
      refine ⟨by omega, Or.inl (by omega), ?_, r4⟩
      intro k h1 h2
      by_cases hk : k = j + 1
      · rw [hk]
        exact hc.2
      · exact r3 k h1 (by omega)
    · refine ⟨le_refl _, Or.inr rfl, fun k h1 h2 => absurd h2 (by omega), ?_⟩
      intro h
      rw [Bool.and_eq_true, decide_eq_true_eq, not_and_or] at hc
      rcases hc with hc | hc
      · exact absurd h hc
      · simpa using hc

theorem partitionEqualLoop_spec (GetBytes : σ → String → Result) (a b : Nat) :
    ∀ (fuel : Nat) (data : apmEventSearchHits σ) (i j : Nat),
      j + 1 - i < fuel → a + 1 ≤ i → i ≤ j + 1 → j < b → b ≤ data.length →
      (∀ k, a < k → k < i → apmEventSearchHits.Less GetBytes data a k = false) →
      (∀ k, j < k → k < b → apmEventSearchHits.Less GetBytes data a k = true) →
      RangeFrame data (partitionEqualLoop GetBytes a fuel data i j).1 (a + 1) b ∧
      a < (partitionEqualLoop GetBytes a fuel data i j).2 ∧
      (partitionEqualLoop GetBytes a fuel data i j).2 ≤ b ∧
      (∀ k, a < k → k < (partitionEqualLoop GetBytes a fuel data i j).2 →
        apmEventSearchHits.Less GetBytes (partitionEqualLoop GetBytes a fuel data i j).1 a k
          = false) ∧
      (∀ k, (partitionEqualLoop GetBytes a fuel data i j).2 ≤ k → k < b →
        apmEventSearchHits.Less GetBytes (partitionEqualLoop GetBytes a fuel data i j).1 a k
          = true) := by
  intro fuel
  induction fuel with
  | zero => intro data i j hf; exact absurd hf (by omega)
  | succ fuel ih =>
    intro data i j hf hai hij hjb hb hlo hhi
    unfold partitionEqualLoop
    dsimp only
    obtain ⟨u1, u2, u3, u4⟩ :=
      partitionEqualUp_spec GetBytes data a j (j + 1 - i) i (le_refl _)
    generalize partitionEqualUp GetBytes data a j (j + 1 - i) i = i1 at u1 u2 u3 u4 ⊢
    obtain ⟨d1, d2, d3, d4⟩ := partitionEqualDown_spec GetBytes data a i1 (by omega) j
    generalize partitionEqualDown GetBytes data a i1 j = j1 at d1 d2 d3 d4 ⊢
    have hi1 : i1 ≤ j + 1 := by omega
    have hij1 : i1 ≤ j1 + 1 := by omega
    split_ifs with hc
    · refine ⟨RangeFrame.refl _ _ _, by omega, by omega, ?_, ?_⟩
      · intro k h1 h2
        by_cases hk : k < i
        · exact hlo k h1 hk
        · exact u3 k (by omega) (by omega)
      · intro k h1 h2
        by_cases hk : k ≤ j
        · exact d3 k (by omega) hk
        · exact hhi k (by omega) h2
    · have hne : i1 ≠ j1 := by
        intro he
        have h1 := u4 (by omega)
        have h2 := d4 (by omega)
        rw [he, h2] at h1
        exact absurd h1 Bool.noConfusion
      have hl1 : i1 < data.length := by omega
      have hl2 : j1 < data.length := by omega
      obtain ⟨r1, r2, r3, r4, r5⟩ := ih (apmEventSearchHits.Swap data i1 j1) (i1 + 1)
        (j1 - 1) (by omega) (by omega) (by omega) (by omega)
        (by rw [Swap_length]; exact hb)
        (by
          intro k h1 h2
          rw [Less_Swap GetBytes data _ _ hl1 hl2]
          unfold swapIndex
          by_cases hk : k = i1
          · rw [if_neg (by omega), if_neg (by omega), if_pos hk]
            exact d4 (by omega)
          · rw [if_neg (by omega), if_neg (by omega), if_neg hk, if_neg (by omega)]
            by_cases hk2 : k < i
            · exact hlo k h1 hk2
            · exact u3 k (by omega) (by omega))
        (by
          intro k h1 h2
          rw [Less_Swap GetBytes data _ _ hl1 hl2]
          unfold swapIndex
          by_cases hk : k = j1
          · rw [if_neg (by omega), if_neg (by omega), if_neg (by omega), if_pos hk]
            exact u4 (by omega)
          · rw [if_neg (by omega), if_neg (by omega), if_neg (by omega), if_neg hk]
            by_cases hk2 : k ≤ j
            · exact d3 k (by omega) hk2
            · exact hhi k (by omega) h2)
      exact ⟨(Swap_frame data (a + 1) b i1 j1 hb (by omega) (by omega) (by omega)
        (by omega)).trans r1, r2, r3, r4, r5⟩

/-- What `partitionEqual` does, whatever `Less` answers: the range is reordered,
the hit at `a` is not `Less` than a hit before `newpivot` and is `Less` than the
hits from `newpivot` on. -/
theorem partitionEqual_spec (GetBytes : σ → String → Result) (data : apmEventSearchHits σ)
    (a b pivot : Nat) (hap : a ≤ pivot) (hpb : pivot < b) (hb : b ≤ data.length) :
    RangeFrame data (partitionEqual GetBytes data a b pivot).1 a b ∧
    a < (partitionEqual GetBytes data a b pivot).2 ∧
    (partitionEqual GetBytes data a b pivot).2 ≤ b ∧
    (partitionEqual GetBytes data a b pivot).1[a]? = data[pivot]? ∧
    (∀ k, a ≤ k → k < (partitionEqual GetBytes data a b pivot).2 →
      apmEventSearchHits.Less GetBytes (partitionEqual GetBytes data a b pivot).1 a k
        = false) ∧
    (∀ k, (partitionEqual GetBytes data a b pivot).2 ≤ k → k < b →
      apmEventSearchHits.Less GetBytes (partitionEqual GetBytes data a b pivot).1 a k
        = true) := by
  unfold partitionEqual
  have hs := Swap_frame data a b a pivot hb (le_refl _) (by omega) hap hpb
  obtain ⟨r1, r2, r3, r4, r5⟩ := partitionEqualLoop_spec GetBytes a b (b - a + 1)
    (apmEventSearchHits.Swap data a pivot) (a + 1) (b - 1) (by omega) (le_refl _) (by omega)
    (by omega) (by rw [Swap_length]; exact hb) (fun k h1 h2 => absurd h2 (by omega))
    (fun k h1 h2 => absurd h2 (by omega))
  have ha : (apmEventSearchHits.Swap data a pivot)[a]? = data[pivot]? := by
    rw [Swap_get data a pivot (by omega) (by omega)]
    unfold swapIndex
    rw [if_pos rfl]
  generalize partitionEqualLoop GetBytes a (b - a + 1) (apmEventSearchHits.Swap data a pivot)
    (a + 1) (b - 1) = r at r1 r2 r3 r4 r5 ⊢
  refine ⟨hs.trans (r1.mono (by omega) (le_refl _)), r2, r3, ?_, ?_, r5⟩
  · rw [r1.2.1 a (by omega)]
    exact ha
  · intro k h1 h2
    by_cases hk : k = a
    · rw [hk]
      exact Less_irrefl GetBytes r.1 a
    · exact r4 k (by omega) h2

end sort

namespace sort

open approvaltest gjson

variable {σ : Type}

/-! ### `reverseRange`, `breakPatterns`, `choosePivot` -/

theorem reverseRangeLoop_frame (a b : Nat) :
    ∀ (fuel i j : Nat) (data : apmEventSearchHits σ), a ≤ i → j < b → b ≤ data.length →
      RangeFrame data (reverseRangeLoop fuel i j data) a b := by
  intro fuel
  induction fuel with
  | zero => intro i j data _ _ _; exact RangeFrame.refl _ _ _
  | succ fuel ih =>
    intro i j data hi hj hb
    unfold reverseRangeLoop
    split_ifs with hc
    · exact (Swap_frame data a b i j hb hi (by omega) (by omega) hj).trans
        (ih (i + 1) (j - 1) _ (by omega) (by omega) (by rw [Swap_length]; exact hb))
    · exact RangeFrame.refl _ _ _

theorem reverseRange_frame (data : apmEventSearchHits σ) (a b : Nat) (hab : a < b)
    (hb : b ≤ data.length) : RangeFrame data (reverseRange data a b) a b :=
  reverseRangeLoop_frame a b _ _ _ _ (le_refl _) (by omega) hb

theorem nextPowerOfTwo_le (length : Nat) (h : 0 < length) :
    nextPowerOfTwo length ≤ 2 * length := by
  unfold nextPowerOfTwo bitsLen
  rw [if_neg (by omega), Nat.one_shiftLeft, pow_succ]
  have := Nat.log2_self_le (Nat.pos_iff_ne_zero.mp h)
  omega

theorem breakPatternsLoop_frame (a b length modulus idx : Nat) (hl : a + length = b)
    (hm : modulus ≤ 2 * length) (hlen : 0 < length) :
    ∀ (steps i random : Nat) (data : apmEventSearchHits σ), a ≤ idx - 1 + i →
      idx - 1 + i + steps ≤ b → b ≤ data.length →
      RangeFrame data (breakPatternsLoop a length modulus idx steps i random data) a b := by
  intro steps
  induction steps with
  | zero => intro i random data _ _ _; exact RangeFrame.refl _ _ _
  | succ steps ih =>
    intro i random data h1 h2 hb
    unfold breakPatternsLoop
    dsimp only
    have hand : xorshiftNext random &&& (modulus - 1) ≤ modulus - 1 := Nat.and_le_right
    generalize xorshiftNext random &&& (modulus - 1) = other0 at hand ⊢
    have ho : (if other0 ≥ length then other0 - length else other0) < length := by
      split_ifs <;> omega
    generalize (if other0 ≥ length then other0 - length else other0) = other at ho ⊢
    exact (Swap_frame data a b _ _ hb h1 (by omega) (by omega) (by omega)).trans
      (ih (i + 1) _ _ (by omega) (by omega) (by rw [Swap_length]; exact hb))

theorem breakPatterns_frame (data : apmEventSearchHits σ) (a b : Nat)
    (hb : b ≤ data.length) : RangeFrame data (breakPatterns data a b) a b := by
  unfold breakPatterns
  dsimp only
  split_ifs with hc
  · have h4 : 2 ≤ (b - a) / 4 := by omega
    have h5 : (b - a) / 4 * 4 ≤ b - a := Nat.div_mul_le_self _ _
    exact breakPatternsLoop_frame a b (b - a) _ _ (by omega)
      (nextPowerOfTwo_le (b - a) (by omega)) (by omega) 3 0 _ data (by omega) (by omega) hb
  · exact RangeFrame.refl _ _ _

theorem order2_mem (GetBytes : σ → String → Result) (data : apmEventSearchHits σ)
    (a b swaps : Nat) :
    ((order2 GetBytes data a b swaps).1 = a ∧ (order2 GetBytes data a b swaps).2.1 = b) ∨
    ((order2 GetBytes data a b swaps).1 = b ∧ (order2 GetBytes data a b swaps).2.1 = a) := by
  unfold order2
  split_ifs
  · exact Or.inr ⟨rfl, rfl⟩
  · exact Or.inl ⟨rfl, rfl⟩

theorem median_mem (GetBytes : σ → String → Result) (data : apmEventSearchHits σ)
    (a b c swaps : Nat) :
    (median GetBytes data a b c swaps).1 = a ∨ (median GetBytes data a b c swaps).1 = b ∨
    (median GetBytes data a b c swaps).1 = c := by
  unfold median
  dsimp only
  have h1 := order2_mem GetBytes data a b swaps
  generalize order2 GetBytes data a b swaps = r1 at h1 ⊢
  have h2 := order2_mem GetBytes data r1.2.1 c r1.2.2
  generalize order2 GetBytes data r1.2.1 c r1.2.2 = r2 at h2 ⊢
  have h3 := order2_mem GetBytes data r1.1 r2.1 r2.2.2
  generalize order2 GetBytes data r1.1 r2.1 r2.2.2 = r3 at h3 ⊢
  rcases h1 with ⟨p1, p2⟩ | ⟨p1, p2⟩ <;> rcases h2 with ⟨q1, q2⟩ | ⟨q1, q2⟩ <;>
    rcases h3 with ⟨s1, s2⟩ | ⟨s1, s2⟩ <;> simp_all

theorem median_bounds (GetBytes : σ → String → Result) (data : apmEventSearchHits σ)
    (a b c swaps lo hi : Nat) (ha : lo ≤ a ∧ a < hi) (hb : lo ≤ b ∧ b < hi)
    (hc : lo ≤ c ∧ c < hi) :
    lo ≤ (median GetBytes data a b c swaps).1 ∧ (median GetBytes data a b c swaps).1 < hi := by
  rcases median_mem GetBytes data a b c swaps with h | h | h <;> rw [h] <;> assumption

/-- The pivot that `choosePivot` chooses is a position of the range. -/
theorem choosePivot_bounds (GetBytes : σ → String → Result) (data : apmEventSearchHits σ)
    (a b : Nat) (hab : 8 ≤ b - a) :
    a ≤ (choosePivot GetBytes data a b).1 ∧ (choosePivot GetBytes data a b).1 < b := by
  have h4 : 2 ≤ (b - a) / 4 := by omega
  have h5 : (b - a) / 4 * 4 ≤ b - a := Nat.div_mul_le_self _ _
  have key : ∀ r : Nat × Nat, (a ≤ r.1 ∧ r.1 < b) →
      (a ≤ (if r.2 = 0 then (r.1, sortedHint.increasingHint)
        else if r.2 = 12 then (r.1, sortedHint.decreasingHint)
        else (r.1, sortedHint.unknownHint)).1 ∧
      (if r.2 = 0 then (r.1, sortedHint.increasingHint)
        else if r.2 = 12 then (r.1, sortedHint.decreasingHint)
        else (r.1, sortedHint.unknownHint)).1 < b) := by
    intro r hr
    split_ifs <;> exact hr
  unfold choosePivot
  dsimp only
  apply key
  rw [if_pos hab]
  split_ifs with h50
  · unfold medianAdjacent
    apply median_bounds GetBytes data _ _ _ _ a b
    · exact median_bounds GetBytes data _ _ _ _ a b ⟨by omega, by omega⟩ ⟨by omega, by omega⟩
        ⟨by omega, by omega⟩
    · exact median_bounds GetBytes data _ _ _ _ a b ⟨by omega, by omega⟩ ⟨by omega, by omega⟩
        ⟨by omega, by omega⟩
    · exact median_bounds GetBytes data _ _ _ _ a b ⟨by omega, by omega⟩ ⟨by omega, by omega⟩
        ⟨by omega, by omega⟩
  · exact median_bounds GetBytes data _ _ _ _ a b ⟨by omega, by omega⟩ ⟨by omega, by omega⟩
      ⟨by omega, by omega⟩

end sort

namespace sort

open approvaltest gjson

variable {σ : Type}

/-! ### `partialInsertionSort` -/

theorem partialInsertionSortScan_spec (GetBytes : σ → String → Result)
    (data : apmEventSearchHits σ) (b : Nat) : ∀ (fuel i : Nat), b - i ≤ fuel →
      i ≤ partialInsertionSortScan GetBytes data b fuel i ∧
      (partialInsertionSortScan GetBytes data b fuel i ≤ b ∨
        partialInsertionSortScan GetBytes data b fuel i = i) ∧
      (∀ k, i ≤ k → k < partialInsertionSortScan GetBytes data b fuel i →
        apmEventSearchHits.Less GetBytes data k (k - 1) = false) ∧
      (partialInsertionSortScan GetBytes data b fuel i < b →
        apmEventSearchHits.Less GetBytes data
          (partialInsertionSortScan GetBytes data b fuel i)
          (partialInsertionSortScan GetBytes data b fuel i - 1) = true) := by
  intro fuel
  induction fuel with
  | zero =>
    intro i hf
    unfold partialInsertionSortScan
    exact ⟨le_refl _, Or.inr rfl, fun k h1 h2 => absurd h2 (by omega),
      fun h => absurd h (by omega)⟩
  | succ fuel ih =>
    intro i hf
    unfold partialInsertionSortScan
    split_ifs with hc
    · rw [Bool.and_eq_true, decide_eq_true_eq] at hc
      obtain ⟨r1, r2, r3, r4⟩ := ih (i + 1) (by omega)
      refine ⟨by omega, Or.inl (by omega), ?_, r4⟩
      intro k h1 h2
      by_cases hk : k = i
      · rw [hk]
        simpa using hc.2
      · exact r3 k (by omega) h2
    · refine ⟨le_refl _, Or.inr rfl, fun k h1 h2 => absurd h2 (by omega), ?_⟩
      intro h
      rw [Bool.and_eq_true, decide_eq_true_eq, not_and_or] at hc
      rcases hc with hc | hc
      · exact absurd h hc
      · simpa using hc

/-- A sorted range followed by positions none of which is `Less` than the one
before it is a sorted range. -/
theorem RangeSorted.extend (GetBytes : σ → String → Result) (l : apmEventSearchHits σ)
    (hg : ∀ x ∈ l, NoNaN GetBytes x) (a i : Nat) (hs : RangeSorted GetBytes l a i) :
    ∀ (n : Nat), i + n ≤ l.length →
      (∀ k, i ≤ k → k < i + n → apmEventSearchHits.Less GetBytes l k (k - 1) = false) →
      RangeSorted GetBytes l a (i + n) := by
  intro n
  induction n with
  | zero => intro _ _; exact hs
  | succ n ih =>
    intro hn hk
    have h1 := ih (by omega) (fun k h1 h2 => hk k h1 (by omega))
    exact (HoleSorted.start GetBytes l a (i + n) h1).stop GetBytes l hg a (i + n) (i + n)
      (le_refl _) (by omega) (Or.inr (hk (i + n) (by omega) (by omega)))

theorem partialInsertionSortLeft_spec (GetBytes : σ → String → Result) (a m : Nat) :
    ∀ (j : Nat) (l : apmEventSearchHits σ), (∀ x ∈ l, NoNaN GetBytes x) →
      HoleSorted GetBytes l a j m → a ≤ j → j ≤ m → m < l.length →
      LowerBound GetBytes l a (m + 1) →
      RangeFrame l (partialInsertionSortLeft GetBytes j l) a (m + 1) ∧
      RangeSorted GetBytes (partialInsertionSortLeft GetBytes j l) a (m + 1) := by
  intro j
  induction j with
  | zero =>
    intro l hg h ha hjm hm _
    exact ⟨RangeFrame.refl _ _ _, h.stop GetBytes l hg a 0 m hjm hm (Or.inl (Nat.zero_le a))⟩
  | succ j ih =>
    intro l hg h ha hjm hm hlb
    unfold partialInsertionSortLeft
    split_ifs with hc
    · exact ⟨RangeFrame.refl _ _ _,
        h.stop GetBytes l hg a (j + 1) m hjm hm (Or.inr (by simpa using hc))⟩
    · have hlt : apmEventSearchHits.Less GetBytes l (j + 1) j = true := by simpa using hc
      by_cases haj : a ≤ j
      · have hf := Swap_frame l a (m + 1) (j + 1) j (by omega) (by omega) (by omega)
          (by omega) (by omega)
        obtain ⟨r1, r2⟩ := ih (apmEventSearchHits.Swap l (j + 1) j)
          (noNaN_Swap GetBytes l _ _ hg) (h.step GetBytes l a j m haj hjm hm hlt) haj
          (by omega) (by rw [Swap_length]; exact hm) (hf.lowerBound GetBytes hlb)
        exact ⟨hf.trans r1, r2⟩
      · have e : a = j + 1 := by omega
        have h0 := hlb (by omega) a (le_refl _) (by omega)
        rw [e] at h0
        rw [show j + 1 - 1 = j by omega, hlt] at h0
        exact absurd h0 Bool.noConfusion

theorem partialInsertionSortRight_frame (GetBytes : σ → String → Result) (lo b : Nat) :
    ∀ (fuel j : Nat) (l : apmEventSearchHits σ), lo < j → b ≤ l.length →
      RangeFrame l (partialInsertionSortRight GetBytes b fuel j l) lo b := by
  intro fuel
  induction fuel with
  | zero => intro j l _ _; exact RangeFrame.refl _ _ _
  | succ fuel ih =>
    intro j l hj hb
    unfold partialInsertionSortRight
    split_ifs with h1 h2
    · exact RangeFrame.refl _ _ _
    · exact (Swap_frame l lo b j (j - 1) hb (by omega) h1 (by omega) (by omega)).trans
        (ih (j + 1) _ (by omega) (by rw [Swap_length]; exact hb))
    · exact RangeFrame.refl _ _ _

theorem partialInsertionSortLoop_spec (GetBytes : σ → String → Result) (a b : Nat) :
    ∀ (steps i : Nat) (data : apmEventSearchHits σ), (∀ x ∈ data, NoNaN GetBytes x) →
      a < i → i ≤ b → b ≤ data.length → RangeSorted GetBytes data a i →
      LowerBound GetBytes data a b →
      RangeFrame data (partialInsertionSortLoop GetBytes a b steps i data).1 a b ∧
      ((partialInsertionSortLoop GetBytes a b steps i data).2 = true →
        RangeSorted GetBytes (partialInsertionSortLoop GetBytes a b steps i data).1 a b) := by
  intro steps
  induction steps with
  | zero =>
    intro i data _ _ _ _ _ _
    exact ⟨RangeFrame.refl _ _ _, fun h => absurd h Bool.noConfusion⟩
  | succ steps ih =>
    intro i data hg hai hib hb hs hlb
    unfold partialInsertionSortLoop
    dsimp only
    obtain ⟨c1, c2, c3, c4⟩ := partialInsertionSortScan_spec GetBytes data b (b - i) i
      (le_refl _)
    generalize partialInsertionSortScan GetBytes data b (b - i) i = i1 at c1 c2 c3 c4 ⊢
    have hi1 : i1 ≤ b := by omega
    have hs1 : RangeSorted GetBytes data a i1 := by
      have := RangeSorted.extend GetBytes data hg a i hs (i1 - i) (by omega)
        (fun k h1 h2 => c3 k h1 (by omega))
      rw [show i + (i1 - i) = i1 by omega] at this
      exact this
    by_cases e1 : i1 = b
    · rw [if_pos e1]
      refine ⟨RangeFrame.refl _ _ _, fun _ => ?_⟩
      rw [← e1]
      exact hs1
    rw [if_neg e1]
    by_cases e2 : b - a < 50
    · rw [if_pos e2]
      exact ⟨RangeFrame.refl _ _ _, fun h => absurd h Bool.noConfusion⟩
    rw [if_neg e2]
    · have hlt : i1 < b := by omega
      have f1 := Swap_frame data a b i1 (i1 - 1) hb (by omega) hlt (by omega) (by omega)
      have g1 := noNaN_Swap GetBytes data i1 (i1 - 1) hg
      have s1 : RangeSorted GetBytes (apmEventSearchHits.Swap data i1 (i1 - 1)) a (i1 - 1) :=
        (hs1.subrange GetBytes (le_refl _) (by omega)).frame GetBytes
          (Swap_frame data (i1 - 1) b i1 (i1 - 1) hb (by omega) hlt (le_refl _) (by omega))
          (Or.inl (le_refl _))
      have l1 : (apmEventSearchHits.Swap data i1 (i1 - 1)).length = data.length :=
        Swap_length _ _ _
      generalize apmEventSearchHits.Swap data i1 (i1 - 1) = data1 at f1 g1 s1 l1 ⊢
      have h2 : RangeFrame data1
          (if i1 - a ≥ 2 then partialInsertionSortLeft GetBytes (i1 - 1) data1 else data1)
            a i1 ∧
          RangeSorted GetBytes
            (if i1 - a ≥ 2 then partialInsertionSortLeft GetBytes (i1 - 1) data1 else data1)
            a i1 ∧
          (∀ x ∈ (if i1 - a ≥ 2 then partialInsertionSortLeft GetBytes (i1 - 1) data1
            else data1), NoNaN GetBytes x) := by
        split_ifs
        · obtain ⟨r1, r2⟩ := partialInsertionSortLeft_spec GetBytes a (i1 - 1) (i1 - 1) data1
            g1 (HoleSorted.start GetBytes data1 a (i1 - 1) s1) (by omega) (le_refl _)
            (by omega)
            ((f1.lowerBound GetBytes hlb).shorten GetBytes (by omega))
          rw [show i1 - 1 + 1 = i1 by omega] at r1 r2
          exact ⟨r1, r2, fun x hx =>
            g1 x ((partialInsertionSortLeft_perm GetBytes _ _).subset hx)⟩
        · exact ⟨RangeFrame.refl _ _ _, fun p q h1 h2 h3 => absurd h3 (by omega), g1⟩
      obtain ⟨f2, s2, g2⟩ := h2
      generalize (if i1 - a ≥ 2 then partialInsertionSortLeft GetBytes (i1 - 1) data1
        else data1) = data2 at f2 s2 g2 ⊢
      have h3 : RangeFrame data2
          (if b - i1 ≥ 2 then partialInsertionSortRight GetBytes b (b - i1) (i1 + 1) data2
            else data2) i1 b ∧
          (∀ x ∈ (if b - i1 ≥ 2 then
            partialInsertionSortRight GetBytes b (b - i1) (i1 + 1) data2 else data2),
            NoNaN GetBytes x) := by
        split_ifs
        · exact ⟨partialInsertionSortRight_frame GetBytes i1 b _ _ _ (by omega)
            (by rw [f2.1, l1]; exact hb), fun x hx =>
            g2 x ((partialInsertionSortRight_perm GetBytes _ _ _ _).subset hx)⟩
        · exact ⟨RangeFrame.refl _ _ _, g2⟩
      obtain ⟨f3, g3⟩ := h3
      generalize (if b - i1 ≥ 2 then
        partialInsertionSortRight GetBytes b (b - i1) (i1 + 1) data2 else data2) = data3
        at f3 g3 ⊢
      have f13 : RangeFrame data data3 a b :=
        f1.trans ((f2.mono (le_refl _) hi1).trans (f3.mono (by omega) (le_refl _)))
      obtain ⟨r1, r2⟩ := ih i1 data3 g3 (by omega) hi1 (by rw [f13.1]; exact hb)
        (s2.frame GetBytes f3 (Or.inl (le_refl _))) (f13.lowerBound GetBytes hlb)
      exact ⟨f13.trans r1, r2⟩

theorem partialInsertionSort_spec (GetBytes : σ → String → Result)
    (data : apmEventSearchHits σ) (hg : ∀ x ∈ data, NoNaN GetBytes x) (a b : Nat)
    (hab : a < b) (hb : b ≤ data.length) (hlb : LowerBound GetBytes data a b) :
    RangeFrame data (partialInsertionSort GetBytes data a b).1 a b ∧
    ((partialInsertionSort GetBytes data a b).2 = true →
      RangeSorted GetBytes (partialInsertionSort GetBytes data a b).1 a b) :=
  partialInsertionSortLoop_spec GetBytes a b 5 (a + 1) data hg (by omega) (by omega) hb
    (fun i j h1 h2 h3 => absurd h3 (by omega)) hlb

end sort

namespace sort

open approvaltest gjson

variable {σ : Type}

/-! ### `heapSort` -/

theorem siftDownLoop_spec (GetBytes : σ → String → Result) (first lo hi : Nat) :
    ∀ (fuel root : Nat) (l : apmEventSearchHits σ), (∀ x ∈ l, NoNaN GetBytes x) →
      hi - root ≤ fuel → lo ≤ root → first + hi ≤ l.length →
      HeapExcept GetBytes l first lo hi root →
      RangeFrame l (siftDownLoop GetBytes hi first fuel root l) (first + lo) (first + hi) ∧
      HeapFrom GetBytes (siftDownLoop GetBytes hi first fuel root l) first lo hi := by
  intro fuel
  induction fuel with
  | zero =>
    intro root l _ hf _ _ h
    refine ⟨RangeFrame.refl _ _ _, ?_⟩
    intro k c hk hc hkc
    by_cases hr : k = root
    · unfold heapChild at hkc
      omega
    · exact h.1 k c hk hr hc hkc
  | succ fuel ih =>
    intro root l hg hf hlo hlen h
    unfold siftDownLoop
    by_cases h0 : 2 * root + 1 ≥ hi
    · rw [if_pos h0]
      refine ⟨RangeFrame.refl _ _ _, ?_⟩
      intro k c hk hc hkc
      by_cases hr : k = root
      · unfold heapChild at hkc
        omega
      · exact h.1 k c hk hr hc hkc
    rw [if_neg h0]
    dsimp only
    have hch : ∃ child, (if (decide (2 * root + 1 + 1 < hi) &&
          apmEventSearchHits.Less GetBytes l (first + (2 * root + 1))
            (first + (2 * root + 1) + 1)) = true then 2 * root + 1 + 1
          else 2 * root + 1) = child ∧ heapChild root child ∧ child < hi ∧
        ∀ c, heapChild root c → c < hi →
          apmEventSearchHits.Less GetBytes l (first + child) (first + c) = false := by
      refine ⟨_, rfl, ?_⟩
      split_ifs with hc
      · rw [Bool.and_eq_true, decide_eq_true_eq] at hc
        refine ⟨Or.inr rfl, hc.1, ?_⟩
        intro c hrc _
        rcases hrc with e | e
        · rw [e]
          exact Less_asymm GetBytes l _ _ hc.2
        · rw [e]
          exact Less_irrefl GetBytes l _
      · refine ⟨Or.inl rfl, by omega, ?_⟩
        intro c hrc hc2
        rcases hrc with e | e
        · rw [e]
          exact Less_irrefl GetBytes l _
        · rw [e] at hc2 ⊢
          rw [Bool.and_eq_true, decide_eq_true_eq, not_and_or] at hc
          rcases hc with hc | hc
          · exact absurd hc2 hc
          · simpa using hc
    obtain ⟨child, e, hc1, hc2, hc3⟩ := hch
    rw [e]
    have hroot : root < child := by
      unfold heapChild at hc1
      omega
    by_cases hs : (!apmEventSearchHits.Less GetBytes l (first + root) (first + child)) = true
    · rw [if_pos hs]
      refine ⟨RangeFrame.refl _ _ _, ?_⟩
      intro k c hk hc hkc
      by_cases hr : k = root
      · rw [hr] at hkc ⊢
        exact Less_negtrans GetBytes l hg _ (first + child) _ (by omega) (by simpa using hs)
          (hc3 c hkc hc)
      · exact h.1 k c hk hr hc hkc
    rw [if_neg hs]
    have hlt : apmEventSearchHits.Less GetBytes l (first + root) (first + child) = true := by
      simpa using hs
    have hl1 : first + root < l.length := by omega
    have hl2 : first + child < l.length := by omega
    have hx : HeapExcept GetBytes (apmEventSearchHits.Swap l (first + root) (first + child))
        first lo hi child := by
      constructor
      · intro k c hk hkr hc hkc
        rw [Less_Swap GetBytes l _ _ hl1 hl2]
        by_cases hr : k = root
        · rw [hr, swapIndex_left]
          by_cases hcc : c = child
          · rw [hcc, swapIndex_right]
            exact Less_asymm GetBytes l _ _ hlt
          · rw [hr] at hkc
            rw [swapIndex_of_ne _ _ _ (by unfold heapChild at hkc; omega) (by omega)]
            exact hc3 c hkc hc
        · rw [swapIndex_of_ne _ _ (first + k) (by omega) (by omega)]
          by_cases hcr : c = root
          · rw [hcr, swapIndex_left]
            rw [hcr] at hkc
            exact h.2 k child hk hkc hc2 hc1
          · have hcc : c ≠ child := by
              intro hcc
              rw [hcc] at hkc
              unfold heapChild at hkc hc1
              omega
            rw [swapIndex_of_ne _ _ _ (by omega) (by omega)]
            exact h.1 k c hk hr hc hkc
      · intro k c hk hkc hc hcc
        have hr : k = root := by
          unfold heapChild at hkc hc1
          omega
        rw [Less_Swap GetBytes l _ _ hl1 hl2, hr, swapIndex_left,
          swapIndex_of_ne _ _ _ (by unfold heapChild at hcc; omega)
            (by unfold heapChild at hcc; omega)]
        exact h.1 child c (by omega) (by omega) hc hcc
    obtain ⟨r1, r2⟩ := ih child (apmEventSearchHits.Swap l (first + root) (first + child))
      (noNaN_Swap GetBytes l _ _ hg) (by omega) (by omega) (by rw [Swap_length]; exact hlen)
      hx
    exact ⟨(Swap_frame l (first + lo) (first + hi) _ _ hlen (by omega) (by omega) (by omega)
      (by omega)).trans r1, r2⟩

theorem siftDown_spec (GetBytes : σ → String → Result) (l : apmEventSearchHits σ)
    (hg : ∀ x ∈ l, NoNaN GetBytes x) (first lo hi : Nat) (hlen : first + hi ≤ l.length)
    (h : HeapExcept GetBytes l first lo hi lo) :
    RangeFrame l (siftDown GetBytes l lo hi first) (first + lo) (first + hi) ∧
    HeapFrom GetBytes (siftDown GetBytes l lo hi first) first lo hi :=
  siftDownLoop_spec GetBytes first lo hi hi lo l hg (by omega) (le_refl _) hlen h

theorem HeapFrom.except (GetBytes : σ → String → Result) (l : apmEventSearchHits σ)
    (first lo hi : Nat) (h : HeapFrom GetBytes l first (lo + 1) hi) :
    HeapExcept GetBytes l first lo hi lo := by
  constructor
  · intro k c hk hkr hc hkc
    exact h k c (by omega) hc hkc
  · intro k c hk hkc _ _
    unfold heapChild at hkc
    omega

theorem heapSortBuild_spec (GetBytes : σ → String → Result) (first hi : Nat) :
    ∀ (i : Nat) (l : apmEventSearchHits σ), (∀ x ∈ l, NoNaN GetBytes x) →
      first + hi ≤ l.length → HeapFrom GetBytes l first (i + 1) hi →
      RangeFrame l (heapSortBuild GetBytes hi first i l) first (first + hi) ∧
      HeapFrom GetBytes (heapSortBuild GetBytes hi first i l) first 0 hi := by
  intro i
  induction i with
  | zero =>
    intro l hg hlen h
    unfold heapSortBuild
    exact siftDown_spec GetBytes l hg first 0 hi hlen (h.except GetBytes l first 0 hi)
  | succ i ih =>
    intro l hg hlen h
    unfold heapSortBuild
    obtain ⟨f1, h1⟩ := siftDown_spec GetBytes l hg first (i + 1) hi hlen
      (h.except GetBytes l first (i + 1) hi)
    obtain ⟨f2, h2⟩ := ih (siftDown GetBytes l (i + 1) hi first)
      (fun x hx => hg x ((siftDown_perm GetBytes l _ _ _).subset hx))
      (by rw [f1.1]; exact hlen) h1
    exact ⟨(f1.mono (by omega) (le_refl _)).trans f2, h2⟩

/-- The root of a heap is not `Less` than any node. -/
theorem HeapFrom.root_max (GetBytes : σ → String → Result) (l : apmEventSearchHits σ)
    (hg : ∀ x ∈ l, NoNaN GetBytes x) (first n : Nat) (hlen : first + n ≤ l.length)
    (h : HeapFrom GetBytes l first 0 n) :
    ∀ c, c < n → apmEventSearchHits.Less GetBytes l first (first + c) = false := by
  intro c
  induction c using Nat.strong_induction_on with
  | _ c ih =>
    intro hc
    by_cases h0 : c = 0
    · rw [h0]
      exact Less_irrefl GetBytes l first
    · have hk : heapChild ((c - 1) / 2) c := by
        unfold heapChild
        omega
      exact Less_negtrans GetBytes l hg first (first + (c - 1) / 2) (first + c) (by omega)
        (ih ((c - 1) / 2) (by omega) (by omega)) (h _ c (Nat.zero_le _) hc hk)

/-- A round of the second loop of `heapSort`. -/
theorem heapSortPop_step (GetBytes : σ → String → Result) (l : apmEventSearchHits σ)
    (hg : ∀ x ∈ l, NoNaN GetBytes x) (first hi i : Nat) (hi1 : i < hi)
    (hlen : first + hi ≤ l.length) (hh : HeapFrom GetBytes l first 0 (i + 1))
    (hs : RangeSorted GetBytes l (first + i + 1) (first + hi))
    (hx : ∀ p q, p ≤ i → i < q → q < hi →
      apmEventSearchHits.Less GetBytes l (first + q) (first + p) = false) :
    RangeFrame l (siftDown GetBytes (apmEventSearchHits.Swap l first (first + i)) 0 i first)
      first (first + hi) ∧
    HeapFrom GetBytes
      (siftDown GetBytes (apmEventSearchHits.Swap l first (first + i)) 0 i first) first 0 i ∧
    RangeSorted GetBytes
      (siftDown GetBytes (apmEventSearchHits.Swap l first (first + i)) 0 i first)
      (first + i) (first + hi) ∧
    (∀ p q, p < i → i ≤ q → q < hi →
      apmEventSearchHits.Less GetBytes
        (siftDown GetBytes (apmEventSearchHits.Swap l first (first + i)) 0 i first)
        (first + q) (first + p) = false) := by
  have hl1 : first < l.length := by omega
  have hl2 : first + i < l.length := by omega
  have hmax := hh.root_max GetBytes l hg first (i + 1) (by omega)
  have f1 := Swap_frame l first (first + hi) first (first + i) hlen (le_refl _) (by omega)
    (by omega) (by omega)
  have hex : HeapExcept GetBytes (apmEventSearchHits.Swap l first (first + i)) first 0 i 0 := by
    constructor
    · intro k c _ hk hc hkc
      have : k < c := by
        unfold heapChild at hkc
        omega
      rw [Less_Swap GetBytes l _ _ hl1 hl2, swapIndex_of_ne _ _ _ (by omega) (by omega),
        swapIndex_of_ne _ _ _ (by omega) (by omega)]
      exact hh k c (Nat.zero_le _) (by omega) hkc
    · intro k c _ hkc _ _
      unfold heapChild at hkc
      omega
  obtain ⟨f2, h2⟩ := siftDown_spec GetBytes (apmEventSearchHits.Swap l first (first + i))
    (noNaN_Swap GetBytes l _ _ hg) first 0 i (by rw [Swap_length]; omega) hex
  rw [Nat.add_zero] at f2
  refine ⟨f1.trans (f2.mono (le_refl _) (by omega)), h2, ?_, ?_⟩
  · have s1 : RangeSorted GetBytes (apmEventSearchHits.Swap l first (first + i)) (first + i)
        (first + hi) := by
      intro p q h1 h2 h3
      rw [Less_Swap GetBytes l _ _ hl1 hl2]
      by_cases hp : p = first + i
      · by_cases hq0 : q = first
        · omega
        · rw [hp, swapIndex_right, swapIndex_of_ne _ _ _ hq0 (by omega)]
          have := hx 0 (q - first) (Nat.zero_le _) (by omega) (by omega)
          rw [show first + (q - first) = q by omega, Nat.add_zero] at this
          exact this
      · rw [swapIndex_of_ne _ _ p (by omega) hp, swapIndex_of_ne _ _ q (by omega) (by omega)]
        exact hs p q (by omega) h2 h3
    exact s1.frame GetBytes f2 (Or.inr (le_refl _))
  · intro p q hp hq hqh
    refine f2.less_right GetBytes (first + q) (Or.inr (by omega)) false ?_ (first + p)
      (by omega) (by omega)
    intro k hk1 hk2
    rw [Less_Swap GetBytes l _ _ hl1 hl2]
    by_cases hqi : q = i
    · rw [hqi, swapIndex_right]
      by_cases hk : k = first
      · rw [hk, swapIndex_left]
        exact hmax i (by omega)
      · rw [swapIndex_of_ne _ _ _ hk (by omega)]
        have := hmax (k - first) (by omega)
        rw [show first + (k - first) = k by omega] at this
        exact this
    · rw [swapIndex_of_ne _ _ (first + q) (by omega) (by omega)]
      by_cases hk : k = first
      · rw [hk, swapIndex_left]
        exact hx i q (le_refl _) (by omega) hqh
      · rw [swapIndex_of_ne _ _ _ hk (by omega)]
        have := hx (k - first) q (by omega) (by omega) hqh
        rw [show first + (k - first) = k by omega] at this
        exact this

theorem heapSortPop_spec (GetBytes : σ → String → Result) (first hi : Nat) :
    ∀ (i : Nat) (l : apmEventSearchHits σ), (∀ x ∈ l, NoNaN GetBytes x) → i < hi →
      first + hi ≤ l.length → HeapFrom GetBytes l first 0 (i + 1) →
      RangeSorted GetBytes l (first + i + 1) (first + hi) →
      (∀ p q, p ≤ i → i < q → q < hi →
        apmEventSearchHits.Less GetBytes l (first + q) (first + p) = false) →
      RangeFrame l (heapSortPop GetBytes first i l) first (first + hi) ∧
      RangeSorted GetBytes (heapSortPop GetBytes first i l) first (first + hi) := by
  intro i
  induction i with
  | zero =>
    intro l hg hi1 hlen hh hs hx
    unfold heapSortPop
    obtain ⟨r1, _, r3, _⟩ := heapSortPop_step GetBytes l hg first hi 0 hi1 hlen hh hs hx
    exact ⟨r1, r3⟩
  | succ i ih =>
    intro l hg hi1 hlen hh hs hx
    unfold heapSortPop
    obtain ⟨r1, r2, r3, r4⟩ :=
      heapSortPop_step GetBytes l hg first hi (i + 1) hi1 hlen hh hs hx
    obtain ⟨q1, q2⟩ := ih _
      (fun x hx => hg x (((siftDown_perm GetBytes _ _ _ _).trans (Swap_perm _ _ _)).subset hx))
      (by omega) (by rw [r1.1]; exact hlen) r2 r3
      (fun p q h1 h2 h3 => r4 p q (by omega) (by omega) h3)
    exact ⟨r1.trans q1, q2⟩

/-- What `heapSort` does when no sort key is a NaN number: the range is
reordered and in order. -/
theorem heapSort_spec (GetBytes : σ → String → Result) (l : apmEventSearchHits σ)
    (hg : ∀ x ∈ l, NoNaN GetBytes x) (a b : Nat) (hab : a ≤ b) (hb : b ≤ l.length) :
    RangeFrame l (heapSort GetBytes l a b) a b ∧
    RangeSorted GetBytes (heapSort GetBytes l a b) a b := by
  unfold heapSort
  dsimp only
  have h0 : HeapFrom GetBytes l a ((b - a - 1) / 2 + 1) (b - a) := by
    intro k c hk hc hkc
    unfold heapChild at hkc
    omega
  obtain ⟨f1, h1⟩ := heapSortBuild_spec GetBytes a (b - a) ((b - a - 1) / 2) l hg (by omega) h0
  rw [show a + (b - a) = b by omega] at f1
  split_ifs with hz
  · exact ⟨f1, fun i j h1 h2 h3 => absurd h3 (by omega)⟩
  · obtain ⟨f2, s2⟩ := heapSortPop_spec GetBytes a (b - a) (b - a - 1)
      (heapSortBuild GetBytes (b - a) a ((b - a - 1) / 2) l)
      (fun x hx => hg x ((heapSortBuild_perm GetBytes _ _ _ _).subset hx))
      (by omega) (by rw [f1.1]; omega)
      (by rw [show b - a - 1 + 1 = b - a by omega]; exact h1)
      (fun i j h1 h2 h3 => absurd h3 (by omega))
      (fun p q h1 h2 h3 => absurd h3 (by omega))
    rw [show a + (b - a) = b by omega] at f2 s2
    exact ⟨f1.trans f2, s2⟩

end sort

namespace sort

open approvaltest gjson

variable {σ : Type}

/-! ### `pdqsort` -/

theorem pdqsortRound_spec (GetBytes : σ → String → Result) (data : apmEventSearchHits σ)
    (hg : ∀ x ∈ data, NoNaN GetBytes x) (a b : Nat) (wb wp : Bool) (hab : 8 ≤ b - a)
    (hb : b ≤ data.length) (hlb : LowerBound GetBytes data a b) :
    RangeFrame data (pdqsortRound GetBytes data a b wb wp).1.1 a b ∧
    a ≤ (pdqsortRound GetBytes data a b wb wp).2 ∧
    (pdqsortRound GetBytes data a b wb wp).2 < b ∧
    ((pdqsortRound GetBytes data a b wb wp).1.2 = true →
      RangeSorted GetBytes (pdqsortRound GetBytes data a b wb wp).1.1 a b) := by
  unfold pdqsortRound
  dsimp only
  have h1 : RangeFrame data (if (!wb) = true then breakPatterns data a b else data) a b ∧
      ∀ x ∈ (if (!wb) = true then breakPatterns data a b else data), NoNaN GetBytes x := by
    split_ifs
    · exact ⟨breakPatterns_frame data a b hb,
        fun x hx => hg x ((breakPatterns_perm data a b).subset hx)⟩
    · exact ⟨RangeFrame.refl _ _ _, hg⟩
  obtain ⟨f1, g1⟩ := h1
  generalize (if (!wb) = true then breakPatterns data a b else data) = d1 at f1 g1 ⊢
  have hb1 : b ≤ d1.length := by rw [f1.1]; exact hb
  obtain ⟨c1, c2⟩ := choosePivot_bounds GetBytes d1 a b hab
  generalize choosePivot GetBytes d1 a b = c at c1 c2 ⊢
  have h2 : RangeFrame d1 (if c.2 = sortedHint.decreasingHint then reverseRange d1 a b
        else d1) a b ∧
      ∀ x ∈ (if c.2 = sortedHint.decreasingHint then reverseRange d1 a b else d1),
        NoNaN GetBytes x := by
    split_ifs
    · exact ⟨reverseRange_frame d1 a b (by omega) hb1,
        fun x hx => g1 x ((reverseRange_perm d1 a b).subset hx)⟩
    · exact ⟨RangeFrame.refl _ _ _, g1⟩
  obtain ⟨f2, g2⟩ := h2
  generalize (if c.2 = sortedHint.decreasingHint then reverseRange d1 a b else d1) = d2
    at f2 g2 ⊢
  have f12 := f1.trans f2
  have hb2 : b ≤ d2.length := by rw [f12.1]; exact hb
  have hp : a ≤ (if c.2 = sortedHint.decreasingHint then b - 1 - (c.1 - a) else c.1) ∧
      (if c.2 = sortedHint.decreasingHint then b - 1 - (c.1 - a) else c.1) < b := by
    split_ifs <;> omega
  have key : ∀ (P : Prop) [Decidable P],
      RangeFrame data (if P then partialInsertionSort GetBytes d2 a b else (d2, false)).1 a b ∧
      ((if P then partialInsertionSort GetBytes d2 a b else (d2, false)).2 = true →
        RangeSorted GetBytes
          (if P then partialInsertionSort GetBytes d2 a b else (d2, false)).1 a b) := by
    intro P _
    obtain ⟨r1, r2⟩ := partialInsertionSort_spec GetBytes d2 g2 a b (by omega) hb2
      (f12.lowerBound GetBytes hlb)
    split_ifs
    · exact ⟨f12.trans r1, r2⟩
    · exact ⟨f12, fun h => h.elim⟩
  exact ⟨(key _).1, hp.1, hp.2, (key _).2⟩

/-- The lower bound of a range stays one when a range after it is reordered. -/
theorem LowerBound.frame_out (GetBytes : σ → String → Result) {l1 l2 : apmEventSearchHits σ}
    {a b a2 b2 : Nat} (hl : LowerBound GetBytes l1 a b) (hf : RangeFrame l1 l2 a2 b2)
    (hd : b ≤ a2) : LowerBound GetBytes l2 a b := by
  intro ha k h1 h2
  rw [hf.less_out GetBytes k (a - 1) (Or.inl (by omega)) (Or.inl (by omega))]
  exact hl ha k h1 h2

/-- A range is in order when the part before a position and the part after it
are, the hits before are `Less` than the hit there and the hits after are
not. -/
theorem RangeSorted.pivot (GetBytes : σ → String → Result) (l : apmEventSearchHits σ)
    (hg : ∀ x ∈ l, NoNaN GetBytes x) (a mid b : Nat)
    (h1 : RangeSorted GetBytes l a mid) (h2 : RangeSorted GetBytes l (mid + 1) b)
    (hlo : ∀ k, a ≤ k → k < mid → apmEventSearchHits.Less GetBytes l k mid = true)
    (hhi : ∀ k, mid < k → k < b → apmEventSearchHits.Less GetBytes l k mid = false) :
    RangeSorted GetBytes l a b := by
  intro i j hi hij hj
  by_cases c1 : j < mid
  · exact h1 i j hi hij c1
  by_cases c2 : mid < i
  · exact h2 i j (by omega) hij hj
  by_cases c3 : j = mid
  · rw [c3]
    exact Less_asymm GetBytes l i mid (hlo i hi (by omega))
  by_cases c4 : i = mid
  · rw [c4]
    exact hhi j (by omega) hj
  have e1 := hlo i hi (by omega)
  have e2 := hhi j (by omega) hj
  by_contra hc
  rw [Bool.not_eq_false] at hc
  rw [Less_trans GetBytes l hg j i mid hc e1] at e2
  exact absurd e2 Bool.noConfusion

/-- The state after `partitionEqual` when the hit before the range is not `Less`
than the pivot: the first part is in order and bounds the second from below. -/
theorem partitionEqual_sorted (GetBytes : σ → String → Result) (l : apmEventSearchHits σ)
    (hg : ∀ x ∈ l, NoNaN GetBytes x) (a mid b : Nat) (ha : 0 < a) (ham : a < mid)
    (hmb : mid ≤ b) (hb : b ≤ l.length) (hlb : LowerBound GetBytes l a b)
    (hp : apmEventSearchHits.Less GetBytes l (a - 1) a = false)
    (hlo : ∀ k, a ≤ k → k < mid → apmEventSearchHits.Less GetBytes l a k = false)
    (hhi : ∀ k, mid ≤ k → k < b → apmEventSearchHits.Less GetBytes l a k = true) :
    RangeSorted GetBytes l a mid ∧
    (∀ i j, a ≤ i → i < mid → mid ≤ j → j < b →
      apmEventSearchHits.Less GetBytes l j i = false) := by
  constructor
  · intro i j hi hij hj
    have e1 := hlb ha j (by omega) (by omega)
    have e2 := Less_negtrans GetBytes l hg j (a - 1) a (by omega) e1 hp
    exact Less_negtrans GetBytes l hg j a i (by omega) e2 (hlo i hi (by omega))
  · intro i j hi him hmj hj
    have e1 := hlo i hi him
    have e2 := hhi j hmj hj
    by_contra hc
    rw [Bool.not_eq_false] at hc
    rw [Less_trans GetBytes l hg a j i e2 hc] at e1
    exact absurd e1 Bool.noConfusion

/-- What the loop of `pdqsort` does when no sort key is a NaN number: with fuel
above the length of the range, the range is reordered and in order. -/
theorem pdqsortLoop_spec (GetBytes : σ → String → Result) :
    ∀ (fuel : Nat) (data : apmEventSearchHits σ) (a b limit : Nat) (wb wp : Bool),
      (∀ x ∈ data, NoNaN GetBytes x) → b - a < fuel → a ≤ b → b ≤ data.length →
      LowerBound GetBytes data a b →
      RangeFrame data (pdqsortLoop GetBytes fuel data a b limit wb wp) a b ∧
      RangeSorted GetBytes (pdqsortLoop GetBytes fuel data a b limit wb wp) a b := by
  intro fuel
  induction fuel with
  | zero => intro data a b limit wb wp _ hf; exact absurd hf (by omega)
  | succ fuel ih =>
    intro data a b limit wb wp hg hf hab hb hlb
    rw [pdqsortLoop_succ GetBytes fuel data a b limit wb wp _ rfl _ rfl _ rfl]
    by_cases c1 : b - a ≤ 12
    · rw [if_pos c1]
      exact insertionSort_spec GetBytes data hg a b hb
    rw [if_neg c1]
    by_cases c2 : limit = 0
    · rw [if_pos c2]
      exact heapSort_spec GetBytes data hg a b hab hb
    rw [if_neg c2]
    obtain ⟨fR, pR1, pR2, sR⟩ := pdqsortRound_spec GetBytes data hg a b wb wp (by omega) hb hlb
    have gR : ∀ x ∈ (pdqsortRound GetBytes data a b wb wp).1.1, NoNaN GetBytes x :=
      fun x hx => hg x ((pdqsortRound_perm GetBytes data a b wb wp).subset hx)
    generalize pdqsortRound GetBytes data a b wb wp = R at fR pR1 pR2 sR gR ⊢
    have hbR : b ≤ R.1.1.length := by rw [fR.1]; exact hb
    have lbR := fR.lowerBound GetBytes hlb
    by_cases c3 : R.1.2 = true
    · rw [if_pos c3]
      exact ⟨fR, sR c3⟩
    rw [if_neg c3]
    generalize pdqsortLimit limit wb = limit1
    by_cases c4 : (decide (a > 0) && !apmEventSearchHits.Less GetBytes R.1.1 (a - 1) R.2) = true
    · rw [if_pos c4]
      rw [Bool.and_eq_true, decide_eq_true_eq] at c4
      obtain ⟨ha, hnl⟩ := c4
      have hnl : apmEventSearchHits.Less GetBytes R.1.1 (a - 1) R.2 = false := by simpa using hnl
      obtain ⟨fe, e1, e2, e3, e4, e5⟩ := partitionEqual_spec GetBytes R.1.1 a b R.2 pR1 pR2 hbR
      have ge : ∀ x ∈ (partitionEqual GetBytes R.1.1 a b R.2).1, NoNaN GetBytes x :=
        fun x hx => gR x ((partitionEqual_perm GetBytes _ _ _ _).subset hx)
      have hpe : apmEventSearchHits.Less GetBytes (partitionEqual GetBytes R.1.1 a b R.2).1
          (a - 1) a = false := by
        rw [Less_congr GetBytes _ R.1.1 (a - 1) a (a - 1) R.2 (fe.2.1 _ (Or.inl (by omega))) e3]
        exact hnl
      generalize partitionEqual GetBytes R.1.1 a b R.2 = e at fe e1 e2 e3 e4 e5 ge hpe ⊢
      have hbe : b ≤ e.1.length := by rw [fe.1]; exact hbR
      have lbe := fe.lowerBound GetBytes lbR
      obtain ⟨s1, x1⟩ := partitionEqual_sorted GetBytes e.1 ge a e.2 b ha e1 e2 hbe lbe hpe e4 e5
      have lb2 : LowerBound GetBytes e.1 e.2 b := by
        intro _ k h1 h2
        exact x1 (e.2 - 1) k (by omega) (by omega) h1 h2
      obtain ⟨f2, s2⟩ := ih e.1 e.2 b limit1 wb wp ge (by omega) e2 hbe lb2
      refine ⟨fR.trans (fe.trans (f2.mono (by omega) (le_refl _))), ?_⟩
      refine (s1.frame GetBytes f2 (Or.inl (le_refl _))).append GetBytes s2 ?_
      intro i j h1 h2 h3 h4
      exact f2.less_left GetBytes i (Or.inl h2) false (fun k k1 k2 => x1 i k h1 h2 k1 k2) j h3 h4
    rw [if_neg c4]
    obtain ⟨fq, q1, q2, q3, q4⟩ := partition_spec GetBytes R.1.1 a b R.2 pR1 pR2 hbR
    have gq : ∀ x ∈ (partition GetBytes R.1.1 a b R.2).1, NoNaN GetBytes x :=
      fun x hx => gR x ((partition_perm GetBytes _ _ _ _).subset hx)
    generalize partition GetBytes R.1.1 a b R.2 = q at fq q1 q2 q3 q4 gq ⊢
    have hbq : b ≤ q.1.length := by rw [fq.1]; exact hbR
    have lbq := fq.lowerBound GetBytes lbR
    have lbr : LowerBound GetBytes q.1 (q.2.1 + 1) b := by
      intro _ k h1 h2
      exact q4 k (by omega) h2
    by_cases c5 : q.2.1 - a < b - q.2.1
    · rw [if_pos c5]
      obtain ⟨f1, s1⟩ := ih q.1 a q.2.1 limit1 true true gq (by omega) q1 (by omega)
        (lbq.shorten GetBytes (by omega))
      have g1 : ∀ x ∈ pdqsortLoop GetBytes fuel q.1 a q.2.1 limit1 true true,
          NoNaN GetBytes x :=
        fun x hx => gq x ((pdqsortLoop_perm GetBytes _ _ _ _ _ _ _).subset hx)
      generalize pdqsortLoop GetBytes fuel q.1 a q.2.1 limit1 true true = l1 at f1 s1 g1 ⊢
      have hb1 : b ≤ l1.length := by rw [f1.1]; exact hbq
      have lo1 := f1.less_left GetBytes q.2.1 (Or.inr (le_refl _)) true q3
      have hi1 : ∀ k, q.2.1 < k → k < b →
          apmEventSearchHits.Less GetBytes l1 k q.2.1 = false := by
        intro k h1 h2
        rw [f1.less_out GetBytes k q.2.1 (Or.inr (by omega)) (Or.inr (le_refl _))]
        exact q4 k h1 h2
      obtain ⟨f2, s2⟩ := ih l1 (q.2.1 + 1) b limit1 (decide (q.2.1 - a ≥ (b - a) / 8)) q.2.2
        g1 (by omega) (by omega) hb1 (fun _ k h1 h2 => hi1 k (by omega) h2)
      have g2 : ∀ x ∈ pdqsortLoop GetBytes fuel l1 (q.2.1 + 1) b limit1
          (decide (q.2.1 - a ≥ (b - a) / 8)) q.2.2, NoNaN GetBytes x :=
        fun x hx => g1 x ((pdqsortLoop_perm GetBytes _ _ _ _ _ _ _).subset hx)
      generalize pdqsortLoop GetBytes fuel l1 (q.2.1 + 1) b limit1
        (decide (q.2.1 - a ≥ (b - a) / 8)) q.2.2 = l2 at f2 s2 g2 ⊢
      refine ⟨fR.trans (fq.trans ((f1.mono (le_refl _) (by omega)).trans
        (f2.mono (by omega) (le_refl _)))), ?_⟩
      refine RangeSorted.pivot GetBytes l2 g2 a q.2.1 b
        (s1.frame GetBytes f2 (Or.inl (by omega))) s2 ?_ ?_
      · intro k h1 h2
        rw [f2.less_out GetBytes k q.2.1 (Or.inl (by omega)) (Or.inl (by omega))]
        exact lo1 k h1 h2
      · intro k h1 h2
        exact f2.less_left GetBytes q.2.1 (Or.inl (by omega)) false
          (fun k k1 k2 => hi1 k (by omega) k2) k (by omega) h2
    · rw [if_neg c5]
      obtain ⟨f1, s1⟩ := ih q.1 (q.2.1 + 1) b limit1 true true gq (by omega) (by omega) hbq lbr
      have g1 : ∀ x ∈ pdqsortLoop GetBytes fuel q.1 (q.2.1 + 1) b limit1 true true,
          NoNaN GetBytes x :=
        fun x hx => gq x ((pdqsortLoop_perm GetBytes _ _ _ _ _ _ _).subset hx)
      generalize pdqsortLoop GetBytes fuel q.1 (q.2.1 + 1) b limit1 true true = l1
        at f1 s1 g1 ⊢
      have hb1 : b ≤ l1.length := by rw [f1.1]; exact hbq
      have hi1 := f1.less_left GetBytes q.2.1 (Or.inl (by omega)) false
        (fun k k1 k2 => q4 k (by omega) k2)
      have lo1 : ∀ k, a ≤ k → k < q.2.1 →
          apmEventSearchHits.Less GetBytes l1 k q.2.1 = true := by
        intro k h1 h2
        rw [f1.less_out GetBytes k q.2.1 (Or.inl (by omega)) (Or.inl (by omega))]
        exact q3 k h1 h2
      obtain ⟨f2, s2⟩ := ih l1 a q.2.1 limit1 (decide (b - q.2.1 ≥ (b - a) / 8)) q.2.2
        g1 (by omega) q1 (by omega)
        ((lbq.shorten GetBytes (by omega)).frame_out GetBytes f1 (by omega))
      have g2 : ∀ x ∈ pdqsortLoop GetBytes fuel l1 a q.2.1 limit1
          (decide (b - q.2.1 ≥ (b - a) / 8)) q.2.2, NoNaN GetBytes x :=
        fun x hx => g1 x ((pdqsortLoop_perm GetBytes _ _ _ _ _ _ _).subset hx)
      generalize pdqsortLoop GetBytes fuel l1 a q.2.1 limit1
        (decide (b - q.2.1 ≥ (b - a) / 8)) q.2.2 = l2 at f2 s2 g2 ⊢
      refine ⟨fR.trans (fq.trans ((f1.mono (by omega) (le_refl _)).trans
        (f2.mono (le_refl _) (by omega)))), ?_⟩
      refine RangeSorted.pivot GetBytes l2 g2 a q.2.1 b s2
        (s1.frame GetBytes f2 (Or.inr (by omega))) ?_ ?_
      · exact f2.less_left GetBytes q.2.1 (Or.inr (le_refl _)) true lo1
      · intro k h1 h2
        rw [f2.less_out GetBytes k q.2.1 (Or.inr (by omega)) (Or.inr (le_refl _))]
        exact hi1 k (by omega) h2

/-- When no sort key of a hit is a NaN number, the result of `sort.Sort` is in
order: no hit is `Less` than a hit before it. -/
theorem SortHits_sorted (GetBytes : σ → String → Result) (l : List (SearchHit σ))
    (hg : ∀ x ∈ l, NoNaN GetBytes x) :
    (SortHits GetBytes l).Pairwise (fun x y => hitLess GetBytes y x = false) := by
  apply RangeSorted.pairwise
  unfold SortHits
  dsimp only
  split_ifs with h
  · intro i j h1 h2 h3
    unfold apmEventSearchHits.Len at h
    omega
  · unfold pdqsort apmEventSearchHits.Len
    obtain ⟨f, s⟩ := pdqsortLoop_spec GetBytes (l.length - 0 + 1) l 0 l.length
      (bitsLen l.length) true true hg (by omega) (Nat.zero_le _) (le_refl _)
      (fun h => absurd h (by omega))
    rw [f.1]
    exact s

end sort

namespace sort

open approvaltest gjson

variable {σ : Type}

/-- Whatever `Less` answers, the loop of `pdqsort` has come to its end with
fuel above the length of the range: more fuel gives the same slice. -/
theorem pdqsortLoop_fuel (GetBytes : σ → String → Result) :
    ∀ (fuel1 fuel2 : Nat) (data : apmEventSearchHits σ) (a b limit : Nat) (wb wp : Bool),
      b - a < fuel1 → b - a < fuel2 → a ≤ b → b ≤ data.length →
      pdqsortLoop GetBytes fuel1 data a b limit wb wp =
        pdqsortLoop GetBytes fuel2 data a b limit wb wp := by
  intro fuel1
  induction fuel1 with
  | zero => intro fuel2 data a b limit wb wp hf; exact absurd hf (by omega)
  | succ fuel1 ih =>
    intro fuel2 data a b limit wb wp hf1 hf2 hab hb
    obtain ⟨fuel2, rfl⟩ : ∃ n, fuel2 = n + 1 := ⟨fuel2 - 1, by omega⟩
    rw [pdqsortLoop_succ GetBytes fuel1 data a b limit wb wp _ rfl _ rfl _ rfl,
      pdqsortLoop_succ GetBytes fuel2 data a b limit wb wp _ rfl _ rfl _ rfl]
    by_cases c1 : b - a ≤ 12
    · rw [if_pos c1, if_pos c1]
    rw [if_neg c1, if_neg c1]
    by_cases c2 : limit = 0
    · rw [if_pos c2, if_pos c2]
    rw [if_neg c2, if_neg c2]
    have lR : (pdqsortRound GetBytes data a b wb wp).1.1.length = data.length :=
      (pdqsortRound_perm GetBytes data a b wb wp).length_eq
    have pR : a ≤ (pdqsortRound GetBytes data a b wb wp).2 ∧
        (pdqsortRound GetBytes data a b wb wp).2 < b := by
      unfold pdqsortRound
      dsimp only
      generalize (if (!wb) = true then breakPatterns data a b else data) = d1
      obtain ⟨c1, c2⟩ := choosePivot_bounds GetBytes d1 a b (by omega)
      split_ifs <;> omega
    generalize pdqsortRound GetBytes data a b wb wp = R at lR pR ⊢
    by_cases c3 : R.1.2 = true
    · rw [if_pos c3, if_pos c3]
    rw [if_neg c3, if_neg c3]
    generalize pdqsortLimit limit wb = limit1
    by_cases c4 : (decide (a > 0) && !apmEventSearchHits.Less GetBytes R.1.1 (a - 1) R.2) = true
    · rw [if_pos c4, if_pos c4]
      obtain ⟨fe, e1, e2, _⟩ := partitionEqual_spec GetBytes R.1.1 a b R.2 pR.1 pR.2 (by omega)
      exact ih fuel2 _ _ _ _ _ _ (by omega) (by omega) e2 (by rw [fe.1]; omega)
    rw [if_neg c4, if_neg c4]
    obtain ⟨fq, q1, q2, _⟩ := partition_spec GetBytes R.1.1 a b R.2 pR.1 pR.2 (by omega)
    generalize partition GetBytes R.1.1 a b R.2 = q at fq q1 q2 ⊢
    have hbq : b ≤ q.1.length := by rw [fq.1]; omega
    by_cases c5 : q.2.1 - a < b - q.2.1
    · rw [if_pos c5, if_pos c5]
      rw [ih fuel2 q.1 a q.2.1 limit1 true true (by omega) (by omega) q1 (by omega)]
      exact ih fuel2 _ _ _ _ _ _ (by omega) (by omega) (by omega)
        (by rw [(pdqsortLoop_perm GetBytes _ _ _ _ _ _ _).length_eq]; exact hbq)
    · rw [if_neg c5, if_neg c5]
      rw [ih fuel2 q.1 (q.2.1 + 1) b limit1 true true (by omega) (by omega) (by omega) hbq]
      exact ih fuel2 _ _ _ _ _ _ (by omega) (by omega) q1
        (by rw [(pdqsortLoop_perm GetBytes _ _ _ _ _ _ _).length_eq]; omega)

end sort

namespace sort

open approvaltest gjson

variable {σ : Type}

/-! ### Fuel

Each loop that is given fuel has come to its end when the fuel is used as the
functions above use it: more fuel gives the same result, whatever `Less`
answers. -/

theorem siftDownLoop_fuel (GetBytes : σ → String → Result) (hi first : Nat) :
    ∀ (fuel k root : Nat) (data : apmEventSearchHits σ), hi - root ≤ fuel →
      siftDownLoop GetBytes hi first (fuel + k) root data =
        siftDownLoop GetBytes hi first fuel root data := by
  intro fuel
  induction fuel with
  | zero =>
    intro k root data hf
    cases k with
    | zero => rfl
    | succ k =>
      have : siftDownLoop GetBytes hi first (k + 1) root data = data := by
        rw [siftDownLoop, if_pos (by omega)]
      rw [Nat.zero_add, this]
      rfl
  | succ fuel ih =>
    intro k root data hf
    rw [show fuel + 1 + k = (fuel + k) + 1 by omega, siftDownLoop, siftDownLoop]
    dsimp only
    split_ifs <;> first | rfl | exact ih _ _ _ (by omega)

theorem partitionUp_fuel (GetBytes : σ → String → Result) (data : apmEventSearchHits σ)
    (a j : Nat) : ∀ (fuel k i : Nat), j + 1 - i ≤ fuel →
      partitionUp GetBytes data a j (fuel + k) i = partitionUp GetBytes data a j fuel i := by
  intro fuel
  induction fuel with
  | zero =>
    intro k i hf
    cases k with
    | zero => rfl
    | succ k =>
      rw [Nat.zero_add, partitionUp, partitionUp]
      have : decide (i ≤ j) = false := decide_eq_false (by omega)
      rw [this, Bool.false_and]
      rfl
  | succ fuel ih =>
    intro k i hf
    rw [show fuel + 1 + k = (fuel + k) + 1 by omega, partitionUp, partitionUp]
    split_ifs
    · exact ih _ _ (by omega)
    · rfl

theorem partitionEqualUp_fuel (GetBytes : σ → String → Result) (data : apmEventSearchHits σ)
    (a j : Nat) : ∀ (fuel k i : Nat), j + 1 - i ≤ fuel →
      partitionEqualUp GetBytes data a j (fuel + k) i =
        partitionEqualUp GetBytes data a j fuel i := by
  intro fuel
  induction fuel with
  | zero =>
    intro k i hf
    cases k with
    | zero => rfl
    | succ k =>
      rw [Nat.zero_add, partitionEqualUp, partitionEqualUp]
      have : decide (i ≤ j) = false := decide_eq_false (by omega)
      rw [this, Bool.false_and]
      rfl
  | succ fuel ih =>
    intro k i hf
    rw [show fuel + 1 + k = (fuel + k) + 1 by omega, partitionEqualUp, partitionEqualUp]
    split_ifs
    · exact ih _ _ (by omega)
    · rfl

theorem partitionLoop_fuel (GetBytes : σ → String → Result) (a : Nat) :
    ∀ (fuel k : Nat) (data : apmEventSearchHits σ) (i j : Nat), j + 1 - i < fuel → 1 ≤ i →
      partitionLoop GetBytes a (fuel + k) data i j = partitionLoop GetBytes a fuel data i j := by
  intro fuel
  induction fuel with
  | zero => intro k data i j hf; exact absurd hf (by omega)
  | succ fuel ih =>
    intro k data i j hf hi
    rw [show fuel + 1 + k = (fuel + k) + 1 by omega, partitionLoop, partitionLoop]
    obtain ⟨u1, _, _, _⟩ := partitionUp_spec GetBytes data a j (j + 1 - i) i (le_refl _)
    generalize partitionUp GetBytes data a j (j + 1 - i) i = i1 at u1 ⊢
    obtain ⟨d1, _, _, _⟩ := partitionDown_spec GetBytes data a i1 (by omega) j
    generalize partitionDown GetBytes data a i1 j = j1 at d1 ⊢
    split_ifs
    · rfl
    · exact ih _ _ _ _ (by omega) (by omega)

theorem partitionEqualLoop_fuel (GetBytes : σ → String → Result) (a : Nat) :
    ∀ (fuel k : Nat) (data : apmEventSearchHits σ) (i j : Nat), j + 1 - i < fuel → 1 ≤ i →
      partitionEqualLoop GetBytes a (fuel + k) data i j =
        partitionEqualLoop GetBytes a fuel data i j := by
  intro fuel
  induction fuel with
  | zero => intro k data i j hf; exact absurd hf (by omega)
  | succ fuel ih =>
    intro k data i j hf hi
    rw [show fuel + 1 + k = (fuel + k) + 1 by omega, partitionEqualLoop, partitionEqualLoop]
    obtain ⟨u1, _, _, _⟩ := partitionEqualUp_spec GetBytes data a j (j + 1 - i) i (le_refl _)
    generalize partitionEqualUp GetBytes data a j (j + 1 - i) i = i1 at u1 ⊢
    obtain ⟨d1, _, _, _⟩ := partitionEqualDown_spec GetBytes data a i1 (by omega) j
    generalize partitionEqualDown GetBytes data a i1 j = j1 at d1 ⊢
    split_ifs
    · rfl
    · exact ih _ _ _ _ (by omega) (by omega)

theorem partialInsertionSortScan_fuel (GetBytes : σ → String → Result)
    (data : apmEventSearchHits σ) (b : Nat) : ∀ (fuel k i : Nat), b - i ≤ fuel →
      partialInsertionSortScan GetBytes data b (fuel + k) i =
        partialInsertionSortScan GetBytes data b fuel i := by
  intro fuel
  induction fuel with
  | zero =>
    intro k i hf
    cases k with
    | zero => rfl
    | succ k =>
      rw [Nat.zero_add, partialInsertionSortScan, partialInsertionSortScan]
      have : decide (i < b) = false := decide_eq_false (by omega)
      rw [this, Bool.false_and]
      rfl
  | succ fuel ih =>
    intro k i hf
    rw [show fuel + 1 + k = (fuel + k) + 1 by omega, partialInsertionSortScan,
      partialInsertionSortScan]
    split_ifs
    · exact ih _ _ (by omega)
    · rfl

theorem partialInsertionSortRight_fuel (GetBytes : σ → String → Result) (b : Nat) :
    ∀ (fuel k j : Nat) (data : apmEventSearchHits σ), b - j ≤ fuel →
      partialInsertionSortRight GetBytes b (fuel + k) j data =
        partialInsertionSortRight GetBytes b fuel j data := by
  intro fuel
  induction fuel with
  | zero =>
    intro k j data hf
    cases k with
    | zero => rfl
    | succ k =>
      rw [Nat.zero_add, partialInsertionSortRight, partialInsertionSortRight,
        if_neg (by omega)]
  | succ fuel ih =>
    intro k j data hf
    rw [show fuel + 1 + k = (fuel + k) + 1 by omega, partialInsertionSortRight,
      partialInsertionSortRight]
    split_ifs
    · rfl
    · exact ih _ _ _ (by omega)
    · rfl

theorem reverseRangeLoop_fuel :
    ∀ (fuel k i j : Nat) (data : apmEventSearchHits σ), j + 1 - i ≤ fuel →
      reverseRangeLoop (fuel + k) i j data = reverseRangeLoop fuel i j data := by
  intro fuel
  induction fuel with
  | zero =>
    intro k i j data hf
    cases k with
    | zero => rfl
    | succ k =>
      rw [Nat.zero_add, reverseRangeLoop, reverseRangeLoop, if_neg (by omega)]
  | succ fuel ih =>
    intro k i j data hf
    rw [show fuel + 1 + k = (fuel + k) + 1 by omega, reverseRangeLoop, reverseRangeLoop]
    split_ifs
    · exact ih _ _ _ _ (by omega)
    · rfl

/-- Whatever `Less` answers, `sort.Sort` has come to the end of the loop of
`pdqsort`: with more fuel the loop returns the same slice. -/
theorem SortHits_fuel (GetBytes : σ → String → Result) (l : List (SearchHit σ))
    (h : 1 < l.length) (k : Nat) :
    pdqsortLoop GetBytes (l.length + 1 + k) l 0 l.length (bitsLen l.length) true true =
      SortHits GetBytes l := by
  unfold SortHits apmEventSearchHits.Len pdqsort
  dsimp only
  rw [if_neg (by omega)]
  exact pdqsortLoop_fuel GetBytes _ _ l 0 l.length _ true true (by omega) (by omega)
    (Nat.zero_le _) (le_refl _)

end sort

namespace sort

open approvaltest gjson

variable {σ : Type}

/-- On a slice of at most 12 hits `sort.Sort` is `insertionSort`. -/
theorem SortHits_small (GetBytes : σ → String → Result) (l : List (SearchHit σ))
    (h : l.length ≤ 12) : SortHits GetBytes l = insertionSort GetBytes l 0 l.length := by
  unfold SortHits apmEventSearchHits.Len
  dsimp only
  split_ifs with h1
  · unfold insertionSort
    rw [show l.length - (0 + 1) = 0 by omega]
    rfl
  · unfold pdqsort
    rw [pdqsortLoop_succ GetBytes _ l 0 l.length _ true true _ rfl _ rfl _ rfl,
      if_pos (by omega)]

/-- Two orders of the same hits, ordered both, are the same sequence when `Less`
leaves no two different hits unordered. -/
theorem sorted_perm_unique (GetBytes : σ → String → Result) :
    ∀ (l₁ l₂ : List (SearchHit σ)),
      (∀ a ∈ l₁, ∀ b ∈ l₁, hitLess GetBytes a b = false → hitLess GetBytes b a = false → a = b) →
      l₁.Perm l₂ →
      l₁.Pairwise (fun x y => hitLess GetBytes y x = false) →
      l₂.Pairwise (fun x y => hitLess GetBytes y x = false) → l₁ = l₂ := by
  intro l₁
  induction l₁ with
  | nil => intro l₂ _ hp _ _; exact hp.nil_eq
  | cons a t₁ ih =>
    intro l₂ hanti hp hs₁ hs₂
    cases l₂ with
    | nil => exact absurd hp.length_eq (by simp)
    | cons b t₂ =>
      have hab : a = b := by
        by_contra hne
        have ha : a ∈ t₂ := by
          have := hp.subset (List.mem_cons_self a t₁)
          rcases List.mem_cons.mp this with h | h
          · exact absurd h hne
          · exact h
        have hb : b ∈ t₁ := by
          have := hp.symm.subset (List.mem_cons_self b t₂)
          rcases List.mem_cons.mp this with h | h
          · exact absurd h.symm hne
          · exact h
        have h1 : hitLess GetBytes a b = false := (List.pairwise_cons.mp hs₂).1 a ha
        have h2 : hitLess GetBytes b a = false := (List.pairwise_cons.mp hs₁).1 b hb
        exact hne (hanti a (List.mem_cons_self _ _) b (List.mem_cons_of_mem _ hb) h1 h2)
      subst hab
      have hp2 : t₁.Perm t₂ := List.Perm.cons_inv hp
      rw [ih t₂ (fun x hx y hy => hanti x (List.mem_cons_of_mem _ hx) y (List.mem_cons_of_mem _ hy))
        hp2 (List.pairwise_cons.mp hs₁).2 (List.pairwise_cons.mp hs₂).2]

end sort

namespace approvaltest

open gjson

variable {σ : Type}

/-- Sorting a slice of two hits. -/
theorem SortHits_pair (GetBytes : σ → String → Result) (a b : SearchHit σ) :
    sort.SortHits GetBytes [b, a] = if hitLess GetBytes a b = true then [a, b] else [b, a] := by
  rw [sort.SortHits_small GetBytes [b, a] (by simp)]
  cases h : hitLess GetBytes a b <;>
    simp [sort.insertionSort, sort.insertionSortInner,
      apmEventSearchHits.Less, apmEventSearchHits.Swap, List.range', h]

/-- Sorting a slice of three hits none of which is `Less` than the one before
it leaves the slice as it is. -/
theorem SortHits_triple_fixed (GetBytes : σ → String → Result) (a b c : SearchHit σ)
    (hba : hitLess GetBytes b a = false) (hcb : hitLess GetBytes c b = false) :
    sort.SortHits GetBytes [a, b, c] = [a, b, c] := by
  rw [sort.SortHits_small GetBytes [a, b, c] (by simp)]
  simp [sort.insertionSort, sort.insertionSortInner,
    apmEventSearchHits.Less, apmEventSearchHits.Swap, List.range', hba, hcb]

end approvaltest
/-!
## Canonical Sorter: the claims
-/

namespace approvaltest

open gjson

variable {σ : Type}

theorem sameID_not_less : hitLess Document.GetBytes sameID1 sameID2 = false ∧
    hitLess Document.GetBytes sameID2 sameID1 = false := by
  constructor <;>
  simp [hitLess, apmEventSortFields, lessByFields, sameID1, sameID2, Document.GetBytes,
    pathKeys, splitDots, Document.get, List.lookup, Result.Less]

/-- Between two hits that hold nothing but a numeric `message`, `Less` compares
the two numbers and then the IDs. -/
theorem hitLess_messageHit (i j r s : String) (n m : Float64) :
    hitLess Document.GetBytes (messageHit i r n) (messageHit j s m) =
      if n.lt m = true then true else if m.lt n = true then false else decide (i < j) := by
  simp [hitLess, apmEventSortFields, lessByFields, messageHit, Document.GetBytes,
    pathKeys, splitDots, Document.get, List.lookup, Result.Less, Document.toResult]

/-- The verdicts of `Less` among the hits `2` (ID `a`), `NaN` (ID `b`) and `1`
(ID `c`): a cycle. -/
theorem hitLess_nan_cycle :
    hitLess Document.GetBytes hit2a hitNaNb = true ∧
    hitLess Document.GetBytes hitNaNb hit1c = true ∧
    hitLess Document.GetBytes hit1c hit2a = true ∧
    hitLess Document.GetBytes hitNaNb hit2a = false ∧
    hitLess Document.GetBytes hit1c hitNaNb = false ∧
    hitLess Document.GetBytes hit2a hit1c = false := by
  have e1 : ("a" : String) < "b" := by simp only [String.lt_iff_toList_lt]; decide
  have e2 : ("b" : String) < "c" := by simp only [String.lt_iff_toList_lt]; decide
  have e3 : ¬ ("b" : String) < "a" := by simp only [String.lt_iff_toList_lt]; decide
  have e4 : ¬ ("c" : String) < "b" := by simp only [String.lt_iff_toList_lt]; decide
  have n12 : ((1 : ℚ) : WithBot (WithTop ℚ)) < ((2 : ℚ) : WithBot (WithTop ℚ)) := by
    norm_cast
  have n21 : ¬ ((2 : ℚ) : WithBot (WithTop ℚ)) < ((1 : ℚ) : WithBot (WithTop ℚ)) := by
    norm_cast
  refine ⟨?_, ?_, ?_, ?_, ?_, ?_⟩ <;>
    simp [hit2a, hitNaNb, hit1c, hitLess_messageHit, Float64.lt, e1, e2, e3, e4, n12, n21]

/-- A hit whose sort keys are absent or hold a string, a boolean, a null or a
number that is not NaN has no NaN sort key. -/
theorem noNaN_of_results (GetBytes : σ → String → Result) (h : SearchHit σ)
    (hr : ∀ f ∈ apmEventSortFields,
      (GetBytes h.RawSource f).Typ ≠ Typ.Number ∨ (GetBytes h.RawSource f).Num ≠ Float64.nan) :
    NoNaN GetBytes h := by
  intro f hf hn
  rcases hr f hf with h1 | h1
  · exact h1 hn.1
  · exact h1 hn.2

theorem scenarioA_noNaN : NoNaN Document.GetBytes scenarioA1 ∧
    NoNaN Document.GetBytes scenarioA2 := by
  constructor <;>
  · apply noNaN_of_results
    intro f hf
    simp only [apmEventSortFields, List.mem_cons, List.mem_singleton, List.not_mem_nil,
      or_false] at hf
    rcases hf with h | h | h | h | h | h | h | h | h | h | h | h | h | h <;> subst h <;>
      simp [scenarioA1, scenarioA2, Document.GetBytes, pathKeys, splitDots, Document.get,
        List.lookup, Document.toResult]

theorem message_noNaN : NoNaN Document.GetBytes messageNumber ∧
    NoNaN Document.GetBytes messageString ∧ NoNaN Document.GetBytes messageTrue := by
  refine ⟨?_, ?_, ?_⟩ <;>
  · apply noNaN_of_results
    intro f hf
    simp only [apmEventSortFields, List.mem_cons, List.mem_singleton, List.not_mem_nil,
      or_false] at hf
    rcases hf with h | h | h | h | h | h | h | h | h | h | h | h | h | h <;> subst h <;>
      simp [messageNumber, messageString, messageTrue, Document.GetBytes, pathKeys, splitDots,
        Document.get, List.lookup, Document.toResult]

theorem sameID_noNaN : NoNaN Document.GetBytes sameID1 ∧
    NoNaN Document.GetBytes sameID2 ∧ NoNaN Document.GetBytes sameID3 := by
  refine ⟨?_, ?_, ?_⟩ <;>
  · apply noNaN_of_results
    intro f hf
    simp only [apmEventSortFields, List.mem_cons, List.mem_singleton, List.not_mem_nil,
      or_false] at hf
    rcases hf with h | h | h | h | h | h | h | h | h | h | h | h | h | h <;> subst h <;>
      simp [sameID1, sameID2, sameID3, Document.GetBytes, pathKeys, splitDots,
        Document.get, List.lookup, Document.toResult]

end approvaltest

namespace approvaltest

open gjson

variable {σ : Type}

/-- C1, as stated, fails twice. Two hits with the same ID and the same (absent)
sort keys but different sources are left in submission order, so the batch
`[sameID1, sameID2]` and its permutation `[sameID2, sameID1]` sort to different
sequences. And a NaN number at a sort key is unordered against every number:
the batch of the hits `2` (ID `a`), `NaN` (ID `b`) and `1` (ID `c`), whose IDs
differ, is left as it is submitted in two of its orders. -/
theorem C1_determinism_counterexample :
    ([sameID2, sameID1].Perm [sameID1, sameID2] ∧
      sort.SortHits Document.GetBytes [sameID1, sameID2] = [sameID1, sameID2] ∧
      sort.SortHits Document.GetBytes [sameID2, sameID1] = [sameID2, sameID1] ∧
      sort.SortHits Document.GetBytes [sameID1, sameID2] ≠
        sort.SortHits Document.GetBytes [sameID2, sameID1]) ∧
    ([hit1c, hit2a, hitNaNb].Perm [hit2a, hitNaNb, hit1c] ∧
      ([hit2a, hitNaNb, hit1c].map (fun h => h.ID)).Nodup ∧
      sort.SortHits Document.GetBytes [hit2a, hitNaNb, hit1c] = [hit2a, hitNaNb, hit1c] ∧
      sort.SortHits Document.GetBytes [hit1c, hit2a, hitNaNb] = [hit1c, hit2a, hitNaNb] ∧
      sort.SortHits Document.GetBytes [hit2a, hitNaNb, hit1c] ≠
        sort.SortHits Document.GetBytes [hit1c, hit2a, hitNaNb]) := by
  have h1 : sort.SortHits Document.GetBytes [sameID1, sameID2] = [sameID1, sameID2] := by
    rw [SortHits_pair, sameID_not_less.2]
    rfl
  have h2 : sort.SortHits Document.GetBytes [sameID2, sameID1] = [sameID2, sameID1] := by
    rw [SortHits_pair, sameID_not_less.1]
    rfl
  obtain ⟨_, _, _, c4, c5, c6⟩ := hitLess_nan_cycle
  have h3 := SortHits_triple_fixed Document.GetBytes hit2a hitNaNb hit1c c4 c5
  have h4 := SortHits_triple_fixed Document.GetBytes hit1c hit2a hitNaNb c6 c4
  refine ⟨⟨List.Perm.swap _ _ _, h1, h2, ?_⟩, ⟨?_, ?_, h3, h4, ?_⟩⟩
  · rw [h1, h2]
    simp [sameID1, sameID2]
  · exact @List.perm_append_comm _ [hit1c] [hit2a, hitNaNb]
  · simp [hit2a, hitNaNb, hit1c, messageHit]
  · rw [h3, h4]
    simp [hit2a, hitNaNb, hit1c, messageHit]

/-- C1, amended: for every batch in which no sort key of a hit holds a NaN
number and any two hits that `Less` leaves unordered (same ID, no
discriminating sort key) are the same hit, and every permutation of the batch,
sorting the permutation yields the same sequence as sorting the batch, element
for element; and every reordering of the batch in which no hit is `Less` than
an earlier one is that sequence. -/
theorem C1_determinism (GetBytes : σ → String → Result) (B P : List (SearchHit σ))
    (hN : ∀ x ∈ B, NoNaN GetBytes x)
    (hB : ∀ a ∈ B, ∀ b ∈ B,
      hitLess GetBytes a b = false → hitLess GetBytes b a = false → a = b)
    (hP : P.Perm B) :
    sort.SortHits GetBytes B = sort.SortHits GetBytes P ∧
    ∀ R : List (SearchHit σ), R.Perm B →
      R.Pairwise (fun x y => hitLess GetBytes y x = false) → R = sort.SortHits GetBytes B := by
  have huniq : ∀ R : List (SearchHit σ), R.Perm B →
      R.Pairwise (fun x y => hitLess GetBytes y x = false) → R = sort.SortHits GetBytes B := by
    intro R hR hs
    have hperm : (sort.SortHits GetBytes B).Perm R := (sort.SortHits_perm GetBytes B).trans hR.symm
    have hanti : ∀ a ∈ sort.SortHits GetBytes B, ∀ b ∈ sort.SortHits GetBytes B,
        hitLess GetBytes a b = false → hitLess GetBytes b a = false → a = b :=
      fun a ha b hb => hB a ((sort.SortHits_perm GetBytes B).subset ha) b
        ((sort.SortHits_perm GetBytes B).subset hb)
    exact (sort.sorted_perm_unique GetBytes _ _ hanti hperm
      (sort.SortHits_sorted GetBytes B hN) hs).symm
  exact ⟨(huniq _ ((sort.SortHits_perm GetBytes P).trans hP)
    (sort.SortHits_sorted GetBytes P (fun x hx => hN x (hP.subset hx)))).symm, huniq⟩

/-- C1, amended, at the batch of Scenario A and its other submission order. -/
theorem C1_determinism_witness :
    (∀ x ∈ [scenarioA2, scenarioA1], NoNaN Document.GetBytes x) ∧
    (∀ a ∈ [scenarioA2, scenarioA1], ∀ b ∈ [scenarioA2, scenarioA1],
      hitLess Document.GetBytes a b = false → hitLess Document.GetBytes b a = false → a = b) ∧
    [scenarioA1, scenarioA2].Perm [scenarioA2, scenarioA1] ∧
    sort.SortHits Document.GetBytes [scenarioA2, scenarioA1] =
      sort.SortHits Document.GetBytes [scenarioA1, scenarioA2] :=
  have hN : ∀ x ∈ [scenarioA2, scenarioA1], NoNaN Document.GetBytes x := by
    intro x hx
    simp only [List.mem_cons, List.mem_singleton, List.not_mem_nil, or_false] at hx
    rcases hx with rfl | rfl
    · exact scenarioA_noNaN.2
    · exact scenarioA_noNaN.1
  have hB : ∀ a ∈ [scenarioA2, scenarioA1], ∀ b ∈ [scenarioA2, scenarioA1],
      hitLess Document.GetBytes a b = false → hitLess Document.GetBytes b a = false → a = b := by
    intro a ha b hb h1 h2
    by_contra hne
    have hid : a.ID ≠ b.ID := by
      simp only [List.mem_cons, List.mem_singleton, List.not_mem_nil, or_false] at ha hb
      rcases ha with rfl | rfl <;> rcases hb with rfl | rfl <;>
        first
          | exact absurd rfl hne
          | (simp [scenarioA1, scenarioA2])
    rcases hitLess_total Document.GetBytes a b hid with h | h
    · rw [h] at h1; exact Bool.noConfusion h1
    · rw [h] at h2; exact Bool.noConfusion h2
  ⟨hN, hB, List.Perm.swap _ _ _,
    (C1_determinism Document.GetBytes [scenarioA2, scenarioA1] [scenarioA1, scenarioA2] hN hB
      (List.Perm.swap _ _ _)).1⟩

/-- C2: two hits with the same value at every sort key and IDs `a.ID < b.ID`,
submitted as `[b, a]`, are sorted to `[a, b]`. -/
theorem C2_tie_break_on_ID (GetBytes : σ → String → Result) (a b : SearchHit σ)
    (hkeys : ∀ f ∈ apmEventSortFields, GetBytes a.RawSource f = GetBytes b.RawSource f)
    (hid : a.ID < b.ID) :
    sort.SortHits GetBytes [b, a] = [a, b] := by
  have hless : hitLess GetBytes a b = true := by
    unfold hitLess
    rw [lessByFields_of_ties GetBytes apmEventSortFields a b]
    · exact decide_eq_true hid
    · intro f hf
      rw [hkeys f hf]
      exact ⟨Result.less_irrefl _, Result.less_irrefl _⟩
  rw [SortHits_pair, if_pos hless]

/-- C2 at Scenario B: IDs `"doc-b"`, `"doc-a"` sort to `"doc-a"`, `"doc-b"`. -/
theorem C2_tie_break_on_ID_witness :
    (∀ f ∈ apmEventSortFields,
      Document.GetBytes scenarioBa.RawSource f = Document.GetBytes scenarioBb.RawSource f) ∧
    scenarioBa.ID < scenarioBb.ID ∧
    sort.SortHits Document.GetBytes [scenarioBb, scenarioBa] = [scenarioBa, scenarioBb] ∧
    (sort.SortHits Document.GetBytes [scenarioBb, scenarioBa]).map (fun h => h.ID)
      = ["doc-a", "doc-b"] :=
  have hid : scenarioBa.ID < scenarioBb.ID := by
    simp only [scenarioBa, scenarioBb, String.lt_iff_toList_lt]; decide
  have h := C2_tie_break_on_ID Document.GetBytes scenarioBa scenarioBb (fun _ _ => rfl) hid
  ⟨fun _ _ => rfl, hid, h, by rw [h]; rfl⟩

/-- C3: `Less` never holds in both directions between two hits, never holds
between a hit and itself, and at no sort key does the value comparison report
both `a < b` and `b < a`. -/
theorem C3_antisymmetric (GetBytes : σ → String → Result) :
    (∀ a b : SearchHit σ, ¬ (hitLess GetBytes a b = true ∧ hitLess GetBytes b a = true)) ∧
    (∀ a : SearchHit σ, hitLess GetBytes a a = false) ∧
    (∀ (hits : apmEventSearchHits σ) (i j : Nat),
      ¬ (apmEventSearchHits.Less GetBytes hits i j = true ∧
         apmEventSearchHits.Less GetBytes hits j i = true)) ∧
    (∀ (a b : SearchHit σ) (field : String),
      ¬ ((GetBytes a.RawSource field).Less (GetBytes b.RawSource field) true = true ∧
         (GetBytes b.RawSource field).Less (GetBytes a.RawSource field) true = true)) := by
  refine ⟨?_, hitLess_irrefl GetBytes, ?_, ?_⟩
  · rintro a b ⟨h1, h2⟩
    rw [hitLess_asymm GetBytes a b h1] at h2
    exact Bool.noConfusion h2
  · rintro hits i j ⟨h1, h2⟩
    unfold apmEventSearchHits.Less at h1 h2
    cases hi : hits[i]? with
    | none => simp [hi] at h1
    | some x =>
      cases hj : hits[j]? with
      | none => simp [hi, hj] at h1
      | some y =>
        simp only [hi, hj] at h1 h2
        rw [hitLess_asymm GetBytes x y h1] at h2
        exact Bool.noConfusion h2
  · rintro a b field ⟨h1, h2⟩
    rw [Result.less_asymm _ _ h1] at h2
    exact Bool.noConfusion h2

/-- C4, as stated, fails: a NaN number at a sort key is unordered against
every number, so `Less` goes round in a circle among the hits `2` (ID `a`),
`NaN` (ID `b`) and `1` (ID `c`). Transitivity fails with the NaN in the
second, the first and the third of the three hits. -/
theorem C4_transitive_counterexample :
    (hitLess Document.GetBytes hit2a hitNaNb = true ∧
      hitLess Document.GetBytes hitNaNb hit1c = true ∧
      hitLess Document.GetBytes hit2a hit1c = false) ∧
    (hitLess Document.GetBytes hitNaNb hit1c = true ∧
      hitLess Document.GetBytes hit1c hit2a = true ∧
      hitLess Document.GetBytes hitNaNb hit2a = false) ∧
    (hitLess Document.GetBytes hit1c hit2a = true ∧
      hitLess Document.GetBytes hit2a hitNaNb = true ∧
      hitLess Document.GetBytes hit1c hitNaNb = false) := by
  obtain ⟨c1, c2, c3, c4, c5, c6⟩ := hitLess_nan_cycle
  exact ⟨⟨c1, c2, c6⟩, ⟨c2, c3, c4⟩, ⟨c3, c1, c5⟩⟩

/-- C4, amended: among hits none of whose sort keys holds a NaN number, `Less`
is transitive: from `Less(a, b)` and `Less(b, c)` follows `Less(a, c)`,
whatever the types of the values at the sort keys. -/
theorem C4_transitive (GetBytes : σ → String → Result) (a b c : SearchHit σ)
    (ha : NoNaN GetBytes a) (hb : NoNaN GetBytes b) (hc : NoNaN GetBytes c)
    (hab : hitLess GetBytes a b = true) (hbc : hitLess GetBytes b c = true) :
    hitLess GetBytes a c = true :=
  hitLess_trans GetBytes a b c ha hb hc hab hbc

/-- C4, amended, at three hits whose `message` is a number, a string and
`true`. -/
theorem C4_transitive_witness :
    NoNaN Document.GetBytes messageNumber ∧ NoNaN Document.GetBytes messageString ∧
    NoNaN Document.GetBytes messageTrue ∧
    hitLess Document.GetBytes messageNumber messageString = true ∧
    hitLess Document.GetBytes messageString messageTrue = true ∧
    hitLess Document.GetBytes messageNumber messageTrue = true :=
  have h1 : hitLess Document.GetBytes messageNumber messageString = true := by
    simp [hitLess, apmEventSortFields, lessByFields, messageNumber, messageString,
      Document.GetBytes, pathKeys, splitDots, Document.get, List.lookup, Result.Less,
      Document.toResult, Typ.toInt]
  have h2 : hitLess Document.GetBytes messageString messageTrue = true := by
    simp [hitLess, apmEventSortFields, lessByFields, messageTrue, messageString,
      Document.GetBytes, pathKeys, splitDots, Document.get, List.lookup, Result.Less,
      Document.toResult, Typ.toInt]
  ⟨message_noNaN.1, message_noNaN.2.1, message_noNaN.2.2, h1, h2,
    C4_transitive Document.GetBytes messageNumber messageString messageTrue
      message_noNaN.1 message_noNaN.2.1 message_noNaN.2.2 h1 h2⟩

end approvaltest

namespace approvaltest

open gjson

variable {σ : Type}

/-- C5: when no sort key before `k` discriminates two hits and at `k` the value
of `a` is less than the value of `b`, then `Less(a, b)` is true and `Less(b, a)`
is false, whatever the later keys and the IDs are; the two hits are sorted to
`[a, b]` from either submission order. -/
theorem C5_priority_chain (GetBytes : σ → String → Result) (pre post : List String)
    (k : String) (a b : SearchHit σ)
    (hsplit : apmEventSortFields = pre ++ k :: post)
    (hpre : ∀ f ∈ pre,
      (GetBytes a.RawSource f).Less (GetBytes b.RawSource f) true = false ∧
      (GetBytes b.RawSource f).Less (GetBytes a.RawSource f) true = false)
    (hk : (GetBytes a.RawSource k).Less (GetBytes b.RawSource k) true = true) :
    hitLess GetBytes a b = true ∧ hitLess GetBytes b a = false ∧
    sort.SortHits GetBytes [b, a] = [a, b] ∧ sort.SortHits GetBytes [a, b] = [a, b] := by
  have hab : hitLess GetBytes a b = true := by
    unfold hitLess
    rw [hsplit, lessByFields_append_ties GetBytes pre (k :: post) a b hpre]
    exact lessByFields_cons_lt GetBytes k post a b hk
  have hba : hitLess GetBytes b a = false := hitLess_asymm GetBytes a b hab
  refine ⟨hab, hba, ?_, ?_⟩
  · rw [SortHits_pair, if_pos hab]
  · rw [SortHits_pair, hba]
    simp

/-- C5 at Scenario A: `trace.id` `"2"` and `"1"`, all other sort keys absent,
sort to `"1"`, `"2"`, although the IDs are in the other order. -/
theorem C5_priority_chain_witness :
    apmEventSortFields = ["processor.event"] ++ "trace.id" :: apmEventSortFields.drop 2 ∧
    (Document.GetBytes scenarioA1.RawSource "trace.id").Less
      (Document.GetBytes scenarioA2.RawSource "trace.id") true = true ∧
    scenarioA2.ID < scenarioA1.ID ∧
    hitLess Document.GetBytes scenarioA1 scenarioA2 = true ∧
    hitLess Document.GetBytes scenarioA2 scenarioA1 = false ∧
    sort.SortHits Document.GetBytes [scenarioA2, scenarioA1] = [scenarioA1, scenarioA2] ∧
    sort.SortHits Document.GetBytes [scenarioA1, scenarioA2] = [scenarioA1, scenarioA2] :=
  have hk : (Document.GetBytes scenarioA1.RawSource "trace.id").Less
      (Document.GetBytes scenarioA2.RawSource "trace.id") true = true := by
    simp [scenarioA1, scenarioA2, Document.GetBytes, pathKeys, splitDots, Document.get,
      List.lookup, Result.Less, Document.toResult, Typ.toInt]
    decide
  have hid : scenarioA2.ID < scenarioA1.ID := by
    simp only [scenarioA1, scenarioA2, String.lt_iff_toList_lt]; decide
  ⟨rfl, hk, hid,
    C5_priority_chain Document.GetBytes ["processor.event"] (apmEventSortFields.drop 2)
      "trace.id" scenarioA1 scenarioA2 rfl
      (by
        intro f hf
        rw [List.mem_singleton] at hf
        subst hf
        constructor <;>
          simp [scenarioA1, scenarioA2, Document.GetBytes, pathKeys, splitDots, Document.get,
            List.lookup, Result.Less])
      hk⟩

/-- C6: when no key of the sort key list discriminates two hits (the empty list
included), `Less(a, b)` holds if and only if `a.ID < b.ID`. -/
theorem C6_ID_fallback (GetBytes : σ → String → Result) (fields : List String)
    (a b : SearchHit σ)
    (hties : ∀ f ∈ fields,
      (GetBytes a.RawSource f).Less (GetBytes b.RawSource f) true = false ∧
      (GetBytes b.RawSource f).Less (GetBytes a.RawSource f) true = false) :
    (lessByFields GetBytes fields a b = true ↔ a.ID < b.ID) ∧
    (fields = apmEventSortFields → (hitLess GetBytes a b = true ↔ a.ID < b.ID)) := by
  have h : lessByFields GetBytes fields a b = true ↔ a.ID < b.ID := by
    rw [lessByFields_of_ties GetBytes fields a b hties, decide_eq_true_eq]
  refine ⟨h, ?_⟩
  intro hf
  subst hf
  exact h

/-- C6 at Scenario B, where every sort key has the same value in both hits. -/
theorem C6_ID_fallback_witness :
    (∀ f ∈ apmEventSortFields,
      (Document.GetBytes scenarioBa.RawSource f).Less
        (Document.GetBytes scenarioBb.RawSource f) true = false ∧
      (Document.GetBytes scenarioBb.RawSource f).Less
        (Document.GetBytes scenarioBa.RawSource f) true = false) ∧
    (hitLess Document.GetBytes scenarioBa scenarioBb = true ↔ scenarioBa.ID < scenarioBb.ID) :=
  have hties : ∀ f ∈ apmEventSortFields,
      (Document.GetBytes scenarioBa.RawSource f).Less
        (Document.GetBytes scenarioBb.RawSource f) true = false ∧
      (Document.GetBytes scenarioBb.RawSource f).Less
        (Document.GetBytes scenarioBa.RawSource f) true = false :=
    fun f _ => ⟨Result.less_irrefl (Document.GetBytes scenarioBa.RawSource f),
      Result.less_irrefl (Document.GetBytes scenarioBa.RawSource f)⟩
  ⟨hties, (C6_ID_fallback Document.GetBytes apmEventSortFields scenarioBa scenarioBb hties).2 rfl⟩

/-- C7: for two hits that no earlier sort key discriminates, a key whose path is
absent from `a` and present in `b`, with any value, gives the verdict
`Less(a, b) = true` (and `Less(b, a) = false`); a key whose path is absent from
both is passed over: the verdict is that of the keys after it, or of the IDs
when it is the last key. -/
theorem C7_missing_field_lowest (GetBytes : σ → String → Result) (pre post : List String)
    (k : String) (a b : SearchHit σ)
    (hsplit : apmEventSortFields = pre ++ k :: post)
    (hpre : ∀ f ∈ pre,
      (GetBytes a.RawSource f).Less (GetBytes b.RawSource f) true = false ∧
      (GetBytes b.RawSource f).Less (GetBytes a.RawSource f) true = false)
    (ha : (GetBytes a.RawSource k).Exists = false) :
    ((GetBytes b.RawSource k).Exists = true →
      hitLess GetBytes a b = true ∧ hitLess GetBytes b a = false) ∧
    ((GetBytes b.RawSource k).Exists = false →
      hitLess GetBytes a b = lessByFields GetBytes post a b ∧
      (post = [] → hitLess GetBytes a b = decide (a.ID < b.ID))) := by
  have hskip : hitLess GetBytes a b = lessByFields GetBytes (k :: post) a b := by
    unfold hitLess
    rw [hsplit, lessByFields_append_ties GetBytes pre (k :: post) a b hpre]
  constructor
  · intro hb
    have hab : hitLess GetBytes a b = true := by
      rw [hskip]
      exact lessByFields_cons_lt GetBytes k post a b
        (Result.less_of_not_exists_of_exists _ _ ha hb)
    exact ⟨hab, hitLess_asymm GetBytes a b hab⟩
  · intro hb
    have hnext : hitLess GetBytes a b = lessByFields GetBytes post a b := by
      rw [hskip]
      exact lessByFields_cons_tie GetBytes k post a b
        (Result.not_less_of_not_exists _ _ hb) (Result.not_less_of_not_exists _ _ ha)
    refine ⟨hnext, ?_⟩
    intro hpost
    rw [hnext, hpost]
    rfl

/-- C7 at a hit without `trace.id` and a hit whose `trace.id` is `null`. -/
theorem C7_missing_field_lowest_witness :
    (Document.GetBytes traceMissing.RawSource "trace.id").Exists = false ∧
    (Document.GetBytes traceNull.RawSource "trace.id").Exists = true ∧
    hitLess Document.GetBytes traceMissing traceNull = true ∧
    hitLess Document.GetBytes traceNull traceMissing = false :=
  have ha : (Document.GetBytes traceMissing.RawSource "trace.id").Exists = false := by
    simp [traceMissing, Document.GetBytes, pathKeys, splitDots, Document.get, List.lookup,
      Result.Exists]
  have hb : (Document.GetBytes traceNull.RawSource "trace.id").Exists = true := by
    simp [traceNull, Document.GetBytes, pathKeys, splitDots, Document.get, List.lookup,
      Result.Exists, Document.toResult]
    decide
  ⟨ha, hb,
    (C7_missing_field_lowest Document.GetBytes ["processor.event"] (apmEventSortFields.drop 2)
      "trace.id" traceMissing traceNull rfl
      (by
        intro f hf
        rw [List.mem_singleton] at hf
        subst hf
        constructor <;>
          simp [traceMissing, traceNull, Document.GetBytes, pathKeys, splitDots, Document.get,
            List.lookup, Result.Less])
      ha).1 hb⟩

/-- C8: of two hits with distinct IDs exactly one is `Less` than the other, also
when they are value-identical otherwise. -/
theorem C8_total_order (GetBytes : σ → String → Result) (a b : SearchHit σ)
    (hne : a.ID ≠ b.ID) :
    (hitLess GetBytes a b = true ∧ hitLess GetBytes b a = false) ∨
    (hitLess GetBytes a b = false ∧ hitLess GetBytes b a = true) := by
  rcases hitLess_total GetBytes a b hne with h | h
  · exact Or.inl ⟨h, hitLess_asymm GetBytes a b h⟩
  · exact Or.inr ⟨hitLess_asymm GetBytes b a h, h⟩

/-- C8 at Scenario B: the same source under two IDs. -/
theorem C8_total_order_witness :
    scenarioBa.ID ≠ scenarioBb.ID ∧ scenarioBa.RawSource = scenarioBb.RawSource ∧
    ((hitLess Document.GetBytes scenarioBa scenarioBb = true ∧
        hitLess Document.GetBytes scenarioBb scenarioBa = false) ∨
      (hitLess Document.GetBytes scenarioBa scenarioBb = false ∧
        hitLess Document.GetBytes scenarioBb scenarioBa = true)) :=
  have hne : scenarioBa.ID ≠ scenarioBb.ID := by
    simp [scenarioBa, scenarioBb]
  ⟨hne, rfl, C8_total_order Document.GetBytes scenarioBa scenarioBb hne⟩

/-- C9: the dynamic field list `ApproveEvents` hands on is the six defaults
followed by the caller's paths: a path is in it exactly when it is a default or
was supplied by the caller, and every default is in it whatever the caller
supplies. -/
theorem C9_dynamic_defaults_union (GetBytes : σ → String → Result) (name : String)
    (hits : List (SearchHit σ)) (extra : List String) :
    (ApproveEvents GetBytes name hits extra).dynamic =
      ["ecs.version", "event.ingested", "observer.ephemeral_id", "observer.hostname",
        "observer.id", "observer.version"] ++ extra ∧
    (∀ p : String, p ∈ (ApproveEvents GetBytes name hits extra).dynamic ↔
      (p ∈ ["ecs.version", "event.ingested", "observer.ephemeral_id", "observer.hostname",
        "observer.id", "observer.version"] ∨ p ∈ extra)) ∧
    (∀ p ∈ ["ecs.version", "event.ingested", "observer.ephemeral_id", "observer.hostname",
        "observer.id", "observer.version"],
      p ∈ (ApproveEvents GetBytes name hits extra).dynamic) := by
  refine ⟨rfl, ?_, ?_⟩
  · intro p
    show p ∈ _ ++ extra ↔ _
    rw [List.mem_append]
  · intro p hp
    show p ∈ _ ++ extra
    exact List.mem_append_left _ hp

end approvaltest

/-!
## Field Masker: paths of a document and the claim on presence
-/

namespace approvaltest

theorem lookup_setMember_same (k : String) (f : Document → Document)
    (ms : List (String × Document)) :
    (setMember k f ms).lookup k = (ms.lookup k).map f := by
  induction ms with
  | nil => rfl
  | cons m ms ih =>
    obtain ⟨key, v⟩ := m
    by_cases h : key = k
    · subst h
      simp [setMember, List.lookup]
    · have h2 : (k == key) = false := by simpa using fun hc => h hc.symm
      have h3 : (key == k) = false := by simpa using h
      simp [setMember, List.lookup, h2, h3, ih]

theorem lookup_setMember_other (k k2 : String) (f : Document → Document)
    (ms : List (String × Document)) (hne : k2 ≠ k) :
    (setMember k f ms).lookup k2 = ms.lookup k2 := by
  induction ms with
  | nil => rfl
  | cons m ms ih =>
    obtain ⟨key, v⟩ := m
    by_cases h : key = k
    · subst h
      have h2 : (k2 == key) = false := by simpa using hne
      simp [setMember, List.lookup, h2]
    · have h3 : (key == k) = false := by simpa using h
      by_cases h4 : k2 = key
      · subst h4
        simp [setMember, List.lookup, h3]
      · have h5 : (k2 == key) = false := by simpa using h4
        simp [setMember, List.lookup, h3, h5, ih]

theorem Document.get_append (p r : List String) :
    ∀ d : Document, d.get (p ++ r) = (d.get p).bind (fun v => v.get r) := by
  induction p with
  | nil => intro d; simp [Document.get]
  | cons k ks ih =>
    intro d
    cases d with
    | object ms =>
      simp only [List.cons_append, Document.get]
      cases ms.lookup k with
      | none => rfl
      | some v => exact ih v
    | _ => simp [Document.get]

theorem Document.get_set_under (q r : List String) (s : Document) :
    ∀ d : Document, (d.get q).isSome → (d.set q s).get (q ++ r) = s.get r := by
  induction q with
  | nil => intro d _; simp [Document.set]
  | cons k ks ih =>
    intro d hd
    cases d with
    | object ms =>
      simp only [Document.get] at hd
      simp only [Document.set, List.cons_append, Document.get, lookup_setMember_same]
      cases hl : ms.lookup k with
      | none => rw [hl] at hd; simp at hd
      | some v =>
        rw [hl] at hd
        simp only [Option.map_some']
        exact ih v hd
    | _ => simp [Document.get] at hd

theorem Document.get_set_above (p r : List String) (s : Document) :
    ∀ d : Document, (d.set (p ++ r) s).get p = (d.get p).map (fun v => v.set r s) := by
  induction p with
  | nil => intro d; simp [Document.get]
  | cons k ks ih =>
    intro d
    cases d with
    | object ms =>
      simp only [List.cons_append, Document.set, Document.get, lookup_setMember_same]
      cases hl : ms.lookup k with
      | none => rfl
      | some v =>
        simp only [Option.map_some']
        exact ih v
    | _ => simp [Document.get, Document.set]

theorem Document.get_set_apart (q : List String) (s : Document) :
    ∀ (p : List String) (d : Document), ¬ q <+: p → ¬ p <+: q →
      (d.set q s).get p = d.get p := by
  induction q with
  | nil => intro p d h _; exact absurd (List.nil_prefix) h
  | cons k ks ih =>
    intro p d h1 h2
    cases p with
    | nil => exact absurd (List.nil_prefix) h2
    | cons k2 ps =>
      cases d with
      | object ms =>
        simp only [Document.set, Document.get]
        by_cases hk : k2 = k
        · subst hk
          rw [lookup_setMember_same]
          cases hl : ms.lookup k2 with
          | none => rfl
          | some v =>
            simp only [Option.map_some']
            apply ih
            · intro hc; exact h1 ((List.cons_prefix_cons).mpr ⟨rfl, hc⟩)
            · intro hc; exact h2 ((List.cons_prefix_cons).mpr ⟨rfl, hc⟩)
        · rw [lookup_setMember_other _ _ _ _ hk]
      | _ => simp [Document.set]

/-- Masking a path leaves an absent path absent. -/
theorem maskField_get_none (sentinel : String) (d : Document) (q : String)
    (p : List String) (hp : d.get p = none) :
    (maskField sentinel d q).get p = none := by
  unfold maskField
  by_cases hq : (d.get (pathKeys q)).isSome
  · rw [if_pos hq]
    by_cases h1 : pathKeys q <+: p
    · obtain ⟨r, rfl⟩ := h1
      rw [Document.get_set_under _ _ _ _ hq]
      cases r with
      | nil =>
        rw [List.append_nil] at hp
        rw [hp] at hq
        exact absurd hq (by simp)
      | cons k ks => rfl
    · by_cases h2 : p <+: pathKeys q
      · obtain ⟨r, hr⟩ := h2
        rw [← hr, Document.get_set_above, hp]
        rfl
      · rw [Document.get_set_apart _ _ _ _ h1 h2, hp]
  · rw [if_neg hq]
    exact hp

theorem Normalize_get_none (sentinel : String) (F : List String) (p : List String) :
    ∀ d : Document, d.get p = none → (Normalize sentinel d F).get p = none := by
  induction F with
  | nil => intro d hd; exact hd
  | cons q F ih =>
    intro d hd
    exact ih _ (maskField_get_none sentinel d q p hd)

theorem maskField_get_isSome (sentinel : String) (d : Document) (q : String)
    (p : List String) (hq : ¬ (pathKeys q <+: p ∧ pathKeys q ≠ p))
    (hp : (d.get p).isSome) :
    ((maskField sentinel d q).get p).isSome := by
  unfold maskField
  by_cases hqs : (d.get (pathKeys q)).isSome
  · rw [if_pos hqs]
    by_cases h1 : pathKeys q <+: p
    · have he : pathKeys q = p := by
        by_contra hne
        exact hq ⟨h1, hne⟩
      have := Document.get_set_under (pathKeys q) [] (Document.string sentinel) d hqs
      rw [List.append_nil, he] at this
      rw [he, this]
      rfl
    · by_cases h2 : p <+: pathKeys q
      · obtain ⟨r, hr⟩ := h2
        rw [← hr, Document.get_set_above]
        cases hg : d.get p with
        | none => rw [hg] at hp; exact absurd hp (by simp)
        | some v => rfl
      · rw [Document.get_set_apart _ _ _ _ h1 h2]
        exact hp
  · rw [if_neg hqs]
    exact hp

theorem maskField_get_same (sentinel : String) (d : Document) (q : String)
    (hp : (d.get (pathKeys q)).isSome) :
    (maskField sentinel d q).get (pathKeys q) = some (Document.string sentinel) := by
  unfold maskField
  rw [if_pos hp]
  have := Document.get_set_under (pathKeys q) [] (Document.string sentinel) d hp
  rw [List.append_nil] at this
  rw [this]
  rfl

theorem maskField_get_masked (sentinel : String) (d : Document) (q : String)
    (p : List String) (hq : ¬ (pathKeys q <+: p ∧ pathKeys q ≠ p))
    (hp : d.get p = some (Document.string sentinel)) :
    (maskField sentinel d q).get p = some (Document.string sentinel) := by
  by_cases h1 : pathKeys q <+: p
  · have he : pathKeys q = p := by
      by_contra hne
      exact hq ⟨h1, hne⟩
    rw [← he]
    apply maskField_get_same
    rw [he, hp]
    rfl
  · unfold maskField
    by_cases hqs : (d.get (pathKeys q)).isSome
    · rw [if_pos hqs]
      by_cases h2 : p <+: pathKeys q
      · obtain ⟨r, hr⟩ := h2
        exfalso
        rw [← hr, Document.get_append, hp] at hqs
        cases r with
        | nil => rw [List.append_nil] at hr; exact h1 (hr ▸ List.prefix_refl _)
        | cons k ks => simp [Document.get] at hqs
      · rw [Document.get_set_apart _ _ _ _ h1 h2]
        exact hp
    · rw [if_neg hqs]
      exact hp

theorem Normalize_get_masked (sentinel : String) (p : String) (F : List String) :
    ∀ d : Document,
      (∀ q ∈ F, ¬ (pathKeys q <+: pathKeys p ∧ pathKeys q ≠ pathKeys p)) →
      (d.get (pathKeys p)).isSome →
      (p ∈ F ∨ d.get (pathKeys p) = some (Document.string sentinel)) →
      (Normalize sentinel d F).get (pathKeys p) = some (Document.string sentinel) := by
  induction F with
  | nil =>
    intro d _ _ h
    rcases h with h | h
    · exact absurd h (List.not_mem_nil _)
    · exact h
  | cons q F ih =>
    intro d hF hd h
    have hq := hF q (List.mem_cons_self _ _)
    have hF2 : ∀ q2 ∈ F, ¬ (pathKeys q2 <+: pathKeys p ∧ pathKeys q2 ≠ pathKeys p) :=
      fun q2 h2 => hF q2 (List.mem_cons_of_mem _ h2)
    have hsome := maskField_get_isSome sentinel d q (pathKeys p) hq hd
    show (Normalize sentinel (maskField sentinel d q) F).get (pathKeys p) = _
    apply ih _ hF2 hsome
    rcases h with h | h
    · rcases List.mem_cons.mp h with h | h
      · subst h
        exact Or.inr (maskField_get_same sentinel d p hd)
      · exact Or.inl h
    · exact Or.inr (maskField_get_masked sentinel d q (pathKeys p) hq h)

/-- C10, as stated, fails: with `observer` and `observer.id` both dynamic, the
path `observer.id`, which is in the field set and present in the document, is
absent from the normalized document, where `observer` holds the sentinel. -/
theorem C10_presence_counterexample :
    "observer.id" ∈ ["observer", "observer.id"] ∧
    observerDoc.get (pathKeys "observer.id") = some (Document.string "xyz123") ∧
    Normalize "dynamic" observerDoc ["observer", "observer.id"] =
      Document.object [("observer", Document.string "dynamic")] ∧
    (Normalize "dynamic" observerDoc ["observer", "observer.id"]).get
      (pathKeys "observer.id") = none ∧
    (Normalize "dynamic" observerDoc ["observer.id", "observer"]).get
      (pathKeys "observer.id") = none :=
  ⟨by simp, rfl, rfl, rfl, rfl⟩

/-- C10, amended: for every document `d`, dynamic field list `F` and path `p` in
`F`, if `p` is absent from `d` then it is absent from `Normalize(d, F)`; if `p`
is present in `d` and no path of `F` is a proper initial part of `p`, then `p`
is present in `Normalize(d, F)` with the sentinel value. -/
theorem C10_presence_preservation (sentinel : String) (d : Document) (F : List String)
    (p : String) (hp : p ∈ F) :
    (d.get (pathKeys p) = none → (Normalize sentinel d F).get (pathKeys p) = none) ∧
    ((∀ q ∈ F, ¬ (pathKeys q <+: pathKeys p ∧ pathKeys q ≠ pathKeys p)) →
      (d.get (pathKeys p)).isSome →
      (Normalize sentinel d F).get (pathKeys p) = some (Document.string sentinel)) :=
  ⟨Normalize_get_none sentinel F (pathKeys p) d,
    fun hF hd => Normalize_get_masked sentinel p F d hF hd (Or.inl hp)⟩

/-- C10, amended, at Scenarios C and D: under the default dynamic fields a
document with only `observer.id` keeps it, with the sentinel as its value, and
gets no `event.ingested`. -/
theorem C10_presence_preservation_witness :
    "event.ingested" ∈ (ApproveEvents Document.GetBytes "n" [] []).dynamic ∧
    "observer.id" ∈ (ApproveEvents Document.GetBytes "n" [] []).dynamic ∧
    (Normalize "dynamic" observerDoc (ApproveEvents Document.GetBytes "n" [] []).dynamic).get
      (pathKeys "event.ingested") = none ∧
    (Normalize "dynamic" observerDoc (ApproveEvents Document.GetBytes "n" [] []).dynamic).get
      (pathKeys "observer.id") = some (Document.string "dynamic") :=
  have h1 : "event.ingested" ∈ (ApproveEvents Document.GetBytes "n" [] []).dynamic := by
    simp [ApproveEvents]
  have h2 : "observer.id" ∈ (ApproveEvents Document.GetBytes "n" [] []).dynamic := by
    simp [ApproveEvents]
  ⟨h1, h2,
    (C10_presence_preservation "dynamic" observerDoc _ "event.ingested" h1).1 rfl,
    (C10_presence_preservation "dynamic" observerDoc _ "observer.id" h2).2
      (by
        intro q hq
        simp only [ApproveEvents, List.append_nil, List.mem_cons, List.mem_singleton,
          List.not_mem_nil, or_false] at hq
        rcases hq with rfl | rfl | rfl | rfl | rfl | rfl <;> decide)
      rfl⟩

end approvaltest

/-!
## Extraction without a failure path, the dynamic field list, the key list
-/

namespace approvaltest

open gjson

variable {σ : Type}

/-- A hit in which the lookup finds no key of the list is `Less` than a hit in
which it finds one. -/
theorem lessByFields_missing_lt (GetBytes : σ → String → Result) (fields : List String)
    (a b : SearchHit σ)
    (ha : ∀ f ∈ fields, (GetBytes a.RawSource f).Exists = false)
    (hb : ∃ f ∈ fields, (GetBytes b.RawSource f).Exists = true) :
    lessByFields GetBytes fields a b = true := by
  induction fields with
  | nil =>
    obtain ⟨f, hf, _⟩ := hb
    exact absurd hf (List.not_mem_nil _)
  | cons f rest ih =>
    have haf := ha f (List.mem_cons_self _ _)
    cases hbf : (GetBytes b.RawSource f).Exists
    · rw [lessByFields_cons_tie _ _ _ _ _ (Result.not_less_of_not_exists _ _ hbf)
        (Result.not_less_of_not_exists _ _ haf)]
      apply ih (fun g hg => ha g (List.mem_cons_of_mem _ hg))
      obtain ⟨g, hg, hgb⟩ := hb
      rcases List.mem_cons.mp hg with h | h
      · subst h
        rw [hbf] at hgb
        exact absurd hgb Bool.noConfusion
      · exact ⟨g, h, hgb⟩
    · exact lessByFields_cons_lt _ _ _ _ _ (Result.less_of_not_exists_of_exists _ _ haf hbf)

/-- The verdict depends on the hits only through their IDs and the values the
lookup returns at the fields of the list. -/
theorem lessByFields_congr (G1 G2 : σ → String → Result) (fields : List String)
    (a b a2 b2 : SearchHit σ) (hida : a.ID = a2.ID) (hidb : b.ID = b2.ID)
    (h : ∀ f ∈ fields, G1 a.RawSource f = G2 a2.RawSource f ∧
      G1 b.RawSource f = G2 b2.RawSource f) :
    lessByFields G1 fields a b = lessByFields G2 fields a2 b2 := by
  induction fields with
  | nil => simp only [lessByFields, hida, hidb]
  | cons f rest ih =>
    have hf := h f (List.mem_cons_self _ _)
    simp only [lessByFields, hf.1, hf.2]
    rw [ih (fun g hg => h g (List.mem_cons_of_mem _ hg))]

/-- When some field of the list discriminates, the IDs play no part. -/
theorem lessByFields_ids_unused (GetBytes : σ → String → Result) (fields : List String)
    (a b a2 b2 : SearchHit σ) (hsa : a.RawSource = a2.RawSource)
    (hsb : b.RawSource = b2.RawSource)
    (h : ∃ f ∈ fields,
      (GetBytes a.RawSource f).Less (GetBytes b.RawSource f) true = true ∨
      (GetBytes b.RawSource f).Less (GetBytes a.RawSource f) true = true) :
    lessByFields GetBytes fields a b = lessByFields GetBytes fields a2 b2 := by
  induction fields with
  | nil =>
    obtain ⟨f, hf, _⟩ := h
    exact absurd hf (List.not_mem_nil _)
  | cons f rest ih =>
    cases hab : (GetBytes a.RawSource f).Less (GetBytes b.RawSource f) true
    · cases hba : (GetBytes b.RawSource f).Less (GetBytes a.RawSource f) true
      · rw [lessByFields_cons_tie _ _ _ _ _ hab hba,
          lessByFields_cons_tie _ _ _ _ _ (hsa ▸ hsb ▸ hab) (hsa ▸ hsb ▸ hba)]
        apply ih
        obtain ⟨g, hg, hd⟩ := h
        rcases List.mem_cons.mp hg with e | e
        · subst e
          rw [hab, hba] at hd
          rcases hd with hd | hd <;> exact absurd hd Bool.noConfusion
        · exact ⟨g, e, hd⟩
      · rw [lessByFields_cons_gt _ _ _ _ _ hba,
          lessByFields_cons_gt _ _ _ _ _ (hsa ▸ hsb ▸ hba)]
    · rw [lessByFields_cons_lt _ _ _ _ _ hab,
        lessByFields_cons_lt _ _ _ _ _ (hsa ▸ hsb ▸ hab)]

end approvaltest

namespace approvaltest

open gjson

variable {σ : Type}

/-- C11, as stated, fails: for a hit whose raw source is the empty byte slice,
which does not parse, the extraction of every sort key yields the zero result
of a missing field, `Less` gives the ordinary verdict that the hit comes before
a hit with `trace.id`, and the sort puts it first; no failure reaches the
caller. -/
theorem C11_extraction_counterexample :
    (∀ f ∈ apmEventSortFields,
      RawSource.GetBytes emptySourceHit.RawSource f = ({} : Result) ∧
      (RawSource.GetBytes emptySourceHit.RawSource f).Exists = false) ∧
    hitLess RawSource.GetBytes emptySourceHit parsedSourceHit = true ∧
    hitLess RawSource.GetBytes parsedSourceHit emptySourceHit = false ∧
    sort.SortHits RawSource.GetBytes [parsedSourceHit, emptySourceHit] =
      [emptySourceHit, parsedSourceHit] := by
  have hmiss : ∀ f ∈ apmEventSortFields,
      (RawSource.GetBytes emptySourceHit.RawSource f).Exists = false := fun _ _ => rfl
  have hex : ∃ f ∈ apmEventSortFields,
      (RawSource.GetBytes parsedSourceHit.RawSource f).Exists = true :=
    ⟨"trace.id", by simp [apmEventSortFields], by
      simp [parsedSourceHit, RawSource.GetBytes, Document.GetBytes, pathKeys, splitDots,
        Document.get, List.lookup, Result.Exists, Document.toResult]⟩
  have hlt : hitLess RawSource.GetBytes emptySourceHit parsedSourceHit = true :=
    lessByFields_missing_lt RawSource.GetBytes apmEventSortFields _ _ hmiss hex
  refine ⟨fun _ _ => ⟨rfl, rfl⟩, hlt, hitLess_asymm _ _ _ hlt, ?_⟩
  rw [SortHits_pair, if_pos hlt]

/-- C11, amended: extraction in the Canonical Sorter has no failure path. For
every lookup function, a hit in whose raw source the lookup finds no sort key
(as it does in a source that does not parse and yields nothing) gets an
ordinary verdict: it is `Less` than every hit in which some sort key is found,
and against a hit in which none is found the IDs decide. -/
theorem C11_extraction_no_failure (GetBytes : σ → String → Result) (a b : SearchHit σ)
    (ha : ∀ f ∈ apmEventSortFields, (GetBytes a.RawSource f).Exists = false) :
    ((∃ f ∈ apmEventSortFields, (GetBytes b.RawSource f).Exists = true) →
      hitLess GetBytes a b = true ∧ hitLess GetBytes b a = false) ∧
    ((∀ f ∈ apmEventSortFields, (GetBytes b.RawSource f).Exists = false) →
      (hitLess GetBytes a b = true ↔ a.ID < b.ID) ∧
      (hitLess GetBytes b a = true ↔ b.ID < a.ID)) := by
  constructor
  · intro hb
    have h := lessByFields_missing_lt GetBytes apmEventSortFields a b ha hb
    exact ⟨h, hitLess_asymm GetBytes a b h⟩
  · intro hb
    have hab : ∀ f ∈ apmEventSortFields,
        (GetBytes a.RawSource f).Less (GetBytes b.RawSource f) true = false ∧
        (GetBytes b.RawSource f).Less (GetBytes a.RawSource f) true = false :=
      fun f hf => ⟨Result.not_less_of_not_exists _ _ (hb f hf),
        Result.not_less_of_not_exists _ _ (ha f hf)⟩
    constructor
    · unfold hitLess
      rw [lessByFields_of_ties GetBytes _ a b hab, decide_eq_true_eq]
    · unfold hitLess
      rw [lessByFields_of_ties GetBytes _ b a (fun f hf => ⟨(hab f hf).2, (hab f hf).1⟩),
        decide_eq_true_eq]

/-- C11, amended, at the hit with the empty source and the hit with `trace.id`. -/
theorem C11_extraction_no_failure_witness :
    (∀ f ∈ apmEventSortFields,
      (RawSource.GetBytes emptySourceHit.RawSource f).Exists = false) ∧
    (∃ f ∈ apmEventSortFields,
      (RawSource.GetBytes parsedSourceHit.RawSource f).Exists = true) ∧
    hitLess RawSource.GetBytes emptySourceHit parsedSourceHit = true ∧
    hitLess RawSource.GetBytes parsedSourceHit emptySourceHit = false :=
  have hmiss : ∀ f ∈ apmEventSortFields,
      (RawSource.GetBytes emptySourceHit.RawSource f).Exists = false := fun _ _ => rfl
  have hex : ∃ f ∈ apmEventSortFields,
      (RawSource.GetBytes parsedSourceHit.RawSource f).Exists = true :=
    ⟨"trace.id", by simp [apmEventSortFields], by
      simp [parsedSourceHit, RawSource.GetBytes, Document.GetBytes, pathKeys, splitDots,
        Document.get, List.lookup, Result.Exists, Document.toResult]⟩
  ⟨hmiss, hex,
    (C11_extraction_no_failure RawSource.GetBytes emptySourceHit parsedSourceHit hmiss).1 hex⟩

/-- C12: the code at the call without extra dynamic fields: `observer.id` is in
the dynamic field list handed on, `@timestamp`, which the doc comment names, is
not; for every call `@timestamp` is in the list exactly when the caller
supplies it. -/
theorem C12_timestamp_not_default (GetBytes : σ → String → Result) (name : String)
    (hits : List (SearchHit σ)) (extra : List String) :
    "observer.id" ∈ (ApproveEvents GetBytes name hits extra).dynamic ∧
    "@timestamp" ∉ (ApproveEvents GetBytes name hits []).dynamic ∧
    ("@timestamp" ∈ (ApproveEvents GetBytes name hits extra).dynamic ↔
      "@timestamp" ∈ extra) := by
  refine ⟨?_, ?_, ?_⟩
  · simp [ApproveEvents]
  · simp [ApproveEvents]
  · simp [ApproveEvents]

/-- C13: the comparator consults the 14 paths of `apmEventSortFields`, in the
order written: the list is this one; the verdict depends on the two hits only
through their values at these paths and their IDs; the first path, in this
order, at which the values differ under `Less` decides; the IDs play no part
when some path discriminates, and decide when none does. -/
theorem C13_default_key_priority (GetBytes : σ → String → Result) :
    apmEventSortFields =
      ["processor.event", "trace.id", "transaction.id", "span.id", "error.id",
        "transaction.name", "span.destination.service.resource", "transaction.type",
        "span.type", "service.name", "service.environment", "message",
        "metricset.interval", "@timestamp"] ∧
    apmEventSortFields.length = 14 ∧
    (∀ (G2 : σ → String → Result) (a b a2 b2 : SearchHit σ),
      a.ID = a2.ID → b.ID = b2.ID →
      (∀ f ∈ apmEventSortFields,
        GetBytes a.RawSource f = G2 a2.RawSource f ∧
        GetBytes b.RawSource f = G2 b2.RawSource f) →
      hitLess GetBytes a b = hitLess G2 a2 b2) ∧
    (∀ (a b : SearchHit σ) (i : Nat) (hi : i < apmEventSortFields.length),
      (∀ f ∈ apmEventSortFields.take i,
        (GetBytes a.RawSource f).Less (GetBytes b.RawSource f) true = false ∧
        (GetBytes b.RawSource f).Less (GetBytes a.RawSource f) true = false) →
      (GetBytes a.RawSource apmEventSortFields[i]).Less
        (GetBytes b.RawSource apmEventSortFields[i]) true = true →
      hitLess GetBytes a b = true ∧ hitLess GetBytes b a = false) ∧
    (∀ (a b : SearchHit σ) (ida idb : String),
      (∃ f ∈ apmEventSortFields,
        (GetBytes a.RawSource f).Less (GetBytes b.RawSource f) true = true ∨
        (GetBytes b.RawSource f).Less (GetBytes a.RawSource f) true = true) →
      hitLess GetBytes a b =
        hitLess GetBytes { ID := ida, RawSource := a.RawSource }
          { ID := idb, RawSource := b.RawSource }) ∧
    (∀ a b : SearchHit σ,
      (∀ f ∈ apmEventSortFields,
        (GetBytes a.RawSource f).Less (GetBytes b.RawSource f) true = false ∧
        (GetBytes b.RawSource f).Less (GetBytes a.RawSource f) true = false) →
      hitLess GetBytes a b = decide (a.ID < b.ID)) := by
  refine ⟨rfl, rfl, ?_, ?_, ?_, ?_⟩
  · intro G2 a b a2 b2 hida hidb h
    exact lessByFields_congr GetBytes G2 apmEventSortFields a b a2 b2 hida hidb h
  · intro a b i hi hpre hk
    have hsplit : apmEventSortFields =
        apmEventSortFields.take i ++ apmEventSortFields[i] :: apmEventSortFields.drop (i + 1) := by
      rw [← List.drop_eq_getElem_cons hi, List.take_append_drop]
    have hab : hitLess GetBytes a b = true := by
      unfold hitLess
      rw [hsplit, lessByFields_append_ties GetBytes _ _ a b hpre]
      exact lessByFields_cons_lt GetBytes _ _ a b hk
    exact ⟨hab, hitLess_asymm GetBytes a b hab⟩
  · intro a b ida idb h
    exact lessByFields_ids_unused GetBytes apmEventSortFields a b _ _ rfl rfl h
  · intro a b h
    exact lessByFields_of_ties GetBytes apmEventSortFields a b h

end approvaltest

/-!
## The reference name: `filepath.Join` and `filepath.Clean`
-/

namespace filepath

theorem length_dropWhile_element (c : Char) (rest : List Char)
    (hc : ¬ (c == '/') = true) :
    ((c :: rest).dropWhile (fun x => x != '/')).length ≤ rest.length := by
  have h1 : (c != '/') = true := by simpa using hc
  rw [List.dropWhile_cons, if_pos h1]
  exact (List.dropWhile_suffix _).length_le

/-- Fuel of at least the length of what is left to read is enough: more fuel
gives the same result. -/
theorem cleanLoop_fuel (rooted : Bool) :
    ∀ (fuel : Nat) (path out : List Char) (dotdot k : Nat), path.length ≤ fuel →
      cleanLoop rooted (fuel + k) path out dotdot = cleanLoop rooted fuel path out dotdot := by
  intro fuel
  induction fuel with
  | zero =>
    intro path out dotdot k h
    have hp : path = [] := List.length_eq_zero.mp (Nat.le_zero.mp h)
    subst hp
    cases k <;> simp [cleanLoop]
  | succ fuel ih =>
    intro path out dotdot k h
    rw [show fuel + 1 + k = (fuel + k) + 1 by omega]
    cases path with
    | nil => simp [cleanLoop]
    | cons c rest =>
      have hrest : rest.length ≤ fuel := by simpa using h
      have hdrop : (rest.drop 1).length ≤ fuel := by
        rw [List.length_drop]; omega
      have hdw : ¬ (c == '/') = true →
          ((c :: rest).dropWhile (fun x => x != '/')).length ≤ fuel :=
        fun hc => le_trans (length_dropWhile_element c rest hc) hrest
      simp only [cleanLoop]
      split_ifs <;>
        first
          | exact ih _ _ _ _ hrest
          | exact ih _ _ _ _ hdrop
          | exact ih _ _ _ _ (hdw (by assumption))

end filepath

namespace filepath

theorem takeWhile_no_separator (l : List Char) (hs : '/' ∉ l) :
    l.takeWhile (fun x => x != '/') = l ∧ l.dropWhile (fun x => x != '/') = [] := by
  induction l with
  | nil => exact ⟨rfl, rfl⟩
  | cons c cs ih =>
    have hc : (c != '/') = true := by
      simp only [bne_iff_ne, ne_eq]
      intro h
      exact hs (h ▸ List.mem_cons_self _ _)
    have ih2 := ih (fun h => hs (List.mem_cons_of_mem _ h))
    simp [List.takeWhile_cons, List.dropWhile_cons, hc, ih2.1, ih2.2]

/-- Cleaning `approvals/` followed by one plain element gives the same text. -/
theorem cleanLoop_approvals_plain (l : List Char) (hne : l ≠ []) (hs : '/' ∉ l)
    (h1 : l ≠ ['.']) (h2 : l ≠ ['.', '.']) (fuel : Nat) :
    cleanLoop false (fuel + 3) (['a', 'p', 'p', 'r', 'o', 'v', 'a', 'l', 's'] ++ '/' :: l) [] 0
      = ['a', 'p', 'p', 'r', 'o', 'v', 'a', 'l', 's'] ++ '/' :: l := by
  cases l with
  | nil => exact absurd rfl hne
  | cons c rest =>
    have hc : c ≠ '/' := fun h => hs (h ▸ List.mem_cons_self _ _)
    have hrest : '/' ∉ rest := fun h => hs (List.mem_cons_of_mem _ h)
    have htw := takeWhile_no_separator (c :: rest) hs
    have hdot1 : (c == '.' && endsElement rest) = false := by
      cases rest with
      | nil =>
        have : c ≠ '.' := fun h => h1 (by rw [h])
        simp [this]
      | cons d rest2 =>
        have hd : d ≠ '/' := fun h => hrest (h ▸ List.mem_cons_self _ _)
        simp [endsElement, hd]
    have hdot2 : (c == '.' && rest.head? == some '.' && endsElement (rest.drop 1)) = false := by
      cases rest with
      | nil => simp
      | cons d rest2 =>
        cases rest2 with
        | nil =>
          have : ¬ (c = '.' ∧ d = '.') := fun h => h2 (by rw [h.1, h.2])
          simp only [List.head?_cons, List.drop_one, List.tail_cons, endsElement, Bool.and_true,
            Bool.and_eq_false_imp, beq_iff_eq, beq_eq_false_iff_ne, ne_eq, Option.some.injEq]
          intro hc2 hd2
          exact this ⟨hc2, hd2⟩
        | cons e rest3 =>
          have he : e ≠ '/' := fun h =>
            hrest (h ▸ List.mem_cons_of_mem _ (List.mem_cons_self _ _))
          simp [endsElement, he]
    have hcb : (c == '/') = false := by simpa using hc
    have step1 : cleanLoop false (fuel + 3)
        (['a', 'p', 'p', 'r', 'o', 'v', 'a', 'l', 's'] ++ '/' :: c :: rest) [] 0 =
        cleanLoop false (fuel + 2) ('/' :: c :: rest)
          ['a', 'p', 'p', 'r', 'o', 'v', 'a', 'l', 's'] 0 := by
      simp [cleanLoop, endsElement, List.takeWhile, List.dropWhile]
    have step2 : cleanLoop false (fuel + 2) ('/' :: c :: rest)
          ['a', 'p', 'p', 'r', 'o', 'v', 'a', 'l', 's'] 0 =
        cleanLoop false (fuel + 1) (c :: rest)
          ['a', 'p', 'p', 'r', 'o', 'v', 'a', 'l', 's'] 0 := by
      simp [cleanLoop]
    have step3 : cleanLoop false (fuel + 1) (c :: rest)
          ['a', 'p', 'p', 'r', 'o', 'v', 'a', 'l', 's'] 0 =
        cleanLoop false fuel []
          (['a', 'p', 'p', 'r', 'o', 'v', 'a', 'l', 's'] ++ '/' :: c :: rest) 0 := by
      rw [cleanLoop]
      simp only [hcb, hdot1, hdot2, htw.1, htw.2]
      simp
    have step4 : cleanLoop false fuel []
          (['a', 'p', 'p', 'r', 'o', 'v', 'a', 'l', 's'] ++ '/' :: c :: rest) 0 =
        ['a', 'p', 'p', 'r', 'o', 'v', 'a', 'l', 's'] ++ '/' :: c :: rest := by
      cases fuel <;> simp [cleanLoop]
    rw [step1, step2, step3, step4]

end filepath

namespace filepath

theorem Join_approvals (name : String) :
    Join ["approvals", name] = Clean ("approvals" ++ "/" ++ name) := by
  have h : ("approvals" : String) ≠ "" := by decide
  simp only [Join, h, ne_eq, not_false_eq_true, if_true]
  rfl

theorem approvals_path_data (name : String) :
    ("approvals" ++ "/" ++ name).data =
      ['a', 'p', 'p', 'r', 'o', 'v', 'a', 'l', 's'] ++ '/' :: name.data := by
  simp [String.data_append]

/-- Cleaning of `approvals/name` reads the whole path: more fuel than the
length of the path changes nothing. -/
theorem Clean_approvals_eq (name : String) (k : Nat) :
    Clean ("approvals" ++ "/" ++ name) =
      (if (cleanLoop false (("approvals" ++ "/" ++ name).length + k)
            ("approvals" ++ "/" ++ name).data [] 0).length = 0 then "."
        else String.mk (cleanLoop false (("approvals" ++ "/" ++ name).length + k)
            ("approvals" ++ "/" ++ name).data [] 0)) := by
  have hne : ("approvals" ++ "/" ++ name) ≠ "" := by
    intro h
    have := congrArg String.data h
    rw [approvals_path_data] at this
    simp at this
  have hroot : (("approvals" ++ "/" ++ name).data.head? == some '/') = false := by
    rw [approvals_path_data]
    simp
  have hfuel := cleanLoop_fuel false ("approvals" ++ "/" ++ name).length
    ("approvals" ++ "/" ++ name).data [] 0 k (Nat.le_of_eq rfl)
  rw [hfuel]
  simp only [Clean, hne, if_false, hroot, Bool.false_eq_true]

theorem Clean_approvals_plain (name : String) (hne : name.data ≠ [])
    (hs : '/' ∉ name.data) (h1 : name ≠ ".") (h2 : name ≠ "..") :
    Clean ("approvals" ++ "/" ++ name) = "approvals" ++ "/" ++ name := by
  have hl1 : name.data ≠ ['.'] := fun h => h1 (String.ext h)
  have hl2 : name.data ≠ ['.', '.'] := fun h => h2 (String.ext h)
  have hlen : ("approvals" ++ "/" ++ name).length = (name.length + 7) + 3 := by
    have h9 : ("approvals" : String).length = 9 := by decide
    have h1 : ("/" : String).length = 1 := by decide
    rw [String.length_append, String.length_append, h9, h1]
    omega
  have hloop : cleanLoop false ("approvals" ++ "/" ++ name).length
      ("approvals" ++ "/" ++ name).data [] 0 = ("approvals" ++ "/" ++ name).data := by
    rw [hlen, approvals_path_data]
    exact cleanLoop_approvals_plain name.data hne hs hl1 hl2 _
  have h := Clean_approvals_eq name 0
  rw [Nat.add_zero, hloop] at h
  rw [h]
  have hpos : ¬ ("approvals" ++ "/" ++ name).data.length = 0 := by
    rw [approvals_path_data]
    simp
  rw [if_neg hpos]

end filepath


/-!
## `Clean` against its specification
-/

namespace filepath

theorem splitPath_append (e r : List Char) (he : '/' ∉ e) (hr : endsElement r = true) :
    splitPath (e ++ r) = e :: (splitPath r).tail := by
  induction e with
  | nil =>
    cases r with
    | nil => rfl
    | cons c r2 =>
      have hc : c = '/' := by simpa [endsElement] using hr
      subst hc
      simp [splitPath]
  | cons c e2 ih =>
    have hc : c ≠ '/' := fun h => he (h ▸ List.mem_cons_self _ _)
    have ih2 := ih (fun h => he (List.mem_cons_of_mem _ h))
    rw [List.cons_append, splitPath, if_neg hc, ih2]

theorem cleanElements_skip (kept : List (List Char)) (r : List Char)
    (hr : endsElement r = true) :
    cleanElements kept (splitPath r) = cleanElements kept (splitPath r).tail := by
  cases r with
  | nil => rfl
  | cons c r2 =>
    have hc : c = '/' := by simpa [endsElement] using hr
    subst hc
    simp [splitPath, cleanElements]

/-- Cleaning the elements of an element followed by the rest of the path. -/
theorem cleanElements_element (kept kept2 : List (List Char)) (e r : List Char)
    (he : '/' ∉ e) (hr : endsElement r = true)
    (hstep : ∀ es, cleanElements kept (e :: es) = cleanElements kept2 es) :
    cleanElements kept (splitPath (e ++ r)) = cleanElements kept2 (splitPath r) := by
  rw [splitPath_append e r he hr, hstep, ← cleanElements_skip kept2 r hr]

theorem joinPath_append_singleton (xs : List (List Char)) (e : List Char) :
    joinPath (xs ++ [e]) = if xs = [] then e else joinPath xs ++ '/' :: e := by
  induction xs with
  | nil => rfl
  | cons x xs ih =>
    rw [if_neg (List.cons_ne_nil _ _)]
    cases xs with
    | nil => rfl
    | cons y ys =>
      rw [if_neg (List.cons_ne_nil _ _)] at ih
      show x ++ '/' :: joinPath ((y :: ys) ++ [e]) = (x ++ '/' :: joinPath (y :: ys)) ++ '/' :: e
      rw [ih]
      simp

theorem joinPath_length_pos (xs : List (List Char)) (hx : ∀ x ∈ xs, x ≠ []) (hne : xs ≠ []) :
    0 < (joinPath xs).length := by
  cases xs with
  | nil => exact absurd rfl hne
  | cons x xs =>
    have h1 : 0 < x.length := List.length_pos.mpr (hx x (List.mem_cons_self _ _))
    cases xs with
    | nil => exact h1
    | cons y ys =>
      show 0 < (x ++ '/' :: joinPath (y :: ys)).length
      rw [List.length_append]
      omega

theorem joinPath_length_append (xs : List (List Char)) :
    ∀ ys : List (List Char), (∀ y ∈ ys, y ≠ []) →
      (joinPath xs).length ≤ (joinPath (xs ++ ys)).length ∧
      (ys ≠ [] → (joinPath xs).length < (joinPath (xs ++ ys)).length ∨ xs = []) := by
  intro ys
  induction ys using List.reverseRecOn with
  | nil =>
    intro _
    rw [List.append_nil]
    exact ⟨le_refl _, fun h => absurd rfl h⟩
  | append_singleton ys e ih =>
    intro hy
    have ih2 := (ih (fun y h => hy y (List.mem_append_left _ h))).1
    rw [← List.append_assoc, joinPath_append_singleton]
    split_ifs with h
    · have hx : xs = [] := (List.append_eq_nil.mp h).1
      subst hx
      exact ⟨Nat.zero_le _, fun _ => Or.inr rfl⟩
    · rw [List.length_append, List.length_cons]
      exact ⟨by omega, fun _ => Or.inl (by omega)⟩

/-- The backtracking over the last element of what is written stops at the
separator before it. -/
theorem backtrack_element (P e : List Char) (dotdot : Nat) (he : '/' ∉ e)
    (hd : dotdot ≤ P.length) (hP : 0 < P.length) :
    ∀ n, n ≤ e.length → backtrack (P ++ '/' :: e) dotdot (P.length + n) = P.length := by
  intro n
  induction n with
  | zero =>
    intro _
    obtain ⟨w, hw⟩ : ∃ w, P.length = w + 1 := ⟨P.length - 1, by omega⟩
    rw [Nat.add_zero, hw, backtrack, ← hw]
    have : (P ++ '/' :: e)[P.length]? = some '/' := by
      rw [List.getElem?_append_right (le_refl _)]
      simp
    rw [this]
    simp
  | succ n ih =>
    intro hn
    rw [← Nat.add_assoc, backtrack]
    have h1 : (P ++ '/' :: e)[P.length + n + 1]? = e[n]? := by
      rw [List.getElem?_append_right (by omega)]
      rw [show P.length + n + 1 - P.length = n + 1 by omega]
      exact List.getElem?_cons_succ
    have h2 : (e[n]? != some '/') = true := by
      rw [List.getElem?_eq_getElem (by omega)]
      simp only [bne_iff_ne, ne_eq, Option.some.injEq]
      intro h
      exact he (h ▸ List.getElem_mem _)
    rw [h1, h2]
    have h3 : decide (P.length + n + 1 > dotdot) = true := decide_eq_true (by omega)
    rw [h3]
    exact ih (by omega)

/-- The backtracking over the only element written goes to the start. -/
theorem backtrack_first (e : List Char) (he : '/' ∉ e) : ∀ n, backtrack e 0 n = 0 := by
  intro n
  induction n with
  | zero => rfl
  | succ n ih =>
    rw [backtrack]
    have h2 : (e[n + 1]? != some '/') = true := by
      cases h : e[n + 1]? with
      | none => rfl
      | some c =>
        simp only [bne_iff_ne, ne_eq, Option.some.injEq]
        intro hc
        subst hc
        exact he (approvaltest.mem_of_get e (n + 1) '/' h)
    rw [h2]
    simpa using ih

end filepath

namespace filepath

theorem takeWhile_nil_endsElement (r : List Char)
    (h : r.takeWhile (fun x => x != '/') = []) : endsElement r = true := by
  cases r with
  | nil => rfl
  | cons d r2 =>
    by_cases hd : d = '/'
    · subst hd
      rfl
    · have : (d != '/') = true := by simpa using hd
      rw [List.takeWhile_cons, if_pos this] at h
      exact absurd h (List.cons_ne_nil _ _)

theorem endsElement_dropWhile (l : List Char) :
    endsElement (l.dropWhile (fun x => x != '/')) = true := by
  induction l with
  | nil => rfl
  | cons d l2 ih =>
    by_cases hd : d = '/'
    · subst hd
      rfl
    · have : (d != '/') = true := by simpa using hd
      rw [List.dropWhile_cons, if_pos this]
      exact ih

theorem not_mem_takeWhile (l : List Char) : '/' ∉ l.takeWhile (fun x => x != '/') := by
  intro h
  have := List.mem_takeWhile_imp h
  simp at this

theorem replicate_dotdot_ne_nil (D : Nat) :
    ∀ x ∈ List.replicate D ['.', '.'], x ≠ [] := by
  intro x hx
  rw [List.eq_of_mem_replicate hx]
  exact List.cons_ne_nil _ _

/-- The step of the specification at a `..` element. -/
theorem cleanElements_dotdot_keep (D : Nat) (es : List (List Char)) :
    cleanElements (List.replicate D ['.', '.']) (['.', '.'] :: es) =
      cleanElements (List.replicate (D + 1) ['.', '.']) es := by
  cases D with
  | zero => simp [cleanElements]
  | succ D => simp [cleanElements, List.replicate_succ]

theorem joinPath_dotdot_succ (D : Nat) :
    (if (joinPath (List.replicate D ['.', '.'])).length > 0 then
        joinPath (List.replicate D ['.', '.']) ++ ['/']
      else joinPath (List.replicate D ['.', '.'])) ++ ['.', '.'] =
      joinPath (List.replicate (D + 1) ['.', '.']) := by
  rw [List.replicate_succ', joinPath_append_singleton]
  cases D with
  | zero => simp [joinPath]
  | succ D =>
    have hne : List.replicate (D + 1) ['.', '.'] ≠ [] := by simp
    have hpos := joinPath_length_pos _ (replicate_dotdot_ne_nil (D + 1)) hne
    rw [if_pos hpos, if_neg hne]
    simp

/-- The loop of `Clean` on a path that is not rooted, against the specification:
with `kept` the elements written so far, the last one first, of which the first
`D` written are `..` elements, the loop returns the elements that the
specification keeps, joined. -/
theorem cleanLoop_spec :
    ∀ (fuel : Nat) (path : List Char) (D : Nat) (nr : List (List Char)),
      path.length ≤ fuel → (∀ e ∈ nr, e ≠ [] ∧ '/' ∉ e ∧ e ≠ ['.', '.']) →
      cleanLoop false fuel path (joinPath (nr ++ List.replicate D ['.', '.']).reverse)
          (joinPath (List.replicate D ['.', '.'])).length =
        joinPath (cleanElements (nr ++ List.replicate D ['.', '.']) (splitPath path)).reverse := by
  intro fuel
  induction fuel with
  | zero =>
    intro path D nr hf _
    have hp : path = [] := List.length_eq_zero.mp (Nat.le_zero.mp hf)
    subst hp
    simp [cleanLoop, splitPath, cleanElements]
  | succ fuel ih =>
    intro path D nr hf hnr
    cases path with
    | nil => simp [cleanLoop, splitPath, cleanElements]
    | cons c rest =>
      have hrest : rest.length ≤ fuel := by simpa using hf
      rw [cleanLoop]
      by_cases h1 : c = '/'
      · subst h1
        rw [if_pos (beq_self_eq_true _)]
        have e1 : cleanElements (nr ++ List.replicate D ['.', '.']) (splitPath ('/' :: rest)) =
            cleanElements (nr ++ List.replicate D ['.', '.']) (splitPath rest) := by
          simp [splitPath, cleanElements]
        rw [e1]
        exact ih rest D nr hrest hnr
      rw [if_neg (by simpa using h1)]
      by_cases h2 : (c == '.' && endsElement rest) = true
      · rw [if_pos h2]
        rw [Bool.and_eq_true, beq_iff_eq] at h2
        obtain ⟨hc, hr⟩ := h2
        subst hc
        have e1 := cleanElements_element (nr ++ List.replicate D ['.', '.'])
          (nr ++ List.replicate D ['.', '.']) ['.'] rest (by simp) hr
          (fun es => by simp [cleanElements])
        rw [show '.' :: rest = ['.'] ++ rest from rfl, e1]
        exact ih rest D nr hrest hnr
      rw [if_neg h2]
      by_cases h3 : (c == '.' && rest.head? == some '.' && endsElement (rest.drop 1)) = true
      · rw [if_pos h3]
        rw [Bool.and_eq_true, Bool.and_eq_true, beq_iff_eq, beq_iff_eq] at h3
        obtain ⟨⟨hc, hh⟩, hr⟩ := h3
        subst hc
        cases rest with
        | nil => simp at hh
        | cons d r2 =>
          have hd : d = '.' := by simpa using hh
          subst hd
          have hr2 : endsElement r2 = true := by simpa using hr
          have hlen : r2.length ≤ fuel := by
            have : (('.' : Char) :: r2).length ≤ fuel := hrest
            rw [List.length_cons] at this
            omega
          rw [show List.drop 1 ('.' :: r2) = r2 from rfl,
            show '.' :: '.' :: r2 = ['.', '.'] ++ r2 from rfl]
          cases nr with
          | nil =>
            rw [List.nil_append, List.reverse_replicate, if_neg (lt_irrefl _),
              if_pos (by rfl)]
            dsimp only
            rw [joinPath_dotdot_succ,
              cleanElements_element (List.replicate D ['.', '.'])
                (List.replicate (D + 1) ['.', '.']) ['.', '.'] r2 (by simp) hr2
                (cleanElements_dotdot_keep D)]
            have := ih r2 (D + 1) [] hlen (fun e he => absurd he (List.not_mem_nil _))
            rw [List.nil_append, List.reverse_replicate] at this
            exact this
          | cons top nr2 =>
            obtain ⟨t1, t2, t3⟩ := hnr top (List.mem_cons_self _ _)
            have hnr2 : ∀ e ∈ nr2, e ≠ [] ∧ '/' ∉ e ∧ e ≠ ['.', '.'] :=
              fun e he => hnr e (List.mem_cons_of_mem _ he)
            have e1 := cleanElements_element (top :: nr2 ++ List.replicate D ['.', '.'])
              (nr2 ++ List.replicate D ['.', '.']) ['.', '.'] r2 (by simp) hr2
              (fun es => by simp [cleanElements, t3])
            rw [e1, ← ih r2 D nr2 hlen hnr2]
            have hrev : (nr2 ++ List.replicate D ['.', '.']).reverse =
                List.replicate D ['.', '.'] ++ nr2.reverse := by
              rw [List.reverse_append, List.reverse_replicate]
            have hout : joinPath (top :: nr2 ++ List.replicate D ['.', '.']).reverse =
                if (nr2 ++ List.replicate D ['.', '.']).reverse = [] then top
                else joinPath (nr2 ++ List.replicate D ['.', '.']).reverse ++ '/' :: top := by
              rw [List.cons_append, List.reverse_cons, joinPath_append_singleton]
            have htop : 0 < top.length := List.length_pos.mpr t1
            have hmono := (joinPath_length_append (List.replicate D ['.', '.']) nr2.reverse
              (fun y hy => (hnr2 y (List.mem_reverse.mp hy)).1)).1
            rw [← hrev] at hmono
            rw [hout]
            by_cases hemp : (nr2 ++ List.replicate D ['.', '.']).reverse = []
            · obtain ⟨hn, hD⟩ := List.append_eq_nil.mp (List.reverse_eq_nil_iff.mp hemp)
              rw [if_pos hemp, hn, hD]
              rw [show (joinPath ([] : List (List Char))).length = 0 from rfl, if_pos htop,
                backtrack_first top t2, List.take_zero]
              rfl
            · rw [if_neg hemp]
              have hP := joinPath_length_pos (nr2 ++ List.replicate D ['.', '.']).reverse
                (by
                  intro x hx
                  rw [hrev] at hx
                  rcases List.mem_append.mp hx with h | h
                  · exact replicate_dotdot_ne_nil D x h
                  · exact (hnr2 x (List.mem_reverse.mp h)).1) hemp
              generalize joinPath (nr2 ++ List.replicate D ['.', '.']).reverse = P at hmono hP ⊢
              generalize (joinPath (List.replicate D ['.', '.'])).length = dotdot at hmono ⊢
              have hl : (P ++ '/' :: top).length = P.length + top.length + 1 := by
                rw [List.length_append, List.length_cons]
                omega
              rw [if_pos (by rw [hl]; omega), hl,
                show P.length + top.length + 1 - 1 = P.length + top.length by omega,
                backtrack_element P top dotdot t2 hmono hP top.length (le_refl _),
                List.take_left]
      rw [if_neg h3]
      dsimp only
      have hcb : (c != '/') = true := by simpa using h1
      have hsplit : c :: rest = (c :: rest).takeWhile (fun x => x != '/') ++
          (c :: rest).dropWhile (fun x => x != '/') :=
        (List.takeWhile_append_dropWhile _ _).symm
      have he0 : (c :: rest).takeWhile (fun x => x != '/') =
          c :: rest.takeWhile (fun x => x != '/') := by
        rw [List.takeWhile_cons, if_pos hcb]
      have he1 : (c :: rest).takeWhile (fun x => x != '/') ≠ [] := by
        rw [he0]
        exact List.cons_ne_nil _ _
      have he2 : (c :: rest).takeWhile (fun x => x != '/') ≠ ['.'] := by
        rw [he0]
        intro h
        have hc : c = '.' := (List.cons.inj h).1
        have ht := (List.cons.inj h).2
        apply h2
        rw [Bool.and_eq_true, beq_iff_eq]
        exact ⟨hc, takeWhile_nil_endsElement rest ht⟩
      have he3 : (c :: rest).takeWhile (fun x => x != '/') ≠ ['.', '.'] := by
        rw [he0]
        intro h
        have hc : c = '.' := (List.cons.inj h).1
        have ht := (List.cons.inj h).2
        apply h3
        cases rest with
        | nil => exact absurd ht (by simp)
        | cons d r2 =>
          by_cases hd : (d != '/') = true
          · rw [List.takeWhile_cons, if_pos hd] at ht
            have hd2 : d = '.' := (List.cons.inj ht).1
            have ht2 := (List.cons.inj ht).2
            rw [Bool.and_eq_true, Bool.and_eq_true, beq_iff_eq, beq_iff_eq]
            exact ⟨⟨hc, by rw [hd2]; rfl⟩, takeWhile_nil_endsElement r2 ht2⟩
          · rw [List.takeWhile_cons, if_neg hd] at ht
            exact absurd ht (by simp)
      have hfuel : ((c :: rest).dropWhile (fun x => x != '/')).length ≤ fuel :=
        le_trans (length_dropWhile_element c rest (by simpa using h1)) hrest
      have e1 := cleanElements_element (nr ++ List.replicate D ['.', '.'])
        ((c :: rest).takeWhile (fun x => x != '/') :: nr ++ List.replicate D ['.', '.'])
        ((c :: rest).takeWhile (fun x => x != '/'))
        ((c :: rest).dropWhile (fun x => x != '/')) (not_mem_takeWhile _)
        (endsElement_dropWhile _) (fun es => by simp [cleanElements, he1, he2, he3])
      rw [← hsplit] at e1
      rw [e1]
      have hih := ih ((c :: rest).dropWhile (fun x => x != '/')) D
        ((c :: rest).takeWhile (fun x => x != '/') :: nr) hfuel
        (by
          intro e he
          rcases List.mem_cons.mp he with h | h
          · rw [h]
            exact ⟨he1, not_mem_takeWhile _, he3⟩
          · exact hnr e h)
      rw [← hih]
      congr 1
      rw [List.cons_append, List.reverse_cons, joinPath_append_singleton]
      by_cases hemp : (nr ++ List.replicate D ['.', '.']).reverse = []
      · rw [if_pos hemp, hemp]
        rfl
      · rw [if_neg hemp]
        have hP := joinPath_length_pos (nr ++ List.replicate D ['.', '.']).reverse
          (by
            intro x hx
            rcases List.mem_append.mp (List.mem_reverse.mp hx) with h | h
            · exact (hnr x h).1
            · exact replicate_dotdot_ne_nil D x h) hemp
        generalize joinPath (nr ++ List.replicate D ['.', '.']).reverse = P at hP ⊢
        have hne : P ≠ [] := List.length_pos.mp hP
        have : (false && P.length != 1 || !false && P.length != 0) = true := by
          simp [hne]
        rw [if_pos this]
        simp

/-- The function `Clean` meets its specification on every path that is not
rooted. -/
theorem Clean_eq_CleanSpec (path : String) (h : path.data.head? ≠ some '/') :
    Clean path = CleanSpec path := by
  unfold Clean CleanSpec
  by_cases hp : path = ""
  · subst hp
    rfl
  · rw [if_neg hp]
    have hr : (path.data.head? == some '/') = false := by simpa using h
    have hs := cleanLoop_spec path.length path.data 0 [] (le_refl _)
      (fun e he => absurd he (List.not_mem_nil _))
    rw [List.nil_append, List.replicate_zero] at hs
    have hs2 : cleanLoop false path.length path.data [] 0 =
        joinPath (cleanElements [] (splitPath path.data)).reverse := hs
    dsimp only
    rw [hr]
    simp only [Bool.false_eq_true, if_false]
    rw [hs2]
    by_cases hz : joinPath (cleanElements [] (splitPath path.data)).reverse = []
    · rw [hz]
      rfl
    · rw [if_neg hz, if_neg (by rw [List.length_eq_zero]; exact hz)]

end filepath

namespace filepath

/-- The specification at `approvals/name`: the elements of `name` are cleaned
after the element `approvals`. -/
theorem CleanSpec_approvals (name : String) :
    CleanSpec ("approvals" ++ "/" ++ name) =
      if joinPath (cleanElements ["approvals".data] (splitPath name.data)).reverse = [] then "."
      else String.mk (joinPath (cleanElements ["approvals".data] (splitPath name.data)).reverse)
    := by
  have h1 : splitPath ("approvals" ++ "/" ++ name).data =
      "approvals".data :: splitPath name.data := by
    rw [approvals_path_data]
    rw [splitPath_append _ ('/' :: name.data) (by decide) rfl]
    simp [splitPath]
  have h2 : cleanElements [] ("approvals".data :: splitPath name.data) =
      cleanElements ["approvals".data] (splitPath name.data) := by
    rw [cleanElements, if_neg (by decide), if_neg (by decide)]
  unfold CleanSpec
  dsimp only
  rw [h1, h2]

end filepath

namespace approvaltest

open gjson

variable {σ : Type}

/-- C14: for every name, the reference name `ApproveEvents` hands on is
`filepath.Join("approvals", name)`, which is `filepath.Clean` of the text
`approvals`, a separator and `name`, whose loop reads the whole path. The
cleaned path is the one the rules of path cleaning give: the element
`approvals` followed by the elements of `name`, without the empty and the `.`
elements, each `..` element removed together with the element before it (or
kept when it has nothing or a `..` before it), joined with separators, and `.`
when nothing is left. For a name that is one plain path element the cleaning
changes nothing and the reference is `approvals/name`. -/
theorem C14_reference_location (GetBytes : σ → String → Result) (name : String)
    (hits : List (SearchHit σ)) (dynamic : List String) :
    (ApproveEvents GetBytes name hits dynamic).name = filepath.Join ["approvals", name] ∧
    (ApproveEvents GetBytes name hits dynamic).name =
      filepath.Clean ("approvals" ++ "/" ++ name) ∧
    (ApproveEvents GetBytes name hits dynamic).name =
      filepath.CleanSpec ("approvals" ++ "/" ++ name) ∧
    (ApproveEvents GetBytes name hits dynamic).name =
      (if filepath.joinPath (filepath.cleanElements ["approvals".data]
          (filepath.splitPath name.data)).reverse = [] then "."
        else String.mk (filepath.joinPath (filepath.cleanElements ["approvals".data]
          (filepath.splitPath name.data)).reverse)) ∧
    (∀ k : Nat, filepath.Clean ("approvals" ++ "/" ++ name) =
      (if (filepath.cleanLoop false (("approvals" ++ "/" ++ name).length + k)
            ("approvals" ++ "/" ++ name).data [] 0).length = 0 then "."
        else String.mk (filepath.cleanLoop false (("approvals" ++ "/" ++ name).length + k)
            ("approvals" ++ "/" ++ name).data [] 0))) ∧
    (name.data ≠ [] → '/' ∉ name.data → name ≠ "." → name ≠ ".." →
      (ApproveEvents GetBytes name hits dynamic).name = "approvals" ++ "/" ++ name) := by
  have h1 : (ApproveEvents GetBytes name hits dynamic).name =
      filepath.Join ["approvals", name] := rfl
  have h2 : (ApproveEvents GetBytes name hits dynamic).name =
      filepath.Clean ("approvals" ++ "/" ++ name) := by
    rw [h1, filepath.Join_approvals]
  have hroot : ("approvals" ++ "/" ++ name).data.head? ≠ some '/' := by
    rw [filepath.approvals_path_data]
    simp
  have h3 : (ApproveEvents GetBytes name hits dynamic).name =
      filepath.CleanSpec ("approvals" ++ "/" ++ name) := by
    rw [h2, filepath.Clean_eq_CleanSpec _ hroot]
  refine ⟨h1, h2, h3, ?_, filepath.Clean_approvals_eq name, ?_⟩
  · rw [h3, filepath.CleanSpec_approvals]
  · intro hne hs hd hdd
    rw [h2, filepath.Clean_approvals_plain name hne hs hd hdd]

end approvaltest

namespace approvaltest

/-- C14 at the name `TestEvents`, a plain element: the reference is
`approvals/TestEvents`; and at names that the cleaning changes: `x/../TestEvents/.`
gives `approvals/TestEvents`, `a//b` gives `approvals/a/b`, `..` gives `.`, and
`../..` gives `..`. -/
theorem C14_reference_location_witness :
    (ApproveEvents Document.GetBytes "TestEvents" [] []).name = "approvals/TestEvents" ∧
    (ApproveEvents Document.GetBytes "x/../TestEvents/." [] []).name = "approvals/TestEvents" ∧
    (ApproveEvents Document.GetBytes "a//b" [] []).name = "approvals/a/b" ∧
    (ApproveEvents Document.GetBytes ".." [] []).name = "." ∧
    (ApproveEvents Document.GetBytes "../.." [] []).name = ".." :=
  ⟨(C14_reference_location Document.GetBytes "TestEvents" [] []).2.2.2.2.2
      (by decide) (by decide) (by decide) (by decide),
    (C14_reference_location Document.GetBytes "x/../TestEvents/." [] []).2.2.2.1.trans
      (by decide),
    (C14_reference_location Document.GetBytes "a//b" [] []).2.2.2.1.trans (by decide),
    (C14_reference_location Document.GetBytes ".." [] []).2.2.2.1.trans (by decide),
    (C14_reference_location Document.GetBytes "../.." [] []).2.2.2.1.trans (by decide)⟩

end approvaltest
/-!
## The sorted batch: what is handed on, permutation, order, strict weak order
-/

namespace approvaltest

open gjson

variable {σ : Type}

/-- Two hits are unordered exactly when their IDs are equal and no field of the
list discriminates them. -/
theorem lessByFields_unordered_iff (GetBytes : σ → String → Result) (fields : List String)
    (a b : SearchHit σ) :
    (lessByFields GetBytes fields a b = false ∧ lessByFields GetBytes fields b a = false) ↔
      (a.ID = b.ID ∧ ∀ f ∈ fields,
        (GetBytes a.RawSource f).Less (GetBytes b.RawSource f) true = false ∧
        (GetBytes b.RawSource f).Less (GetBytes a.RawSource f) true = false) := by
  induction fields with
  | nil =>
    simp only [lessByFields, decide_eq_false_iff_not, not_lt, List.not_mem_nil, false_imp_iff,
      implies_true, and_true]
    constructor
    · rintro ⟨h1, h2⟩
      exact le_antisymm h2 h1
    · intro h
      exact ⟨le_of_eq h.symm, le_of_eq h⟩
  | cons f rest ih =>
    cases hab : (GetBytes a.RawSource f).Less (GetBytes b.RawSource f) true
    · cases hba : (GetBytes b.RawSource f).Less (GetBytes a.RawSource f) true
      · rw [lessByFields_cons_tie _ _ _ _ _ hab hba, lessByFields_cons_tie _ _ _ _ _ hba hab, ih]
        constructor
        · rintro ⟨hid, h⟩
          refine ⟨hid, ?_⟩
          intro g hg
          rcases List.mem_cons.mp hg with e | e
          · subst e
            exact ⟨hab, hba⟩
          · exact h g e
        · rintro ⟨hid, h⟩
          exact ⟨hid, fun g hg => h g (List.mem_cons_of_mem _ hg)⟩
      · rw [lessByFields_cons_lt _ _ _ _ _ hba]
        constructor
        · rintro ⟨_, h⟩
          exact absurd h Bool.noConfusion
        · rintro ⟨_, h⟩
          have := (h f (List.mem_cons_self _ _)).2
          rw [hba] at this
          exact absurd this Bool.noConfusion
    · rw [lessByFields_cons_lt _ _ _ _ _ hab]
      constructor
      · rintro ⟨h, _⟩
        exact absurd h Bool.noConfusion
      · rintro ⟨_, h⟩
        have := (h f (List.mem_cons_self _ _)).1
        rw [hab] at this
        exact absurd this Bool.noConfusion

end approvaltest

namespace approvaltest

open gjson

variable {σ : Type}

/-- Being tied at a sort key carries over a middle value that is not a NaN
number. -/
theorem Result.tie_trans (t u v : Result) (hu : ¬ u.IsNaN)
    (h1 : t.Less u true = false ∧ u.Less t true = false)
    (h2 : u.Less v true = false ∧ v.Less u true = false) :
    t.Less v true = false ∧ v.Less t true = false :=
  ⟨Result.less_negtrans t u v hu h1.1 h2.1, Result.less_negtrans v u t hu h2.2 h1.2⟩

/-- The verdicts of `Less` among the hits `1`, `NaN` and `2` that share the ID
`d`. -/
theorem hitLess_nan_same_id :
    hitLess Document.GetBytes hit1d hitNaNd = false ∧
    hitLess Document.GetBytes hitNaNd hit1d = false ∧
    hitLess Document.GetBytes hitNaNd hit2d = false ∧
    hitLess Document.GetBytes hit2d hitNaNd = false ∧
    hitLess Document.GetBytes hit1d hit2d = true := by
  have n12 : ((1 : ℚ) : WithBot (WithTop ℚ)) < ((2 : ℚ) : WithBot (WithTop ℚ)) := by
    norm_cast
  refine ⟨?_, ?_, ?_, ?_, ?_⟩ <;>
    simp [hit1d, hitNaNd, hit2d, hitLess_messageHit, Float64.lt, n12]

/-- C15: the sources `ApproveEvents` hands on are as many as the hits, and the
`i`-th of them is the `RawSource` of the `i`-th hit of the sorted batch. The
sorted batch is what `sort.Sort` makes of the hits: a permutation of them, and,
when no sort key of a hit holds a NaN number, in order, so that of two sources
handed on the later one never belongs to a hit that is `Less` than the hit of
the earlier one. -/
theorem C15_order_carried (GetBytes : σ → String → Result) (name : String)
    (hits : List (SearchHit σ)) (dynamic : List String) :
    (ApproveEvents GetBytes name hits dynamic).eventDocs.length = hits.length ∧
    (sort.SortHits GetBytes hits).length = hits.length ∧
    (∀ i : Nat, i < hits.length →
      ∃ hit : SearchHit σ, (sort.SortHits GetBytes hits)[i]? = some hit ∧
        (ApproveEvents GetBytes name hits dynamic).eventDocs[i]? = some hit.RawSource) ∧
    (sort.SortHits GetBytes hits).Perm hits ∧
    ((∀ x ∈ hits, NoNaN GetBytes x) → ∀ i j : Nat, i < j → j < hits.length →
      ∃ hi hj : SearchHit σ, (sort.SortHits GetBytes hits)[i]? = some hi ∧
        (sort.SortHits GetBytes hits)[j]? = some hj ∧
        (ApproveEvents GetBytes name hits dynamic).eventDocs[i]? = some hi.RawSource ∧
        (ApproveEvents GetBytes name hits dynamic).eventDocs[j]? = some hj.RawSource ∧
        hitLess GetBytes hj hi = false) := by
  have hlen : (sort.SortHits GetBytes hits).length = hits.length :=
    (sort.SortHits_perm GetBytes hits).length_eq
  have hdocs : (ApproveEvents GetBytes name hits dynamic).eventDocs =
      (sort.SortHits GetBytes hits).map (fun hit => hit.RawSource) := rfl
  have hget : ∀ i (hi : i < (sort.SortHits GetBytes hits).length),
      (ApproveEvents GetBytes name hits dynamic).eventDocs[i]? =
        some (sort.SortHits GetBytes hits)[i].RawSource := by
    intro i hi
    rw [hdocs, List.getElem?_map, List.getElem?_eq_getElem hi]
    rfl
  refine ⟨?_, hlen, ?_, sort.SortHits_perm GetBytes hits, ?_⟩
  · rw [hdocs, List.length_map, hlen]
  · intro i hi
    have hi2 : i < (sort.SortHits GetBytes hits).length := by rw [hlen]; exact hi
    exact ⟨(sort.SortHits GetBytes hits)[i], List.getElem?_eq_getElem hi2, hget i hi2⟩
  · intro hN i j hij hj
    have hj2 : j < (sort.SortHits GetBytes hits).length := by rw [hlen]; exact hj
    have hi2 : i < (sort.SortHits GetBytes hits).length := lt_trans hij hj2
    exact ⟨(sort.SortHits GetBytes hits)[i], (sort.SortHits GetBytes hits)[j],
      List.getElem?_eq_getElem hi2, List.getElem?_eq_getElem hj2, hget i hi2, hget j hj2,
      (List.pairwise_iff_getElem.mp (sort.SortHits_sorted GetBytes hits hN)) i j hi2 hj2 hij⟩

/-- C15 at the batch of Scenario A, submitted as `[scenarioA2, scenarioA1]`: the
sources handed on are those of `scenarioA1` and `scenarioA2`, in this order. -/
theorem C15_order_carried_witness :
    (∀ x ∈ [scenarioA2, scenarioA1], NoNaN Document.GetBytes x) ∧
    (ApproveEvents Document.GetBytes "TestEvents" [scenarioA2, scenarioA1] []).eventDocs =
      [scenarioA1.RawSource, scenarioA2.RawSource] ∧
    (∃ hi hj : SearchHit Document,
      (sort.SortHits Document.GetBytes [scenarioA2, scenarioA1])[0]? = some hi ∧
      (sort.SortHits Document.GetBytes [scenarioA2, scenarioA1])[1]? = some hj ∧
      (ApproveEvents Document.GetBytes "TestEvents" [scenarioA2, scenarioA1] []).eventDocs[0]?
        = some hi.RawSource ∧
      (ApproveEvents Document.GetBytes "TestEvents" [scenarioA2, scenarioA1] []).eventDocs[1]?
        = some hj.RawSource ∧
      hitLess Document.GetBytes hj hi = false) :=
  have hN : ∀ x ∈ [scenarioA2, scenarioA1], NoNaN Document.GetBytes x := by
    intro x hx
    simp only [List.mem_cons, List.mem_singleton, List.not_mem_nil, or_false] at hx
    rcases hx with rfl | rfl
    · exact scenarioA_noNaN.2
    · exact scenarioA_noNaN.1
  have hlt : hitLess Document.GetBytes scenarioA1 scenarioA2 = true := by
    simp [hitLess, apmEventSortFields, lessByFields, scenarioA1, scenarioA2,
      Document.GetBytes, pathKeys, splitDots, Document.get, List.lookup, Result.Less,
      Document.toResult, String.lt_iff_toList_lt]
    exact Or.inl (by decide)
  have hs : sort.SortHits Document.GetBytes [scenarioA2, scenarioA1] =
      [scenarioA1, scenarioA2] := by
    rw [SortHits_pair, if_pos hlt]
  have hd : (ApproveEvents Document.GetBytes "TestEvents" [scenarioA2, scenarioA1]
      []).eventDocs = [scenarioA1.RawSource, scenarioA2.RawSource] := by
    show (sort.SortHits Document.GetBytes [scenarioA2, scenarioA1]).map
      (fun hit => hit.RawSource) = _
    rw [hs]
    rfl
  ⟨hN, hd,
    (C15_order_carried Document.GetBytes "TestEvents" [scenarioA2, scenarioA1] []).2.2.2.2
      hN 0 1 (by decide) (by decide)⟩

/-- C16, as stated, fails: a NaN number at a sort key is unordered against
every number. The hits `2` (ID `a`), `NaN` (ID `b`) and `1` (ID `c`) have
pairwise distinct IDs, and two permutations of their batch are each left as
they are submitted. -/
theorem C16_determinism_distinct_ids_counterexample :
    ([hit2a, hitNaNb, hit1c].map (fun h => h.ID)).Nodup ∧
    [hit2a, hitNaNb, hit1c].Perm [hit2a, hitNaNb, hit1c] ∧
    [hitNaNb, hit1c, hit2a].Perm [hit2a, hitNaNb, hit1c] ∧
    sort.SortHits Document.GetBytes [hit2a, hitNaNb, hit1c] = [hit2a, hitNaNb, hit1c] ∧
    sort.SortHits Document.GetBytes [hitNaNb, hit1c, hit2a] = [hitNaNb, hit1c, hit2a] ∧
    sort.SortHits Document.GetBytes [hit2a, hitNaNb, hit1c] ≠
      sort.SortHits Document.GetBytes [hitNaNb, hit1c, hit2a] := by
  obtain ⟨_, _, _, c4, c5, c6⟩ := hitLess_nan_cycle
  have h3 := SortHits_triple_fixed Document.GetBytes hit2a hitNaNb hit1c c4 c5
  have h4 := SortHits_triple_fixed Document.GetBytes hitNaNb hit1c hit2a c5 c6
  refine ⟨?_, List.Perm.refl _, ?_, h3, h4, ?_⟩
  · simp [hit2a, hitNaNb, hit1c, messageHit]
  · exact @List.perm_append_comm _ [hitNaNb, hit1c] [hit2a]
  · rw [h3, h4]
    simp [hit2a, hitNaNb, hit1c, messageHit]

/-- C16, amended: for a batch with pairwise distinct IDs in which no sort key of
a hit holds a NaN number, sorting any two permutations of it yields the same
sequence. Distinct IDs are needed: two hits with equal IDs that no sort key
discriminates are left unordered by `Less`, whatever else their sources
hold. -/
theorem C16_determinism_distinct_ids (GetBytes : σ → String → Result)
    (B P Q : List (SearchHit σ)) (hids : (B.map (fun h => h.ID)).Nodup)
    (hN : ∀ x ∈ B, NoNaN GetBytes x) (hP : P.Perm B) (hQ : Q.Perm B) :
    sort.SortHits GetBytes P = sort.SortHits GetBytes Q ∧
    (∀ a b : SearchHit σ, a.ID = b.ID →
      (∀ f ∈ apmEventSortFields,
        (GetBytes a.RawSource f).Less (GetBytes b.RawSource f) true = false ∧
        (GetBytes b.RawSource f).Less (GetBytes a.RawSource f) true = false) →
      hitLess GetBytes a b = false ∧ hitLess GetBytes b a = false) := by
  constructor
  · have hpP : (sort.SortHits GetBytes P).Perm B := (sort.SortHits_perm GetBytes P).trans hP
    have hpQ : (sort.SortHits GetBytes Q).Perm B := (sort.SortHits_perm GetBytes Q).trans hQ
    apply sort.sorted_perm_unique GetBytes _ _ _ (hpP.trans hpQ.symm)
      (sort.SortHits_sorted GetBytes P (fun x hx => hN x (hP.subset hx)))
      (sort.SortHits_sorted GetBytes Q (fun x hx => hN x (hQ.subset hx)))
    intro a ha b hb h1 h2
    have haB : a ∈ B := hpP.subset ha
    have hbB : b ∈ B := hpP.subset hb
    have hid : a.ID = b.ID := by
      by_contra hne
      rcases hitLess_total GetBytes a b hne with h | h
      · rw [h] at h1; exact Bool.noConfusion h1
      · rw [h] at h2; exact Bool.noConfusion h2
    exact List.inj_on_of_nodup_map hids haB hbB hid
  · intro a b hid hties
    exact (lessByFields_unordered_iff GetBytes apmEventSortFields a b).mpr ⟨hid, hties⟩

/-- C16, amended, at the batch of Scenario A, whose IDs differ, and at the two
hits with the same ID, which `Less` leaves unordered although they differ. -/
theorem C16_determinism_distinct_ids_witness :
    ([scenarioA1, scenarioA2].map (fun h => h.ID)).Nodup ∧
    (∀ x ∈ [scenarioA1, scenarioA2], NoNaN Document.GetBytes x) ∧
    sort.SortHits Document.GetBytes [scenarioA1, scenarioA2] =
      sort.SortHits Document.GetBytes [scenarioA2, scenarioA1] ∧
    sameID1.ID = sameID2.ID ∧ sameID1 ≠ sameID2 ∧
    hitLess Document.GetBytes sameID1 sameID2 = false ∧
    hitLess Document.GetBytes sameID2 sameID1 = false :=
  have hids : ([scenarioA1, scenarioA2].map (fun h => h.ID)).Nodup := by
    simp [scenarioA1, scenarioA2]
  have hN : ∀ x ∈ [scenarioA1, scenarioA2], NoNaN Document.GetBytes x := by
    intro x hx
    simp only [List.mem_cons, List.mem_singleton, List.not_mem_nil, or_false] at hx
    rcases hx with rfl | rfl
    · exact scenarioA_noNaN.1
    · exact scenarioA_noNaN.2
  have hties : ∀ f ∈ apmEventSortFields,
      (Document.GetBytes sameID1.RawSource f).Less
        (Document.GetBytes sameID2.RawSource f) true = false ∧
      (Document.GetBytes sameID2.RawSource f).Less
        (Document.GetBytes sameID1.RawSource f) true = false := by
    intro f hf
    simp only [apmEventSortFields, List.mem_cons, List.mem_singleton, List.not_mem_nil,
      or_false] at hf
    rcases hf with h | h | h | h | h | h | h | h | h | h | h | h | h | h <;> subst h <;>
      constructor <;>
      simp [sameID1, sameID2, Document.GetBytes, pathKeys, splitDots, Document.get,
        List.lookup, Result.Less]
  have h := C16_determinism_distinct_ids Document.GetBytes [scenarioA1, scenarioA2]
    [scenarioA1, scenarioA2] [scenarioA2, scenarioA1] hids hN (List.Perm.refl _)
    (List.Perm.swap _ _ _)
  ⟨hids, hN, h.1, rfl, by simp [sameID1, sameID2], h.2 sameID1 sameID2 rfl hties⟩

/-- C17: sorting only reorders. Whatever `Less` answers and however long the
batch is, the sorted batch is a permutation of the input, of the same length,
with the same hits, IDs and sources; `Swap(i, j)` keeps the length, exchanges
the hits at `i` and `j` and leaves every other position as it was. The sorted
batch is what the loop of `pdqsort` returns at its end: more rounds change
nothing. -/
theorem C17_sort_only_reorders (GetBytes : σ → String → Result) (B : List (SearchHit σ)) :
    (sort.SortHits GetBytes B).Perm B ∧
    (sort.SortHits GetBytes B).length = B.length ∧
    (∀ h : SearchHit σ, h ∈ sort.SortHits GetBytes B ↔ h ∈ B) ∧
    ((sort.SortHits GetBytes B).map (fun h => h.ID)).Perm (B.map (fun h => h.ID)) ∧
    ((sort.SortHits GetBytes B).map (fun h => h.RawSource)).Perm
      (B.map (fun h => h.RawSource)) ∧
    (∀ (i j : Nat), i < apmEventSearchHits.Len B → j < apmEventSearchHits.Len B →
      apmEventSearchHits.Len (apmEventSearchHits.Swap B i j) = apmEventSearchHits.Len B ∧
      (apmEventSearchHits.Swap B i j)[i]? = B[j]? ∧
      (apmEventSearchHits.Swap B i j)[j]? = B[i]? ∧
      (∀ k : Nat, k ≠ i → k ≠ j → (apmEventSearchHits.Swap B i j)[k]? = B[k]?)) ∧
    (1 < B.length → ∀ k : Nat,
      sort.pdqsortLoop GetBytes (B.length + 1 + k) B 0 B.length (sort.bitsLen B.length)
        true true = sort.SortHits GetBytes B) := by
  have hp := sort.SortHits_perm GetBytes B
  exact ⟨hp, hp.length_eq, fun h => hp.mem_iff, hp.map _, hp.map _,
    fun i j hi hj => Swap_getElem? B i j hi hj, fun h k => sort.SortHits_fuel GetBytes B h k⟩

/-- C17 at a batch of 14 hits, longer than the slices `insertionSort` is used
for, two of them with a NaN number at a sort key: the sorted batch is a
permutation of the batch, and the loop of `pdqsort` has come to its end. -/
theorem C17_sort_only_reorders_witness :
    1 < [hit2a, hitNaNb, hit1c, hit1d, hitNaNd, hit2d, sameID1, sameID2, sameID3,
      scenarioA1, scenarioA2, messageNumber, messageString, messageTrue].length ∧
    (sort.SortHits Document.GetBytes
      [hit2a, hitNaNb, hit1c, hit1d, hitNaNd, hit2d, sameID1, sameID2, sameID3,
        scenarioA1, scenarioA2, messageNumber, messageString, messageTrue]).Perm
      [hit2a, hitNaNb, hit1c, hit1d, hitNaNd, hit2d, sameID1, sameID2, sameID3,
        scenarioA1, scenarioA2, messageNumber, messageString, messageTrue] ∧
    sort.pdqsortLoop Document.GetBytes (14 + 1 + 0)
      [hit2a, hitNaNb, hit1c, hit1d, hitNaNd, hit2d, sameID1, sameID2, sameID3,
        scenarioA1, scenarioA2, messageNumber, messageString, messageTrue] 0 14
      (sort.bitsLen 14) true true =
      sort.SortHits Document.GetBytes
        [hit2a, hitNaNb, hit1c, hit1d, hitNaNd, hit2d, sameID1, sameID2, sameID3,
          scenarioA1, scenarioA2, messageNumber, messageString, messageTrue] :=
  ⟨by decide,
    (C17_sort_only_reorders Document.GetBytes
      [hit2a, hitNaNb, hit1c, hit1d, hitNaNd, hit2d, sameID1, sameID2, sameID3,
        scenarioA1, scenarioA2, messageNumber, messageString, messageTrue]).1,
    (C17_sort_only_reorders Document.GetBytes
      [hit2a, hitNaNb, hit1c, hit1d, hitNaNd, hit2d, sameID1, sameID2, sameID3,
        scenarioA1, scenarioA2, messageNumber, messageString, messageTrue]).2.2.2.2.2.2
      (by decide) 0⟩

/-- C18, as stated, fails: a NaN number at a sort key is unordered against
every number. The batch of the hits `2` (ID `a`), `NaN` (ID `b`) and `1`
(ID `c`) is left as it is by the sort, and its last hit is `Less` than its
first. -/
theorem C18_sorted_is_ordered_counterexample :
    sort.SortHits Document.GetBytes [hit2a, hitNaNb, hit1c] = [hit2a, hitNaNb, hit1c] ∧
    apmEventSearchHits.Less Document.GetBytes
      (sort.SortHits Document.GetBytes [hit2a, hitNaNb, hit1c]) 2 0 = true := by
  obtain ⟨_, _, c3, c4, c5, _⟩ := hitLess_nan_cycle
  have h3 := SortHits_triple_fixed Document.GetBytes hit2a hitNaNb hit1c c4 c5
  refine ⟨h3, ?_⟩
  rw [h3]
  exact c3

/-- C18, amended: when no sort key of a hit of the batch holds a NaN number, the
sorted batch is ordered: no hit of it is `Less` than a hit at an earlier
position. -/
theorem C18_sorted_is_ordered (GetBytes : σ → String → Result) (B : List (SearchHit σ))
    (hN : ∀ x ∈ B, NoNaN GetBytes x) :
    (sort.SortHits GetBytes B).Pairwise (fun x y => hitLess GetBytes y x = false) ∧
    (∀ i j : Nat, i < j → j < (sort.SortHits GetBytes B).length →
      apmEventSearchHits.Less GetBytes (sort.SortHits GetBytes B) j i = false) := by
  have hs := sort.SortHits_sorted GetBytes B hN
  refine ⟨hs, ?_⟩
  intro i j hij hj
  have hi : i < (sort.SortHits GetBytes B).length := lt_trans hij hj
  rw [Less_eq_hitLess GetBytes _ j i hj hi]
  exact (List.pairwise_iff_getElem.mp hs) i j hi hj hij

/-- C18, amended, at the three hits whose `message` is `true`, a string and a
number, submitted in this order. -/
theorem C18_sorted_is_ordered_witness :
    (∀ x ∈ [messageTrue, messageString, messageNumber], NoNaN Document.GetBytes x) ∧
    (sort.SortHits Document.GetBytes [messageTrue, messageString, messageNumber]).Pairwise
      (fun x y => hitLess Document.GetBytes y x = false) :=
  have hN : ∀ x ∈ [messageTrue, messageString, messageNumber], NoNaN Document.GetBytes x := by
    intro x hx
    simp only [List.mem_cons, List.mem_singleton, List.not_mem_nil, or_false] at hx
    rcases hx with rfl | rfl | rfl
    · exact message_noNaN.2.2
    · exact message_noNaN.2.1
    · exact message_noNaN.1
  ⟨hN, (C18_sorted_is_ordered Document.GetBytes [messageTrue, messageString, messageNumber]
    hN).1⟩

/-- C19, as stated, fails: a NaN number at a sort key is unordered against
every number. Of the hits `1`, `NaN` and `2` that share the ID `d`, the first
two are unordered and so are the last two, but the first is `Less` than the
last. -/
theorem C19_strict_weak_order_counterexample :
    hit1d.ID = hitNaNd.ID ∧ hitNaNd.ID = hit2d.ID ∧
    (hitLess Document.GetBytes hit1d hitNaNd = false ∧
      hitLess Document.GetBytes hitNaNd hit1d = false) ∧
    (hitLess Document.GetBytes hitNaNd hit2d = false ∧
      hitLess Document.GetBytes hit2d hitNaNd = false) ∧
    hitLess Document.GetBytes hit1d hit2d = true := by
  obtain ⟨c1, c2, c3, c4, c5⟩ := hitLess_nan_same_id
  exact ⟨rfl, rfl, ⟨c1, c2⟩, ⟨c3, c4⟩, c5⟩

/-- C19, amended: `Less` is a strict weak order where no NaN number stands in
the middle. If `a` and `b` are unordered (neither is `Less` than the other),
`b` and `c` are unordered, and no sort key of `b` holds a NaN number, then `a`
and `c` are unordered; and two hits are unordered exactly when their IDs are
equal and no sort key discriminates them. -/
theorem C19_strict_weak_order (GetBytes : σ → String → Result) (a b c : SearchHit σ)
    (hb : NoNaN GetBytes b)
    (hab : hitLess GetBytes a b = false ∧ hitLess GetBytes b a = false)
    (hbc : hitLess GetBytes b c = false ∧ hitLess GetBytes c b = false) :
    (hitLess GetBytes a c = false ∧ hitLess GetBytes c a = false) ∧
    (∀ x y : SearchHit σ,
      (hitLess GetBytes x y = false ∧ hitLess GetBytes y x = false) ↔
        (x.ID = y.ID ∧ ∀ f ∈ apmEventSortFields,
          (GetBytes x.RawSource f).Less (GetBytes y.RawSource f) true = false ∧
          (GetBytes y.RawSource f).Less (GetBytes x.RawSource f) true = false)) := by
  refine ⟨?_, fun x y => lessByFields_unordered_iff GetBytes apmEventSortFields x y⟩
  obtain ⟨i1, t1⟩ := (lessByFields_unordered_iff GetBytes apmEventSortFields a b).mp hab
  obtain ⟨i2, t2⟩ := (lessByFields_unordered_iff GetBytes apmEventSortFields b c).mp hbc
  exact (lessByFields_unordered_iff GetBytes apmEventSortFields a c).mpr
    ⟨i1.trans i2, fun f hf => Result.tie_trans _ _ _ (hb f hf) (t1 f hf) (t2 f hf)⟩

/-- C19, amended, at three different hits with the same ID and no sort key. -/
theorem C19_strict_weak_order_witness :
    NoNaN Document.GetBytes sameID2 ∧
    (hitLess Document.GetBytes sameID1 sameID2 = false ∧
      hitLess Document.GetBytes sameID2 sameID1 = false) ∧
    (hitLess Document.GetBytes sameID2 sameID3 = false ∧
      hitLess Document.GetBytes sameID3 sameID2 = false) ∧
    (hitLess Document.GetBytes sameID1 sameID3 = false ∧
      hitLess Document.GetBytes sameID3 sameID1 = false) :=
  have h23 : hitLess Document.GetBytes sameID2 sameID3 = false ∧
      hitLess Document.GetBytes sameID3 sameID2 = false := by
    constructor <;>
    simp [hitLess, apmEventSortFields, lessByFields, sameID2, sameID3, Document.GetBytes,
      pathKeys, splitDots, Document.get, List.lookup, Result.Less]
  ⟨sameID_noNaN.2.1, sameID_not_less, h23,
    (C19_strict_weak_order Document.GetBytes sameID1 sameID2 sameID3 sameID_noNaN.2.1
      sameID_not_less h23).1⟩

end approvaltest
